import Mathlib

/-!
Verification of the FactSage XML → CSV liquid-window analyzer (`main.py`).

The development shallowly embeds the analytical core of the program:

* text lines are `List Char` (the program only ever inspects lines through
  prefix tests, whitespace stripping/splitting and fixed regular expressions,
  so newline terminators are irrelevant and elided);
* Python floats are modelled by `PyFloat`: finite values are carried as exact
  rationals (the program's round-trip tolerances of 3–4 decimals dwarf binary
  double rounding, which is therefore not modelled), and the IEEE specials
  `inf`/`-inf`/`nan` are explicit constructors;
* each regular expression of the source is embedded as a deterministic
  maximal-munch matcher; for every pattern that appears in the source the
  greedy sub-patterns have character sets disjoint from the first characters
  admissible for their successors, so backtracking can never produce a match
  that maximal munch misses, and the deterministic matcher is equivalent;
* Python's stable `sort`/`sorted` is embedded as a stable insertion sort
  (a stable sort for a total preorder is unique, so this agrees with any
  stable sorting algorithm).
-/

set_option maxHeartbeats 4000000
set_option maxRecDepth 4000
set_option synthInstance.maxSize 512

namespace Stillmetal

/- Batteries marks the rational-number operations `@[irreducible]`; the
closed-form evaluations below need them to unfold. -/
attribute [local semireducible] Rat.ofScientific Rat.mul Rat.inv Rat.add Rat.sub

abbrev Line := List Char

/-- Python `str.strip()` / the whitespace class `\s` (ASCII fragment). -/
def isWs (c : Char) : Bool := c.isWhitespace

def pyStrip (l : Line) : Line := ((l.dropWhile isWs).reverse.dropWhile isWs).reverse

/-- Right strip only (`pyStrip` after the leading whitespace is gone). -/
def rstrip (l : Line) : Line := (l.reverse.dropWhile isWs).reverse

/-- `l.startswith p` / anchored literal matching. -/
def startsWith : Line → Line → Bool
  | [], _ => true
  | _ :: _, [] => false
  | p :: ps, c :: cs => p == c && startsWith ps cs

/-- Python `pat in l` (contiguous substring test). -/
def containsSeq : Line → Line → Bool
  | pat, [] => startsWith pat []
  | pat, c :: cs => startsWith pat (c :: cs) || containsSeq pat cs

def lowerL (l : Line) : Line := l.map Char.toLower

/-- The regex word-character class `\w` = `[A-Za-z0-9_]`. -/
def isWordChar (c : Char) : Bool := c.isAlphanum || c == '_'

/-- Does `tag` occur at the head of `l` with a `\b` boundary on both sides
(`prev` is the character immediately before this position, if any)? -/
def wbHere (tag : Line) (prev : Option Char) (l : Line) : Bool :=
  startsWith tag l &&
    (match prev with | none => true | some c => !isWordChar c) &&
    (match l.drop tag.length with | [] => true | c :: _ => !isWordChar c)

def wbSearchAux (tag : Line) : Option Char → Line → Bool
  | prev, [] => wbHere tag prev []
  | prev, c :: cs => wbHere tag prev (c :: cs) || wbSearchAux tag (some c) cs

/-- `re.search(r'\b tag \b', l)` for a tag made of word characters. -/
def hasWholeWord (tag : Line) (l : Line) : Bool := wbSearchAux tag none l

/-- Digit-string value (the `int(...)`/mantissa accumulator). -/
def digitsVal (l : Line) : ℕ := l.foldl (fun a c => 10 * a + (c.toNat - 48)) 0

def digitChar (n : ℕ) : Char := Char.ofNat (48 + n)

/-- Digit accumulation for `natToDigits`; the first argument is fuel, and
`n` steps always suffice since the value shrinks by a factor of ten each
step. -/
def natDigitsF : ℕ → ℕ → Line → Line
  | 0, _, acc => acc
  | fuel + 1, n, acc => if n = 0 then acc else natDigitsF fuel (n / 10) (digitChar (n % 10) :: acc)

/-- Decimal rendering of a natural number (Python `str`/`f"{n}"`). -/
def natToDigits (n : ℕ) : Line := if n = 0 then ['0'] else natDigitsF n n []

/-- Recursion-friendly form of the digit expansion (`[]` at zero), used to
reason about `natToDigits`. -/
def digitsSpec (n : ℕ) : Line :=
  if n = 0 then [] else digitsSpec (n / 10) ++ [digitChar (n % 10)]
decreasing_by exact Nat.div_lt_self (Nat.pos_of_ne_zero (by assumption)) (by norm_num)

def padZeros (w : ℕ) (ds : Line) : Line := List.replicate (w - ds.length) '0' ++ ds

def spacesL (n : ℕ) : Line := List.replicate n ' '

/-- Python format `{s:<w}` (left-justify, pad with spaces, never truncate). -/
def padRightL (w : ℕ) (s : Line) : Line := s ++ spacesL (w - s.length)

/-- Python format `{s:>w}`. -/
def padLeftL (w : ℕ) (s : Line) : Line := spacesL (w - s.length) ++ s

/-! ## The Python float model -/

inductive PyFloat where
  | finite (q : ℚ)
  | inf
  | ninf
  | nan
deriving DecidableEq, Repr

def PyFloat.isFinite : PyFloat → Bool
  | .finite _ => true
  | _ => false

/-- One maximal run of the CPython numeric-literal digit grammar
`[0-9](_?[0-9])*` (underscores allowed between digits only).
Returns the accumulated value, the number of digits read, and the rest. -/
def digitsULoop : Line → ℕ → ℕ → ℕ × ℕ × Line
  | [], v, k => (v, k, [])
  | c :: cs, v, k =>
      if c.isDigit then digitsULoop cs (10 * v + (c.toNat - 48)) (k + 1)
      else if c = '_' then
        match cs with
        | [] => (v, k, [c])
        | c2 :: cs2 =>
          if c2.isDigit then digitsULoop cs2 (10 * v + (c2.toNat - 48)) (k + 1)
          else (v, k, c :: c2 :: cs2)
      else (v, k, c :: cs)

def parseDigitsU : Line → Option (ℕ × ℕ × Line)
  | c :: cs => if c.isDigit then some (digitsULoop cs (c.toNat - 48) 1) else none
  | [] => none

def parseFracOpt (iv : ℕ) (r1 : Line) : ℚ × Line :=
  match r1 with
  | c2 :: r2 =>
      if c2 = '.' then
        match parseDigitsU r2 with
        | some (fv, fc, r3) => ((iv : ℚ) + (fv : ℚ) / 10 ^ fc, r3)
        | none => ((iv : ℚ), r2)
      else ((iv : ℚ), r1)
  | [] => ((iv : ℚ), [])

def parseMantissa (r : Line) : Option (ℚ × Line) :=
  match r with
  | c :: r1 =>
      if c = '.' then
        match parseDigitsU r1 with
        | some (fv, fc, r2) => some ((fv : ℚ) / 10 ^ fc, r2)
        | none => none
      else
        match parseDigitsU r with
        | some (iv, _, r1) => some (parseFracOpt iv r1)
        | none => none
  | [] => none

/-- Optional sign: returns (negative?, rest). -/
def parseSign (t : Line) : Bool × Line :=
  match t with
  | c :: r => if c = '+' then (false, r) else if c = '-' then (true, r) else (false, c :: r)
  | [] => (false, [])

def parseExpOpt (r : Line) : Option (ℤ × Line) :=
  match r with
  | c :: r1 =>
      if c = 'e' ∨ c = 'E' then
        let sr := parseSign r1
        match parseDigitsU sr.2 with
        | some (ev, _, r3) => some ((if sr.1 then -(ev : ℤ) else (ev : ℤ)), r3)
        | none => none
      else some (0, c :: r1)
  | [] => some (0, [])

def ciIs (l : Line) (w : Line) : Bool := l.map Char.toLower == w

/-- Values whose magnitude reaches `2^1024` overflow the IEEE double range;
CPython's string-to-float conversion turns them into infinities rather than
raising.  (The exact half-ulp overflow boundary is irrelevant at the scales
the program handles and is approximated by `2^1024`.) -/
def mkFin (neg : Bool) (q : ℚ) : PyFloat :=
  let v := if neg then -q else q
  if |v| ≥ ((2 ^ 1024 : ℕ) : ℚ) then (if neg then .ninf else .inf) else .finite v

/-- Model of CPython `float(s)` on ASCII text: optional sign, the named
specials `inf`/`infinity`/`nan` (case-insensitive), or a decimal literal with
optional fraction and exponent; `none` models `ValueError`.  Finite results
are kept as exact rationals (see the module docstring). -/
def pyFloatParse (s : Line) : Option PyFloat :=
  match pyStrip s with
  | [] => none
  | t =>
    let sr := parseSign t
    let neg := sr.1
    let r := sr.2
    if ciIs r ("inf".toList) || ciIs r ("infinity".toList) then
      some (if neg then .ninf else .inf)
    else if ciIs r ("nan".toList) then some .nan
    else
      match parseMantissa r with
      | none => none
      | some (m, r2) =>
        match parseExpOpt r2 with
        | none => none
        | some (e, r3) => if r3 = [] then some (mkFin neg (m * (10 : ℚ) ^ e)) else none

/-- `fnum` (main.py:24): tolerant float parse.  `str(x).strip()`, the legacy
exponent marker substitution `D`→`E`, empty input and `ValueError` both give
`0.0`.  (The `x is None` branch of the source also gives `0.0` and is covered
by the empty string.) -/
def fnumPre (x : Line) : Line := (pyStrip x).map (fun c => if c == 'D' then 'E' else c)

def fnum (x : Line) : PyFloat :=
  if fnumPre x = [] then .finite 0
  else match pyFloatParse (fnumPre x) with
    | some v => v
    | none => .finite 0

/-! ## Fixed-point formatting -/

/-- `round` to `d` decimal places as an exact rational (`f"{x:.df}"` rounds
the double to `d` places; ties, which require an exact half at binary scale,
are immaterial to the 3–4-decimal tolerances used below). -/
def roundDec (d : ℕ) (q : ℚ) : ℚ := ((round (q * 10 ^ d) : ℤ) : ℚ) / 10 ^ d

/-- `fmt3` (main.py:36): `"0"` for a zero magnitude, else fixed-point with
three decimals. -/
def fmt3 (q : ℚ) : Line :=
  if q = 0 then ['0']
  else
    let m : ℕ := (round (|q| * 1000) : ℤ).toNat
    (if q < 0 then ['-'] else []) ++ natToDigits (m / 1000) ++ '.' :: padZeros 3 (natToDigits (m % 1000))

/-- `fmt4` (main.py:39). -/
def fmt4 (q : ℚ) : Line :=
  if q = 0 then ['0']
  else
    let m : ℕ := (round (|q| * 10000) : ℤ).toNat
    (if q < 0 then ['-'] else []) ++ natToDigits (m / 10000) ++ '.' :: padZeros 4 (natToDigits (m % 10000))

/-- `f"{x:.2f}"` (used for the temperature columns of the report; note there
is no special case at zero, unlike `fmt3`/`fmt4`). -/
def fmt2 (q : ℚ) : Line :=
  let m : ℕ := (round (|q| * 100) : ℤ).toNat
  (if q < 0 then ['-'] else []) ++ natToDigits (m / 100) ++ '.' :: padZeros 2 (natToDigits (m % 100))

/-- `G_MIN` (main.py:42): grams threshold to list species/solids. -/
def G_MIN : ℚ := 1 / 100

/-! ## Label normalisation and phase classification -/

/-- `clean_phase_state` (main.py:20): `re.sub(r'^FT[a-zA-Z]+-', '', s)`.
The greedy letter run is maximal munch; a shorter run would leave a letter
where the literal `-` is required, so this is equivalent to the regex. -/
def clean_phase_state (s : Line) : Line :=
  match s with
  | a :: b :: rest =>
      if a = 'F' ∧ b = 'T' ∧ rest.takeWhile Char.isAlpha ≠ [] ∧
          (rest.dropWhile Char.isAlpha).head? = some '-' then
        (rest.dropWhile Char.isAlpha).tail
      else s
  | _ => s

/-- The prefix family as the specification words it: two uppercase letters,
then lowercase letters, then a hyphen. -/
def specPrefixPattern (s : Line) : Bool :=
  match s with
  | a :: b :: rest =>
      a.isUpper && b.isUpper && !(rest.takeWhile Char.isLower).isEmpty &&
        ((rest.dropWhile Char.isLower).head? == some '-')
  | _ => false

/-- The prefix family the code actually strips: the literal characters `FT`,
then one or more ASCII letters of either case, then a hyphen. -/
def ftPrefixPattern (s : Line) : Bool :=
  match s with
  | a :: b :: rest =>
      decide (a = 'F') && decide (b = 'T') && !(rest.takeWhile Char.isAlpha).isEmpty &&
        ((rest.dropWhile Char.isAlpha).head? == some '-')
  | _ => false

/-- `is_metal_liquid_phase` (main.py:314). -/
def is_metal_liquid_phase (name : Line) : Bool :=
  let n := lowerL name
  containsSeq ("fe-liq".toList) n || containsSeq ("liquid".toList) n

/-- `is_slag_liquid_phase` (main.py:318). -/
def is_slag_liquid_phase (name : Line) : Bool :=
  let n := lowerL name
  containsSeq ("slag".toList) n && (containsSeq ("liq".toList) n || containsSeq ("liquid".toList) n)

/-- `is_metal_intermetallic_phase` (main.py:322). -/
def is_metal_intermetallic_phase (name : Line) : Bool :=
  let n := lowerL name
  if containsSeq ("liq".toList) n || containsSeq ("liquid".toList) n || containsSeq ("slag".toList) n then
    false
  else
    hasWholeWord ("bcc".toList) n || hasWholeWord ("fcc".toList) n || hasWholeWord ("hcp".toList) n ||
      (containsSeq ("fe".toList) n && containsSeq ("si".toList) n && !containsSeq ("o".toList) n)

/-- Python `s.replace("(s)", "")`: left-to-right, non-overlapping. -/
def removeParenS : Line → Line
  | '(' :: 's' :: ')' :: cs => removeParenS cs
  | c :: cs => c :: removeParenS cs
  | [] => []

/-- `is_metal_intermetallic_puresolid` (main.py:328); case-sensitive. -/
def is_metal_intermetallic_puresolid (name : Line) : Bool :=
  let raw := removeParenS name
  containsSeq ("Fe".toList) raw && containsSeq ("Si".toList) raw && !containsSeq ("O".toList) raw

/-- `is_slag_solid_phase` (main.py:332). -/
def is_slag_solid_phase (name : Line) : Bool :=
  let n := lowerL name
  if containsSeq ("liq".toList) n || containsSeq ("liquid".toList) n then false
  else if containsSeq ("slag".toList) n then true
  else containsSeq ("o".toList) n

/-- `is_slag_puresolid` (main.py:340); case-sensitive. -/
def is_slag_puresolid (name : Line) : Bool := containsSeq ("O".toList) name

/-! ## Stable sorting (Python `sorted` / `list.sort`)

`insertBy lt x l` places `x` before the first element `y` of `l` that does
not strictly precede it (`lt y x = false`); folding from the right gives a
stable sort: elements equal under the preorder keep their original order,
exactly as Python's stable sorts (`reverse=True` included) behave.  A stable
sort for a total preorder is unique, so this agrees with Python's timsort. -/

def insertBy (lt : α → α → Bool) (x : α) : List α → List α
  | [] => [x]
  | y :: ys => if lt y x then y :: insertBy lt x ys else x :: y :: ys

def insertionSortBy (lt : α → α → Bool) (l : List α) : List α := l.foldr (insertBy lt) []

/-- Python string comparison (lexicographic by code point). -/
def lexLt : Line → Line → Bool
  | [], [] => false
  | [], _ :: _ => true
  | _ :: _, [] => false
  | a :: as, b :: bs => if a < b then true else if b < a then false else lexLt as bs

/-- `sorted(set(names))`: distinct names in ascending order. -/
def sortedUniqueNames (xs : List Line) : List Line := insertionSortBy lexLt xs.dedup

/-! ## The canonicalizer's serialization stage (main.py:115–206)

`convert_factsage_xml_to_txt` first extracts per-condition data from the XML
document and then emits one line block per condition.  The extraction is
plain attribute lookup; the emission (lines 115–200), which fixes the
intermediate text format, is embedded here over already-extracted condition
records (`InPage`).  Reactant mass is computed as `n * mw` exactly as at
main.py:128. -/

structure InRow where
  name : Line
  g : ℚ
  W : ℚ
  n : ℚ
  X : ℚ
  a : ℚ
deriving DecidableEq, Repr

structure InPhase where
  name : Line
  gAgg : ℚ
  rows : List InRow
deriving DecidableEq, Repr

structure InReactant where
  name : Line
  n : ℚ
  mw : ℚ
deriving DecidableEq, Repr

structure InSolid where
  name : Line
  g : ℚ
  a : ℚ
deriving DecidableEq, Repr

structure InPage where
  pid : ℕ
  tC : ℚ
  patm : ℚ
  formula : Line
  reactants : List InReactant
  phases : List InPhase
  solids : List InSolid
deriving DecidableEq, Repr

/-- Species rows of a phase passing the `g >= G_MIN` filter (main.py:160). -/
def qualRows (ph : InPhase) : List InRow := ph.rows.filter (fun r => G_MIN ≤ r.g)

/-- `rows.sort(key=lambda rr: rr["g"], reverse=True)` (main.py:170). -/
def sortedRows (ph : InPhase) : List InRow :=
  insertionSortBy (fun a b => decide (b.g < a.g)) (qualRows ph)

/-- Qualifying solution phases ordered by descending aggregate mass
(main.py:137–139). -/
def orderedPhases (p : InPage) : List InPhase :=
  insertionSortBy (fun a b => decide (b.gAgg < a.gAgg)) (p.phases.filter (fun ph => G_MIN ≤ ph.gAgg))

/-- Qualifying pure solids, descending mass (main.py:185–198). -/
def qualSolids (p : InPage) : List InSolid :=
  insertionSortBy (fun a b => decide (b.g < a.g)) (p.solids.filter (fun s => G_MIN ≤ s.g))

def sepLine : Line := List.replicate 70 '='

def headerLine (p : InPage) : Line :=
  ("Page ".toList) ++ natToDigits p.pid ++ (" - ".toList) ++ fmt3 p.tC ++ (" C".toList)

def tempLine (p : InPage) : Line :=
  ("T = ".toList) ++ fmt3 p.tC ++ (" C | T(K) = ".toList) ++ fmt3 (p.tC + 27315 / 100) ++
    (" | P = ".toList) ++ fmt3 p.patm ++ (" atm".toList)

def emitReactantLine (r : InReactant) : Line :=
  ("  ".toList) ++ padRightL 4 r.name ++ (" n = ".toList) ++ fmt3 r.n ++
    (" mol | m = ".toList) ++ fmt3 (r.n * r.mw) ++ (" g".toList)

def emitRowLine (r : InRow) : Line :=
  ("  ".toList) ++ padRightL 14 r.name ++ padLeftL 10 (fmt3 r.g) ++
    padLeftL 10 (fmt3 (r.W * 100)) ++ padLeftL 8 (fmt3 r.n) ++
    padLeftL 8 (fmt3 r.X) ++ padLeftL 12 (fmt4 r.a)

def phaseColsLine : Line :=
  padRightL 16 ("Compound".toList) ++ padLeftL 10 ("Mass(g)".toList) ++
    padLeftL 10 ("W(%)".toList) ++ padLeftL 8 ("Mol".toList) ++
    padLeftL 8 ("X".toList) ++ padLeftL 12 ("Activity".toList)

def emitTotalLine (ph : InPhase) : Line :=
  ("  ".toList) ++ padRightL 14 ("TOTAL".toList) ++
    padLeftL 10 (fmt3 (((qualRows ph).map (·.g)).sum)) ++ padLeftL 10 (fmt3 100) ++
    padLeftL 8 (fmt3 (((qualRows ph).map (·.n)).sum)) ++ padLeftL 8 (fmt3 1) ++
    padLeftL 12 (fmt4 (((qualRows ph).map (·.a)).sum))

def emitPhase (ph : InPhase) : List Line :=
  (("PHASE: ".toList) ++ ph.name) :: phaseColsLine ::
    ((sortedRows ph).map emitRowLine ++ [emitTotalLine ph, []])

def solidColsLine : Line :=
  padRightL 24 ("Compound".toList) ++ padLeftL 12 ("g".toList) ++ padLeftL 14 ("Activity".toList)

def emitSolidLine (s : InSolid) : Line :=
  ("  ".toList) ++ padRightL 22 s.name ++ padLeftL 12 (fmt3 s.g) ++ padLeftL 14 (fmt4 s.a)

def emitSolidsSection (p : InPage) : List Line :=
  if qualSolids p = [] then []
  else ("PURE SOLIDS:".toList) :: solidColsLine :: ((qualSolids p).map emitSolidLine ++ [[]])

/-- One serialized condition block (main.py:115–200). -/
def emitBlock (p : InPage) : List Line :=
  [sepLine, headerLine p, p.formula, tempLine p, [], ("Reactants (page scope):".toList)] ++
    p.reactants.map emitReactantLine ++ [[]] ++
    (List.map emitPhase (orderedPhases p)).flatten ++ emitSolidsSection p

/-- The serialized text stream for a condition record set. -/
def convert_pages_to_txt (ps : List InPage) : List Line := (ps.map emitBlock).flatten

/-! ## Temperature fallback of the canonicalizer (main.py:103–105)

`re.search(r'(-?\d+(?:\.\d+)?)\s*C', desc)`: leftmost match, group 1 is the
(number) text handed to `fnum`.  A shorter greedy digit run leaves a digit
where whitespace or `C` is required, so maximal munch at each start position
is equivalent to the backtracking regex. -/

def isNumDotChar (c : Char) : Bool := c.isDigit || c == '.'

def descNumAt (l : Line) : Option (Line × Line) :=
  let sr : Line × Line := match l with
    | '-' :: r => (['-'], r)
    | r => ([], r)
  match sr.2.takeWhile Char.isDigit, sr.2.dropWhile Char.isDigit with
  | [], _ => none
  | ds, rest =>
    match rest with
    | '.' :: r2 =>
      match r2.takeWhile Char.isDigit, r2.dropWhile Char.isDigit with
      | [], _ => some (sr.1 ++ ds, rest)
      | fs, r3 => some (sr.1 ++ ds ++ '.' :: fs, r3)
    | _ => some (sr.1 ++ ds, rest)

def descCSuffix (rest : Line) : Bool :=
  match rest.dropWhile isWs with
  | 'C' :: _ => true
  | _ => false

def descTempSearch : Line → Option Line
  | [] => none
  | c :: cs =>
    match descNumAt (c :: cs) with
    | some (g, rest) => if descCSuffix rest then some g else descTempSearch cs
    | none => descTempSearch cs

/-! ## The reconstructor `parse_txt_pages` (main.py:211–309)

Each regex of the parser is embedded as noted in the module docstring:

* page header `^Page\s+(\d+)\s*-\s*([0-9.]+)\s*C` — `matchPageHeader`;
* the six-field row `^\s*(\S+)\s+([0-9.\-]+)…([0-9.\-]+)\s*$` matches a line
  exactly when it splits into six whitespace-delimited tokens whose last five
  lie in the `[0-9.\-]` class (the groups cannot straddle whitespace and the
  mandatory `\s+`/`\s*$` around them pin each group to a whole token) —
  `matchRow6`, and analogously the three-field solids row — `matchRow3`;
* `^\s*Fe\b.*?m\s*=\s*([0-9.]+)\s*g` — `feSearch` (the lazy `.*?` is the
  leftmost position whose tail matches).

`float(...)` applied to a matched group raises `ValueError` on text such as
`"1.2.3"`, aborting `parse_txt_pages`; this (and the out-of-double-range
case, unreachable at the program's scales) is modelled by the parser
returning `none`.  The `try/except` around the reactant mass instead keeps
the previous value. -/

structure Row where
  name : Line
  g : ℚ
  W : ℚ
  n : ℚ
  X : ℚ
  a : ℚ
deriving DecidableEq, Repr

structure PPhase where
  name : Line
  rows : List Row
deriving DecidableEq, Repr

structure PSolid where
  name : Line
  g : ℚ
deriving DecidableEq, Repr

structure Page where
  page_num : ℕ
  T_C : ℚ
  Fe_g : Option ℚ
  phases : List PPhase
  pure_solids : List PSolid
deriving DecidableEq, Repr

def finQ (t : Line) : Option ℚ :=
  match pyFloatParse t with
  | some (.finite q) => some q
  | _ => none

def dropLit (p : Line) (l : Line) : Option Line :=
  if startsWith p l then some (l.drop p.length) else none

def matchPageHeader (l : Line) : Option (ℕ × Line) :=
  match dropLit ("Page".toList) l with
  | none => none
  | some r1 =>
    if r1.takeWhile isWs = [] then none
    else
      let r2 := r1.dropWhile isWs
      match r2.takeWhile Char.isDigit, r2.dropWhile Char.isDigit with
      | [], _ => none
      | ds, r3 =>
        match r3.dropWhile isWs with
        | '-' :: r5 =>
          let r6 := r5.dropWhile isWs
          match r6.takeWhile isNumDotChar, r6.dropWhile isNumDotChar with
          | [], _ => none
          | ts, r7 =>
            match r7.dropWhile isWs with
            | 'C' :: _ => some (digitsVal ds, ts)
            | _ => none
        | _ => none

def feTailAt (l : Line) : Option Line :=
  match l with
  | c :: r =>
    if c = 'm' then
      match r.dropWhile isWs with
      | c2 :: r2 =>
        if c2 = '=' then
          let r3 := r2.dropWhile isWs
          match r3.takeWhile isNumDotChar, r3.dropWhile isNumDotChar with
          | [], _ => none
          | ds, r4 =>
            match r4.dropWhile isWs with
            | c3 :: _ => if c3 = 'g' then some ds else none
            | _ => none
        else none
      | [] => none
    else none
  | [] => none

def feScan : Line → Option Line
  | [] => none
  | c :: cs =>
    match feTailAt (c :: cs) with
    | some ds => some ds
    | none => feScan cs

def feSearch (l : Line) : Option Line :=
  match dropLit ("Fe".toList) (l.dropWhile isWs) with
  | none => none
  | some rest =>
    if (match rest with | c :: _ => isWordChar c | [] => false) then none else feScan rest

def feUpdate (fe : Option ℚ) (l : Line) : Option ℚ :=
  match feSearch l with
  | some ds =>
    match pyFloatParse ds with
    | some (.finite q) => some q
    | _ => fe
  | none => fe

theorem dropWhile_length_le {α} (p : α → Bool) (l : List α) :
    (l.dropWhile p).length ≤ l.length := by
  induction l with
  | nil => simp
  | cons c cs ih =>
    rw [List.dropWhile_cons]
    split
    · exact Nat.le_succ_of_le ih
    · simp

/-- Whitespace tokenization (Python `\s+`-delimited groups / `str.split()`):
`cur` accumulates the current token in reverse. -/
def tokAux : Line → Line → List Line
  | cur, [] => if cur = [] then [] else [cur.reverse]
  | cur, c :: cs =>
    if isWs c then (if cur = [] then tokAux [] cs else cur.reverse :: tokAux [] cs)
    else tokAux (c :: cur) cs

def tokenize (l : Line) : List Line := tokAux [] l

def isNumTokChar (c : Char) : Bool := c.isDigit || c == '.' || c == '-'

def matchRow6 (s2 : Line) : Option (Line × Line × Line × Line × Line × Line) :=
  match tokenize s2 with
  | [t1, t2, t3, t4, t5, t6] =>
    if (t2.all isNumTokChar && t3.all isNumTokChar && t4.all isNumTokChar &&
        t5.all isNumTokChar && t6.all isNumTokChar) then
      some (t1, t2, t3, t4, t5, t6)
    else none
  | _ => none

def matchRow3 (s2 : Line) : Option (Line × Line × Line) :=
  match tokenize s2 with
  | [t1, t2, t3] =>
    if (t2.all isNumTokChar && t3.all isNumTokChar) then some (t1, t2, t3) else none
  | _ => none

/-- Segment of `l` before the first occurrence of `pat` (for
`st.split(pat)[1]` after the leading occurrence has been dropped). -/
def upToNext (pat : Line) : Line → Line
  | [] => []
  | c :: cs => if startsWith pat (c :: cs) then [] else c :: upToNext pat cs

def nextIsPageSep : List Line → Bool
  | l1 :: l2 :: _ => startsWith (List.replicate 10 '=') l1 && containsSeq ("Page".toList) l2
  | _ => false

/-- The reactant scan (main.py:236–249): skip to the reactants label, then
fold the Fe matcher over the lines up to the first blank or `PHASE:` line. -/
def scanFeLines : List Line → Option ℚ → Option ℚ × List Line
  | [], fe => (fe, [])
  | l :: ls, fe =>
    if pyStrip l = [] || startsWith ("PHASE:".toList) l then (fe, l :: ls)
    else scanFeLines ls (feUpdate fe l)

def scanReactants : List Line → Option ℚ × List Line
  | [] => (none, [])
  | l :: ls =>
    if startsWith ("PHASE:".toList) l then (none, l :: ls)
    else if startsWith ("Reactants (page scope):".toList) (pyStrip l) then scanFeLines ls none
    else scanReactants ls

/-- Row conversion of one matched six-field line: `none` = the regex did not
match (line silently skipped), `some none` = a `float(...)` call raised,
`some (some r)` = a stored `CompositionRow`. -/
def rowParse6 (s2 : Line) : Option (Option Row) :=
  match matchRow6 s2 with
  | none => none
  | some (t1, t2, t3, t4, t5, t6) =>
    match finQ t2, finQ t3, finQ t4, finQ t5, finQ t6 with
    | some g, some W, some n, some X, some a => some (some ⟨t1, g, W, n, X, a⟩)
    | _, _, _, _, _ => some none

def rowParse3 (s2 : Line) : Option (Option PSolid) :=
  match matchRow3 s2 with
  | none => none
  | some (t1, t2, _) =>
    match finQ t2 with
    | some g => some (some ⟨t1, g⟩)
    | none => some none

def breakRow6 (s2 : Line) : Bool :=
  decide (s2 = []) || startsWith ("PHASE:".toList) s2 || startsWith ("PURE SOLIDS:".toList) s2 ||
    startsWith ("System Thermodynamics:".toList) s2

def breakRow3 (s2 : Line) : Bool :=
  decide (s2 = []) || startsWith ("PHASE:".toList) s2 ||
    startsWith ("System Thermodynamics:".toList) s2

/-- Species-row loop of a `PHASE:` section (main.py:262–282). -/
def scanPhaseRows : List Line → Option (List Row × List Line)
  | [] => some ([], [])
  | l :: ls =>
    if breakRow6 (pyStrip l) then some ([], l :: ls)
    else if startsWith ("TOTAL".toList) (pyStrip l) then scanPhaseRows ls
    else
      match rowParse6 (pyStrip l) with
      | none => scanPhaseRows ls
      | some none => none
      | some (some r) => (scanPhaseRows ls).map (fun pr => (r :: pr.1, pr.2))

/-- Pure-solid row loop (main.py:286–296); only name and mass are stored. -/
def scanSolidRows : List Line → Option (List PSolid × List Line)
  | [] => some ([], [])
  | l :: ls =>
    if breakRow3 (pyStrip l) then some ([], l :: ls)
    else
      match rowParse3 (pyStrip l) with
      | none => scanSolidRows ls
      | some none => none
      | some (some r) => (scanSolidRows ls).map (fun pr => (r :: pr.1, pr.2))

theorem scanPhaseRows_rest_le (l : List Line) :
    ∀ rows rest, scanPhaseRows l = some (rows, rest) → rest.length ≤ l.length := by
  induction l with
  | nil => intro rows rest h; simp [scanPhaseRows] at h; simp [h.2]
  | cons x xs ih =>
    intro rows rest h
    rw [scanPhaseRows] at h
    split at h
    · cases h; simp
    · split at h
      · exact Nat.le_succ_of_le (ih _ _ h)
      · cases hp : rowParse6 (pyStrip x) <;> rw [hp] at h
        · exact Nat.le_succ_of_le (ih _ _ h)
        · rename_i oR
          cases oR with
          | none => simp at h
          | some r =>
            simp only [] at h
            cases hr : scanPhaseRows xs with
            | none => rw [hr] at h; simp at h
            | some pr =>
              rw [hr] at h
              simp at h
              obtain ⟨-, hrest⟩ := h
              exact Nat.le_succ_of_le (hrest ▸ ih _ _ hr)

theorem scanSolidRows_rest_le (l : List Line) :
    ∀ rows rest, scanSolidRows l = some (rows, rest) → rest.length ≤ l.length := by
  induction l with
  | nil => intro rows rest h; simp [scanSolidRows] at h; simp [h.2]
  | cons x xs ih =>
    intro rows rest h
    rw [scanSolidRows] at h
    split at h
    · cases h; simp
    · cases hp : rowParse3 (pyStrip x) <;> rw [hp] at h
      · exact Nat.le_succ_of_le (ih _ _ h)
      · rename_i oR
        cases oR with
        | none => simp at h
        | some r =>
          simp only [] at h
          cases hr : scanSolidRows xs with
          | none => rw [hr] at h; simp at h
          | some pr =>
            rw [hr] at h
            simp at h
            obtain ⟨-, hrest⟩ := h
            exact Nat.le_succ_of_le (hrest ▸ ih _ _ hr)

/-- Section loop (main.py:254–298): dispatch on `PHASE:` / `PURE SOLIDS:`
markers, stopping at a page separator or end of input.  The fuel argument
only bounds the recursion: every step consumes at least one line, so any
fuel `≥ ll.length` is enough and the callers pass exactly `ll.length`
(`scanSections_fuel` below shows the result is fuel-independent from that
point on). -/
def scanSections : ℕ → List Line → Option (List PPhase × List PSolid × List Line)
  | _, [] => some ([], [], [])
  | fuel, l :: ls =>
    if nextIsPageSep (l :: ls) then some ([], [], l :: ls)
    else
      match fuel with
      | 0 => none
      | fuel + 1 =>
          if startsWith ("PHASE:".toList) (pyStrip l) then
            match scanPhaseRows (ls.drop 1) with
            | none => none
            | some (rows, rest) =>
              match scanSections fuel rest with
              | none => none
              | some (phs, sols, rest2) =>
                some (⟨pyStrip (upToNext ("PHASE:".toList) ((pyStrip l).drop 6)), rows⟩ :: phs,
                  sols, rest2)
          else if startsWith ("PURE SOLIDS:".toList) (pyStrip l) then
            match scanSolidRows (ls.drop 1) with
            | none => none
            | some (srows, rest) =>
              match scanSections fuel rest with
              | none => none
              | some (phs, sols, rest2) => some (phs, srows ++ sols, rest2)
          else scanSections fuel ls

theorem scanFeLines_rest_le (l : List Line) (fe : Option ℚ) :
    (scanFeLines l fe).2.length ≤ l.length := by
  induction l generalizing fe with
  | nil => simp [scanFeLines]
  | cons x xs ih =>
    rw [scanFeLines]
    split
    · simp
    · exact Nat.le_succ_of_le (ih _)

theorem scanReactants_rest_le (l : List Line) : (scanReactants l).2.length ≤ l.length := by
  induction l with
  | nil => simp [scanReactants]
  | cons x xs ih =>
    rw [scanReactants]
    split
    · simp
    · split
      · exact Nat.le_succ_of_le (scanFeLines_rest_le _ _)
      · exact Nat.le_succ_of_le ih

theorem scanSections_rest_le (fuel : ℕ) : ∀ (ll : List Line) phs sols rest,
    scanSections fuel ll = some (phs, sols, rest) → rest.length ≤ ll.length := by
  induction fuel with
  | zero =>
    intro ll phs sols rest h
    cases ll with
    | nil =>
      rw [scanSections] at h
      simp at h
      simp [h.2.2]
    | cons l ls =>
      rw [scanSections] at h
      split at h
      · cases h; exact le_refl _
      · exact Option.noConfusion h
  | succ n ih =>
    intro ll phs sols rest h
    cases ll with
    | nil =>
      rw [scanSections] at h
      simp at h
      simp [h.2.2]
    | cons l ls =>
      rw [scanSections] at h
      split at h
      · cases h; exact le_refl _
      · split at h
        · split at h
          · exact Option.noConfusion h
          · rename_i rows0 rest0 hp
            split at h
            · exact Option.noConfusion h
            · rename_i phs0 sols0 rest2 hs
              simp at h
              obtain ⟨-, -, hrest⟩ := h
              subst hrest
              have hb1 : rest0.length ≤ (ls.drop 1).length := scanPhaseRows_rest_le _ _ _ hp
              have hb2 : rest2.length ≤ rest0.length := ih _ _ _ _ hs
              have := List.length_drop 1 ls
              simp only [List.length_cons]
              omega
        · split at h
          · split at h
            · exact Option.noConfusion h
            · rename_i rows0 rest0 hp
              split at h
              · exact Option.noConfusion h
              · rename_i phs0 sols0 rest2 hs
                simp at h
                obtain ⟨-, -, hrest⟩ := h
                subst hrest
                have hb1 : rest0.length ≤ (ls.drop 1).length := scanSolidRows_rest_le _ _ _ hp
                have hb2 : rest2.length ≤ rest0.length := ih _ _ _ _ hs
                have := List.length_drop 1 ls
                simp only [List.length_cons]
                omega
          · have hb : rest.length ≤ ls.length := ih _ _ _ _ h
            simp only [List.length_cons]
            omega

theorem scanReactants_rest_eq_le {l rest : List Line} {fe : Option ℚ}
    (h : scanReactants l = (fe, rest)) : rest.length ≤ l.length := by
  have h2 := scanReactants_rest_le l
  rw [h] at h2
  exact h2

/-- `parse_txt_pages` (main.py:211): outer loop over lines, emitting one
`Page` per matched page-header line.  As with `scanSections`, the fuel only
bounds the recursion (each iteration consumes at least one line), and the
entry point passes the line count. -/
def parseTxtLoop : ℕ → List Line → Option (List Page)
  | _, [] => some []
  | 0, _ :: _ => none
  | fuel + 1, line :: rest =>
    match matchPageHeader (pyStrip line) with
    | none => parseTxtLoop fuel rest
    | some (pn, tstr) =>
      match finQ tstr with
      | none => none
      | some t =>
        match scanReactants rest with
        | (fe, rest1) =>
          match scanSections rest1.length rest1 with
          | none => none
          | some (phs, sols, rest2) =>
            match parseTxtLoop fuel rest2 with
            | none => none
            | some ps =>
              some (({ page_num := pn, T_C := t, Fe_g := fe, phases := phs,
                       pure_solids := sols } : Page) :: ps)

def parse_txt_pages (lines : List Line) : Option (List Page) := parseTxtLoop lines.length lines

/-! ## Run grouping (`group_simulations`, main.py:377–393) -/

/-- The run-boundary test of main.py:382–384: a page-1 header with a
non-empty current run, or a tracked-reactant-mass jump beyond `fe_tol`
relative to the last condition that reported the mass. -/
def resetCond (p : Page) (cur : List Page) (last_fe : Option ℚ) : Bool :=
  (decide (p.page_num = 1) && !cur.isEmpty) ||
    (match last_fe, p.Fe_g with
     | some lf, some g => decide (|g - lf| > 1 / 1000)
     | _, _ => false)

def groupStep (acc : List (List Page) × List Page × Option ℚ) (p : Page) :
    List (List Page) × List Page × Option ℚ :=
  let sims := acc.1
  let cur := acc.2.1
  let lf := acc.2.2
  let sims' := if resetCond p cur lf then sims ++ [cur] else sims
  let cur' := if resetCond p cur lf then [p] else cur ++ [p]
  (sims', cur', if p.Fe_g.isSome then p.Fe_g else lf)

def group_simulations (pages : List Page) : List (List Page) :=
  let fin := pages.foldl groupStep ([], [], none)
  if fin.2.1.isEmpty then fin.1 else fin.1 ++ [fin.2.1]

/-! ## The run analyzer (`analyze_simulation`, main.py:398–484) -/

abbrev Comp := List (Line × ℚ × ℚ × ℚ)

/-- Python dict insertion: first occurrence fixes the position, the last
assignment fixes the value. -/
def dictInsert (d : Comp) (k : Line) (v : ℚ × ℚ × ℚ) : Comp :=
  match d with
  | [] => [(k, v)]
  | (k', v') :: ds => if k' = k then (k, v) :: ds else (k', v') :: dictInsert ds k v

def dictGet (d : Comp) (k : Line) (dflt : ℚ × ℚ × ℚ) : ℚ × ℚ × ℚ :=
  match d with
  | [] => dflt
  | (k', v') :: ds => if k' = k then v' else dictGet ds k dflt

/-- `{r["name"]: (r["W"], r["a"], r["g"]) for r in rows}` (main.py:447). -/
def compOfRows (rows : List Row) : Comp :=
  rows.foldl (fun d r => dictInsert d r.name (r.W, r.a, r.g)) []

structure AnalysisResult where
  Fe_g : Option ℚ := none
  best_T : Option ℚ := none
  best_Si : Option ℚ := none
  best_comp : Comp := []
  stop_T : Option ℚ := none
  stop_phases : List Line := []
  slag_first_T : Option ℚ := none
  slag_first_phases : List Line := []
  slag_comp_before : Comp := []
deriving DecidableEq, Repr

structure ScanState where
  collected : List (ℚ × Comp × ℚ) := []
  stop_T : Option ℚ := none
  stop_phases : List Line := []
  prev_slag_comp : Option Comp := none
  slag_first_T : Option ℚ := none
  slag_first_phases : List Line := []
  slag_comp_before : Option Comp := none
deriving DecidableEq, Repr

/-- Names of slag-solid matches at a condition (main.py:415–421). -/
def slagMatchesOf (pg : Page) : List Line :=
  (pg.phases.filter (fun ph => !ph.rows.isEmpty && is_slag_solid_phase ph.name)).map (·.name) ++
    (pg.pure_solids.filter (fun ps => decide (G_MIN ≤ ps.g) && is_slag_puresolid ps.name)).map (·.name)

/-- Names of metal-intermetallic matches at a condition (main.py:428–434). -/
def metalMatchesOf (pg : Page) : List Line :=
  (pg.phases.filter (fun ph => !ph.rows.isEmpty && is_metal_intermetallic_phase ph.name)).map (·.name) ++
    (pg.pure_solids.filter (fun ps => decide (G_MIN ≤ ps.g) && is_metal_intermetallic_puresolid ps.name)).map (·.name)

/-- First-slag-solid bookkeeping (main.py:414–425). -/
def slagFirstUpdate (st : ScanState) (pg : Page) : ScanState :=
  if st.slag_first_T = none then
    let here := slagMatchesOf pg
    if here.isEmpty then st
    else
      { st with slag_first_T := some pg.T_C, slag_first_phases := sortedUniqueNames here,
                slag_comp_before := st.prev_slag_comp }
  else st

/-- Metallic-liquid snapshot (main.py:441–449): the first phase in listed
order classified metal-liquid with at least one row. -/
def liquidUpdate (st : ScanState) (pg : Page) : ScanState :=
  match pg.phases.find? (fun ph => is_metal_liquid_phase ph.name && !ph.rows.isEmpty) with
  | some liq =>
    let comp := compOfRows liq.rows
    { st with collected := st.collected ++ [(pg.T_C, comp, (dictGet comp ("Si".toList) (0, 0, 0)).1)] }
  | none => st

/-- Slag-liquid snapshot (main.py:452–458). -/
def slagLiqUpdate (st : ScanState) (pg : Page) : ScanState :=
  match pg.phases.find? (fun ph => is_slag_liquid_phase ph.name && !ph.rows.isEmpty) with
  | some sl => { st with prev_slag_comp := some (compOfRows sl.rows) }
  | none => st

/-- The descending-temperature scan (main.py:412–458).  A first
metal-intermetallic match records the stop point and breaks out of the
loop (main.py:435–438). -/
def scanLoop : List Page → ScanState → ScanState
  | [], st => st
  | pg :: rest, st =>
    let st1 := slagFirstUpdate st pg
    let metal := metalMatchesOf pg
    if !metal.isEmpty && st1.stop_T = none then
      { st1 with stop_T := some pg.T_C, stop_phases := sortedUniqueNames metal }
    else scanLoop rest (slagLiqUpdate (liquidUpdate st1 pg) pg)

/-- Python `max(collected, key=lambda r: r["Si_w"])`: the first element
attaining the maximum (replacement only on strict improvement). -/
def maxBySi (c : ℚ × Comp × ℚ) (cs : List (ℚ × Comp × ℚ)) : ℚ × Comp × ℚ :=
  cs.foldl (fun acc x => if x.2.2 > acc.2.2 then x else acc) c

/-- `analyze_simulation` (main.py:398): sort the run's conditions by
descending temperature (stable), scan, then select the snapshot of maximal
silicon weight value. -/
def analyze_simulation (sim : List Page) : AnalysisResult :=
  let sp := insertionSortBy (fun a b => decide (b.T_C < a.T_C)) sim
  let fe := match sp with
    | [] => none
    | p :: _ => p.Fe_g
  let st := scanLoop sp {}
  match st.collected with
  | [] =>
    ({ Fe_g := fe, stop_T := st.stop_T, stop_phases := st.stop_phases,
       slag_first_T := st.slag_first_T, slag_first_phases := st.slag_first_phases,
       slag_comp_before := st.slag_comp_before.getD [] } : AnalysisResult)
  | c :: cs =>
    let best := maxBySi c cs
    ({ Fe_g := fe, best_T := some best.1, best_Si := some best.2.2, best_comp := best.2.1,
       stop_T := st.stop_T, stop_phases := st.stop_phases,
       slag_first_T := st.slag_first_T, slag_first_phases := st.slag_first_phases,
       slag_comp_before := st.slag_comp_before.getD [] } : AnalysisResult)

/-! ## Ranking and report rendering (main.py:487–494 and 516–542) -/

/-- The validity filter of main.py:492: a best-liquid snapshot exists. -/
def validResult (r : AnalysisResult) : Bool := r.best_Si.isSome && !r.best_comp.isEmpty

def sortKeyOf (r : AnalysisResult) : ℚ := -(r.best_Si.getD 0)

/-- `run_liquid_analysis` after analysis (main.py:492–494): filter invalid
runs, stable-sort ascending by the negated best-Si key (i.e. descending
best-Si), keep the top 3.  (`best_Si` is `some` for every run passing the
filter, so `getD` never supplies its default along this path.) -/
def rankResults (rs : List AnalysisResult) : List AnalysisResult :=
  (insertionSortBy (fun a b => decide (sortKeyOf a < sortKeyOf b)) (rs.filter validResult)).take 3

/-- The whole pipeline from the serialized text (main.py:487–494). -/
def run_liquid_analysis (lines : List Line) : Option (List AnalysisResult) :=
  (parse_txt_pages lines).map fun pages =>
    rankResults ((group_simulations pages).map analyze_simulation)

def notFound : Line := "not found".toList

def joinWith (sep : Line) : List Line → Line
  | [] => []
  | [x] => x
  | x :: y :: ys => x ++ sep ++ joinWith sep (y :: ys)

/-- `format_comp` (main.py:346): items sorted by descending weight value,
each rendered with weight and activity. -/
def format_comp (d : Comp) : Line :=
  let items := insertionSortBy (fun a b => decide (b.2.1 < a.2.1)) d
  joinWith ("  |  ".toList)
    (items.map fun kv =>
      kv.1 ++ (":  ".toList) ++ fmt3 kv.2.1 ++ ("  (a=".toList) ++ fmt4 kv.2.2.1 ++ (")  ".toList))

/-- `comp_total_mass` (main.py:362). -/
def comp_total_mass (d : Comp) : ℚ := (d.map (·.2.2.2)).sum

/-- `comp_text_with_total` (main.py:369). -/
def comp_text_with_total (d : Comp) : Line :=
  format_comp d ++ ("  |  TOTAL: ".toList) ++ fmt3 (comp_total_mass d) ++ (" g".toList)

/-- One CSV data row of the report (main.py:530–542): rank, reactant mass,
best temperature, best silicon weight value, composition summary, stop
fields, slag fields; unset values render as `"not found"`. -/
def renderRow (idx : ℕ) (r : AnalysisResult) : List Line :=
  [natToDigits idx,
   (match r.Fe_g with | none => notFound | some v => fmt3 v),
   (match r.best_T with | none => notFound | some v => fmt2 v),
   (match r.best_Si with | none => notFound | some v => fmt3 v),
   (if r.best_comp.isEmpty then notFound else comp_text_with_total r.best_comp),
   (match r.stop_T with | none => notFound | some v => fmt2 v),
   (if r.stop_phases.isEmpty then notFound else joinWith (", ".toList) r.stop_phases),
   (match r.slag_first_T with | none => notFound | some v => fmt2 v),
   (if r.slag_first_phases.isEmpty then notFound else joinWith (", ".toList) r.slag_first_phases),
   (if r.slag_comp_before.isEmpty then notFound else comp_text_with_total r.slag_comp_before)]

/-! ## Well-formedness of synthetic condition records

The round-trip and block-skipping statements quantify over condition records
whose labels cannot be mistaken for the parser's own line markers and whose
magnitudes fit the emitted column widths (so adjacent columns always keep at
least one separating space).  These are exactly the shapes the canonicalizer
produces from real exports. -/

def wfName (nm : Line) : Prop :=
  nm ≠ [] ∧ (∀ c ∈ nm, isWs c = false) ∧
    startsWith ("PHASE:".toList) nm = false ∧ startsWith ("PURE".toList) nm = false ∧
    startsWith ("System".toList) nm = false ∧ startsWith ("TOTAL".toList) nm = false ∧
    startsWith ("Page".toList) nm = false

instance (nm : Line) : Decidable (wfName nm) := by unfold wfName; infer_instance

def wfRow (r : InRow) : Prop :=
  wfName r.name ∧ 0 ≤ r.g ∧ r.g ≤ 9999 ∧ 0 ≤ r.W ∧ r.W ≤ 1 ∧ 0 ≤ r.n ∧ r.n ≤ 999 ∧
    0 ≤ r.X ∧ r.X ≤ 1 ∧ 0 ≤ r.a ∧ r.a ≤ 9999

instance (r : InRow) : Decidable (wfRow r) := by unfold wfRow; infer_instance

def wfPhase (ph : InPhase) : Prop :=
  pyStrip ph.name = ph.name ∧ containsSeq ("PHASE:".toList) ph.name = false ∧
    (∀ c ∈ ph.name, decide (c = '\n') = false) ∧ (∀ r ∈ ph.rows, wfRow r) ∧ ph.name ≠ []

instance (ph : InPhase) : Decidable (wfPhase ph) := by unfold wfPhase; infer_instance

def wfSolid (s : InSolid) : Prop :=
  wfName s.name ∧ 0 ≤ s.g ∧ s.g ≤ 9999 ∧ 0 ≤ s.a ∧ s.a ≤ 9999

instance (s : InSolid) : Decidable (wfSolid s) := by unfold wfSolid; infer_instance

/-- Does the reactant name itself start with `Fe` at a `\b` boundary (making
`^\s*Fe\b` match its line)?  Well-formed inputs reserve this for `Fe`. -/
def fePrefixBoundary (nm : Line) : Bool :=
  match nm with
  | 'F' :: 'e' :: rest => match rest with | [] => true | c :: _ => !isWordChar c
  | _ => false

def wfReactant (r : InReactant) : Prop :=
  r.name ≠ [] ∧ (∀ c ∈ r.name, isWs c = false) ∧ startsWith ("Page".toList) r.name = false ∧
    0 ≤ r.n ∧ 0 ≤ r.mw ∧ (r.name = "Fe".toList ∨ fePrefixBoundary r.name = false) ∧
    r.n ≤ 9999 ∧ r.n * r.mw ≤ 9999

instance (r : InReactant) : Decidable (wfReactant r) := by unfold wfReactant; infer_instance

def wfPage (p : InPage) : Prop :=
  0 ≤ p.tC ∧ p.tC ≤ 9999 ∧
    matchPageHeader (pyStrip p.formula) = none ∧
    startsWith ("PHASE:".toList) p.formula = false ∧
    startsWith ("Reactants (page scope):".toList) (pyStrip p.formula) = false ∧
    (∀ r ∈ p.reactants, wfReactant r) ∧
    (p.reactants.filter (fun r => decide (r.name = "Fe".toList))).length ≤ 1 ∧
    (∀ ph ∈ p.phases, wfPhase ph) ∧
    (∀ s ∈ p.solids, wfSolid s)

instance (p : InPage) : Decidable (wfPage p) := by unfold wfPage; infer_instance

/-- `wfPage` without the sign condition on the temperature (the block-skip
statement is about negative temperatures). -/
def wfPageNeg (p : InPage) : Prop :=
  matchPageHeader (pyStrip p.formula) = none ∧
    (∀ r ∈ p.reactants, wfReactant r) ∧
    (∀ ph ∈ p.phases, wfPhase ph) ∧
    (∀ s ∈ p.solids, wfSolid s)

instance (p : InPage) : Decidable (wfPageNeg p) := by unfold wfPageNeg; infer_instance

/-! ## The expected reconstruction -/

/-- The row the reconstructor recovers from a serialized qualifying row:
names survive verbatim, the five numeric fields as their 3(4)-decimal
renderings, with the weight column carrying weight percent (100·W). -/
def roundRowOf (r : InRow) : Row :=
  ⟨r.name, roundDec 3 r.g, roundDec 3 (r.W * 100), roundDec 3 r.n, roundDec 3 r.X, roundDec 4 r.a⟩

/-- The `Page` record the reconstructor recovers from one serialized block of
a well-formed condition. -/
def parsedOfPage (p : InPage) : Page :=
  { page_num := p.pid,
    T_C := roundDec 3 p.tC,
    Fe_g := (p.reactants.find? (fun r => decide (r.name = "Fe".toList))).map
      (fun r => roundDec 3 (r.n * r.mw)),
    phases := (orderedPhases p).map (fun ph => ⟨ph.name, (sortedRows ph).map roundRowOf⟩),
    pure_solids := (qualSolids p).map (fun s => ⟨s.name, roundDec 3 s.g⟩) }

/-- Field-wise agreement of a reconstructed row with its source row, at the
3–4-decimal precision of the serialization; the weight field carries the
serialized weight percent. -/
def rowApprox (src : InRow) (dst : Row) : Prop :=
  dst.name = src.name ∧ |dst.g - src.g| ≤ 1 / 2000 ∧ |dst.W - 100 * src.W| ≤ 1 / 2000 ∧
    |dst.n - src.n| ≤ 1 / 2000 ∧ |dst.X - src.X| ≤ 1 / 2000 ∧ |dst.a - src.a| ≤ 1 / 20000

/-- Agreement of a reconstructed condition with its source: page number and
phase names verbatim, temperature and reactant mass to 3 decimals, and each
qualifying row (mass ≥ 0.01, in the serialized descending-mass order)
related by `rowApprox`. -/
def pageApprox (src : InPage) (dst : Page) : Prop :=
  dst.page_num = src.pid ∧ |dst.T_C - src.tC| ≤ 1 / 2000 ∧
    (match src.reactants.find? (fun r => decide (r.name = "Fe".toList)) with
     | some r => ∃ v, dst.Fe_g = some v ∧ |v - r.n * r.mw| ≤ 1 / 2000
     | none => dst.Fe_g = none) ∧
    List.Forall₂
      (fun (ph : InPhase) (dph : PPhase) => dph.name = ph.name ∧
        List.Forall₂ (fun r dr => G_MIN ≤ r.g ∧ rowApprox r dr) (sortedRows ph) dph.rows)
      (orderedPhases src) dst.phases ∧
    List.Forall₂
      (fun (s : InSolid) (ds : PSolid) => ds.name = s.name ∧ |ds.g - s.g| ≤ 1 / 2000)
      (qualSolids src) dst.pure_solids

/-! ## Concrete scenario inputs -/

/-- Condition 1 of the end-to-end scenario (§8 of the specification):
1600 °C, metallic liquid with silicon at weight fraction 0.02. -/
def scPage1 : InPage :=
  { pid := 1, tC := 1600, patm := 1, formula := ("Fe alloy".toList),
    reactants := [⟨("Fe".toList), 1, 10⟩],
    phases := [⟨("Fe-liq#1".toList), 100, [⟨("Si".toList), 2, 1 / 50, 1, 1 / 2, 3 / 4⟩]⟩],
    solids := [] }

/-- Condition 2: 1500 °C, the same phase with silicon weight fraction 0.05,
no precipitating solids. -/
def scPage2 : InPage :=
  { pid := 2, tC := 1500, patm := 1, formula := ("Fe alloy".toList),
    reactants := [⟨("Fe".toList), 1, 10⟩],
    phases := [⟨("Fe-liq#1".toList), 100, [⟨("Si".toList), 2, 1 / 20, 1, 1 / 2, 3 / 4⟩]⟩],
    solids := [] }

/-- Condition 2 of the precipitation scenario: additionally a pure solid
`FeSi2(s)` of mass 1 g. -/
def scPage2s : InPage := { scPage2 with solids := [⟨("FeSi2(s)".toList), 1, 1⟩] }

/-- A negative-temperature condition (−12.5 °C), as the canonicalizer's
description fallback can produce. -/
def negPage : InPage :=
  { pid := 3, tC := -(25 / 2 : ℚ), patm := 1, formula := ("Fe alloy".toList),
    reactants := [⟨("Fe".toList), 1, 10⟩],
    phases := [⟨("Fe-liq#1".toList), 100, [⟨("Si".toList), 2, 1 / 50, 1, 1 / 2, 3 / 4⟩]⟩],
    solids := [⟨("FeSi2(s)".toList), 1, 1⟩] }

/-- Analyzer-level conditions of the precipitation scenario. -/
def c3Page1600 : Page :=
  { page_num := 1, T_C := 1600, Fe_g := some 10,
    phases := [⟨("Fe-liq#1".toList), [⟨("Si".toList), 2, 1 / 50, 1, 1 / 2, 3 / 4⟩]⟩],
    pure_solids := [] }

def c3Page1500s : Page :=
  { page_num := 2, T_C := 1500, Fe_g := some 10,
    phases := [⟨("Fe-liq#1".toList), [⟨("Si".toList), 2, 1 / 20, 1, 1 / 2, 3 / 4⟩]⟩],
    pure_solids := [⟨("FeSi2(s)".toList), 1⟩] }

/-- A condition sequence with tracked masses `[10,10,10,20,20]` and page
numbers `[1,2,3,1,2]` (§4.5 example). -/
def c6Page (pn : ℕ) (fe : ℚ) : Page :=
  { page_num := pn, T_C := 1000, Fe_g := some fe, phases := [], pure_solids := [] }

def c6Pages : List Page := [c6Page 1 10, c6Page 2 10, c6Page 3 10, c6Page 1 20, c6Page 2 20]

/-- An analysis result carrying only a best-Si value (ranking example). -/
def c7Res (si : ℚ) : AnalysisResult :=
  { best_T := some 1600, best_Si := some si, best_comp := [(("Si".toList), si, 1, 1)] }

/-- A condition whose only phase is named `Slag-liquid`. -/
def c10Page : Page :=
  { page_num := 1, T_C := 1600, Fe_g := none,
    phases := [⟨("Slag-liquid".toList), [⟨("SiO2".toList), 5, 1 / 2, 1, 1, 1⟩]⟩],
    pure_solids := [] }

/-- The single report record of the two-condition end-to-end scenario. -/
def c2Result : AnalysisResult :=
  { Fe_g := some 10, best_T := some 1500, best_Si := some 5,
    best_comp := [(("Si".toList), 5, 3 / 4, 2)] }

/-! # Theorems -/

/-! ## Generic list lemmas for the stable sort -/

theorem mem_insertBy {α} (lt : α → α → Bool) (x a : α) (l : List α) :
    a ∈ insertBy lt x l ↔ a = x ∨ a ∈ l := by
  induction l with
  | nil => simp [insertBy]
  | cons y ys ih =>
    rw [insertBy]
    split
    · simp [ih]
      tauto
    · simp

theorem mem_insertionSortBy {α} (lt : α → α → Bool) (a : α) (l : List α) :
    a ∈ insertionSortBy lt l ↔ a ∈ l := by
  induction l with
  | nil => simp [insertionSortBy]
  | cons x xs ih =>
    show a ∈ insertBy lt x (insertionSortBy lt xs) ↔ _
    rw [mem_insertBy]
    simp [ih]

/-! ## C4: the phase classifier on the three specification labels -/

/-- C4 counterexample: contrary to the claim, `"bcc_A2"` is *not* classified
as a metal-intermetallic solution phase — the underscore is a word character,
so `bcc` does not occur as a whole word in `bcc_A2`. -/
theorem C4_counterexample : is_metal_intermetallic_phase ("bcc_A2".toList) = false := by decide

/-- C4 (amended): `"FeSi2(s)"` is a metal-intermetallic pure solid;
`"Slag-liq"` is a slag liquid and not a metal liquid; but `"bcc_A2"` is NOT a
metal-intermetallic solution phase, because `_` is a word character, so the
whole-word search for `bcc` fails there (it succeeds on `"bcc-A2"`). -/
theorem C4_classifier_amended :
    is_metal_intermetallic_puresolid ("FeSi2(s)".toList) = true ∧
    is_slag_liquid_phase ("Slag-liq".toList) = true ∧
    is_metal_liquid_phase ("Slag-liq".toList) = false ∧
    is_metal_intermetallic_phase ("bcc_A2".toList) = false ∧
    isWordChar '_' = true ∧
    is_metal_intermetallic_phase ("bcc-A2".toList) = true := by decide

/-! ## C5: totality and values of the tolerant number parser -/

/-- C5 counterexample: `parseNumber` does not always return a finite number —
`"inf"` survives `float()` as an infinity and is returned as is. -/
theorem C5_counterexample : (fnum ("inf".toList)).isFinite = false := by decide

/-- C5 (amended): `parseNumber` never fails: empty and unparseable inputs
yield 0.0 and `"1.5D+02"` yields 150.0; the result is finite except when the
(D→E-substituted) input itself parses as an infinity or NaN, which is passed
through unchanged. -/
theorem C5_parseNumber_amended :
    fnum ("".toList) = .finite 0 ∧
    fnum ("1.5D+02".toList) = .finite 150 ∧
    (∀ s, pyFloatParse (fnumPre s) = none → fnum s = .finite 0) ∧
    (∀ s, (fnum s).isFinite = false → pyFloatParse (fnumPre s) = some (fnum s)) := by
  refine ⟨by decide, by decide, ?_, ?_⟩
  · intro s h
    by_cases he : fnumPre s = []
    · simp [fnum, he]
    · simp [fnum, he, h]
  · intro s h
    by_cases he : fnumPre s = []
    · exfalso
      simp [fnum, he, PyFloat.isFinite] at h
    · cases hp : pyFloatParse (fnumPre s) with
      | none =>
        exfalso
        simp [fnum, he, hp, PyFloat.isFinite] at h
      | some v => simp [fnum, he, hp]

/-- C5 witness: the amended statement applied at `"xyz"` (unparseable) and
`"inf"` (non-finite passthrough). -/
theorem C5_witness :
    fnum ("xyz".toList) = .finite 0 ∧
    pyFloatParse (fnumPre ("inf".toList)) = some (fnum ("inf".toList)) :=
  ⟨C5_parseNumber_amended.2.2.1 ("xyz".toList) (by decide),
   C5_parseNumber_amended.2.2.2 ("inf".toList) (by decide)⟩

/-! ## C8: the label-prefix stripper -/

/-- C8 counterexample: `"ABfoo-X"` carries a prefix of the claimed shape (two
uppercase letters, lowercase letters, hyphen), yet the code returns the label
unchanged — the code demands the literal characters `FT`. -/
theorem C8_counterexample :
    specPrefixPattern ("ABfoo-X".toList) = true ∧
    clean_phase_state ("ABfoo-X".toList) = ("ABfoo-X".toList) := by decide

/-- C8 (amended): `cleanPhaseLabel` removes a leading prefix of the literal
characters `FT` followed by one or more ASCII letters of either case and a
hyphen; any label without such a prefix is returned unchanged. -/
theorem C8_cleanPhaseLabel_amended :
    clean_phase_state ("FTmisc-Slag".toList) = ("Slag".toList) ∧
    clean_phase_state ("FTOX-Slag".toList) = ("Slag".toList) ∧
    (∀ s, ftPrefixPattern s = false → clean_phase_state s = s) := by
  refine ⟨by decide, by decide, ?_⟩
  intro s h
  match s with
  | [] => rfl
  | [a] => rfl
  | a :: b :: rest =>
    simp only [clean_phase_state]
    split
    · rename_i hcond
      exfalso
      obtain ⟨h1, h2, h3, h4⟩ := hcond
      simp [ftPrefixPattern, h1, h2, List.isEmpty_iff, h3, h4] at h
    · rfl

/-- C8 witness: a label without the `FT` prefix is unchanged. -/
theorem C8_witness : clean_phase_state ("Slag-liq".toList) = ("Slag-liq".toList) :=
  C8_cleanPhaseLabel_amended.2.2 ("Slag-liq".toList) (by decide)

/-! ## C6: run grouping -/

/-- C6: a new run starts exactly on a page-1 header with a non-empty current
run, or on a tracked-mass jump beyond 1e-3 relative to the last condition
that reported the mass; conditions without the tracked mass never split on
the mass rule; and the `[10,10,10,20,20]`/`[1,2,3,1,2]` sequence splits into
runs of lengths 3 and 2. -/
theorem C6_run_grouping :
    (∀ p cur lf, resetCond p cur lf = true ↔
      ((p.page_num = 1 ∧ cur ≠ []) ∨
        ∃ lfv g, lf = some lfv ∧ p.Fe_g = some g ∧ |g - lfv| > 1 / 1000)) ∧
    (∀ p cur lf, p.Fe_g = none →
      (resetCond p cur lf = true ↔ (p.page_num = 1 ∧ cur ≠ []))) ∧
    ((group_simulations c6Pages).map List.length = [3, 2]) := by
  refine ⟨?_, ?_, by decide⟩
  · intro p cur lf
    cases hl : lf <;> cases hf : p.Fe_g <;>
      simp [resetCond, hl, hf, List.isEmpty_iff]
  · intro p cur lf hf
    cases hl : lf <;> simp [resetCond, hl, hf, List.isEmpty_iff]

/-- C6 witness: the mass-free characterization applied at a concrete
condition lacking the tracked mass. -/
theorem C6_witness :
    resetCond c10Page [c10Page] none = true ↔
      (c10Page.page_num = 1 ∧ ([c10Page] : List Page) ≠ []) :=
  C6_run_grouping.2.1 c10Page [c10Page] none rfl

/-! ## C7: ranking and rendering of the report -/

/-- C7: the report contains only runs passing the validity filter (runs with
no best-liquid candidate are excluded from ranking entirely), keeps at most
three rows, orders the `[0.03, 0.07, 0.01, 0.09]` example as
`[0.09, 0.07, 0.03]`, and renders every unset field as `"not found"`. -/
theorem C7_ranking :
    (∀ rs r, r ∈ rankResults rs → r ∈ rs ∧ validResult r = true) ∧
    (∀ rs r, validResult r = false → r ∉ rankResults rs) ∧
    (∀ rs, (rankResults rs).length ≤ 3) ∧
    (∀ sim, (analyze_simulation sim).best_Si = none →
      validResult (analyze_simulation sim) = false) ∧
    ((rankResults [c7Res (3 / 100), c7Res (7 / 100), c7Res (1 / 100), c7Res (9 / 100)]).map
        (fun r => r.best_Si) = [some (9 / 100), some (7 / 100), some (3 / 100)]) ∧
    (∀ i r, r.Fe_g = none → (renderRow i r)[1]? = some notFound) ∧
    (∀ i r, r.best_T = none → (renderRow i r)[2]? = some notFound) ∧
    (∀ i r, r.best_Si = none → (renderRow i r)[3]? = some notFound) ∧
    (∀ i r, r.best_comp = [] → (renderRow i r)[4]? = some notFound) ∧
    (∀ i r, r.stop_T = none → (renderRow i r)[5]? = some notFound) ∧
    (∀ i r, r.stop_phases = [] → (renderRow i r)[6]? = some notFound) ∧
    (∀ i r, r.slag_first_T = none → (renderRow i r)[7]? = some notFound) ∧
    (∀ i r, r.slag_first_phases = [] → (renderRow i r)[8]? = some notFound) ∧
    (∀ i r, r.slag_comp_before = [] → (renderRow i r)[9]? = some notFound) := by
  have hmem : ∀ rs r, r ∈ rankResults rs → r ∈ rs ∧ validResult r = true := by
    intro rs r h
    have h1 : r ∈ insertionSortBy (fun a b => decide (sortKeyOf a < sortKeyOf b))
        (rs.filter validResult) := List.take_subset 3 _ h
    have h2 : r ∈ rs.filter validResult := (mem_insertionSortBy _ _ _).mp h1
    exact ⟨(List.mem_filter.mp h2).1, (List.mem_filter.mp h2).2⟩
  refine ⟨hmem, ?_, ?_, ?_, by decide, ?_, ?_, ?_, ?_, ?_, ?_, ?_, ?_, ?_⟩
  · intro rs r hv hmem'
    rw [(hmem rs r hmem').2] at hv
    cases hv
  · intro rs
    unfold rankResults
    have := List.length_take 3 (insertionSortBy (fun a b => decide (sortKeyOf a < sortKeyOf b))
      (rs.filter validResult))
    omega
  · intro sim h
    simp [validResult, h]
  all_goals intro i r h
  all_goals simp [renderRow, h, List.isEmpty_iff]

/-- C7 witness: the membership/rendering statements applied at concrete
arguments. -/
theorem C7_witness :
    (c7Res (1 / 100) ∈ rankResults [c7Res (1 / 100)] →
      c7Res (1 / 100) ∈ [c7Res (1 / 100)] ∧ validResult (c7Res (1 / 100)) = true) ∧
    (renderRow 1 c2Result)[5]? = some notFound :=
  ⟨C7_ranking.1 [c7Res (1 / 100)] (c7Res (1 / 100)),
   C7_ranking.2.2.2.2.2.2.2.2.2.1 1 c2Result rfl⟩

/-! ## C10: the classifier categories overlap on slag liquids -/

/-- C10: every label containing both `slag` and `liquid` (case-insensitively)
satisfies the metal-liquid and the slag-liquid predicate simultaneously, and
the analyzer's metallic-liquid search therefore snapshots the `Slag-liquid`
phase of `c10Page` as the best metallic liquid. -/
theorem C10_overlap :
    (∀ nm, containsSeq ("slag".toList) (lowerL nm) = true →
      containsSeq ("liquid".toList) (lowerL nm) = true →
      is_metal_liquid_phase nm = true ∧ is_slag_liquid_phase nm = true) ∧
    ((analyze_simulation [c10Page]).best_T = some 1600 ∧
      (analyze_simulation [c10Page]).best_comp = [(("SiO2".toList), 1 / 2, 1, 5)] ∧
      is_slag_liquid_phase ("Slag-liquid".toList) = true ∧
      is_metal_liquid_phase ("Slag-liquid".toList) = true) := by
  refine ⟨?_, by decide⟩
  intro nm h1 h2
  constructor
  · simp only [is_metal_liquid_phase, Bool.or_eq_true]
    exact Or.inr h2
  · simp only [is_slag_liquid_phase, Bool.and_eq_true, Bool.or_eq_true]
    exact ⟨h1, Or.inr h2⟩

/-- C10 witness: the overlap applied at the label `"Slag-liquid"`. -/
theorem C10_witness :
    is_metal_liquid_phase ("Slag-liquid".toList) = true ∧
    is_slag_liquid_phase ("Slag-liquid".toList) = true :=
  C10_overlap.1 ("Slag-liquid".toList) (by decide) (by decide)

/-! ## C2: the two-condition end-to-end scenario -/

/-- C2 counterexample: the pipeline reports a best silicon weight value of 5
(the serialized weight percent), not the claimed 0.05, for the scenario whose
document weight fractions are 0.02 and 0.05. -/
theorem C2_counterexample :
    (run_liquid_analysis (convert_pages_to_txt [scPage1, scPage2])).map
        (List.map (fun r => r.best_Si)) = some [some 5] ∧
    (5 : ℚ) ≠ 1 / 20 := ⟨by decide, by norm_num⟩

/-- C2 (amended): the two-condition, one-run document yields exactly one
report row with best temperature 1500 and best silicon weight *value* 5.0
(the serializer emits weight percent, 100× the document's weight fraction
0.05), and both stop fields render `"not found"`. -/
theorem C2_pipeline_amended :
    run_liquid_analysis (convert_pages_to_txt [scPage1, scPage2]) = some [c2Result] ∧
    c2Result.best_T = some 1500 ∧ c2Result.best_Si = some 5 ∧
    c2Result.stop_T = none ∧ c2Result.stop_phases = [] ∧
    (renderRow 1 c2Result)[5]? = some notFound ∧
    (renderRow 1 c2Result)[6]? = some notFound := by
  refine ⟨by decide, rfl, rfl, rfl, rfl, by decide, by decide⟩

/-! ## C3: first metal-intermetallic match stops the scan -/

theorem slagFirstUpdate_stop (st : ScanState) (pg : Page) :
    (slagFirstUpdate st pg).stop_T = st.stop_T ∧
    (slagFirstUpdate st pg).stop_phases = st.stop_phases ∧
    (slagFirstUpdate st pg).collected = st.collected := by
  unfold slagFirstUpdate
  split
  · dsimp only
    split <;> simp
  · simp

theorem liquidUpdate_stop (st : ScanState) (pg : Page) :
    (liquidUpdate st pg).stop_T = st.stop_T ∧
    (liquidUpdate st pg).stop_phases = st.stop_phases := by
  unfold liquidUpdate
  split <;> simp

theorem slagLiqUpdate_stop (st : ScanState) (pg : Page) :
    (slagLiqUpdate st pg).stop_T = st.stop_T ∧
    (slagLiqUpdate st pg).stop_phases = st.stop_phases ∧
    (slagLiqUpdate st pg).collected = st.collected := by
  unfold slagLiqUpdate
  split <;> simp

theorem C3_aux (p : Page) (l2 : List Page) :
    ∀ (l1 : List Page) (st : ScanState), st.stop_T = none →
      (∀ q ∈ l1, metalMatchesOf q = []) → metalMatchesOf p ≠ [] →
      (scanLoop (l1 ++ p :: l2) st).stop_T = some p.T_C ∧
      (scanLoop (l1 ++ p :: l2) st).stop_phases = sortedUniqueNames (metalMatchesOf p) ∧
      (scanLoop (l1 ++ p :: l2) st).collected = (scanLoop l1 st).collected := by
  intro l1
  induction l1 with
  | nil =>
    intro st hst hl1 hp
    have h1 := (slagFirstUpdate_stop st p).1
    rw [hst] at h1
    simp only [List.nil_append, scanLoop]
    rw [if_pos (by simp [h1, List.isEmpty_iff, hp])]
    exact ⟨rfl, rfl, (slagFirstUpdate_stop st p).2.2⟩
  | cons q l1' ih =>
    intro st hst hl1 hp
    have hq : metalMatchesOf q = [] := hl1 q (by simp)
    have h1 := (slagFirstUpdate_stop st q).1
    simp only [List.cons_append, scanLoop]
    rw [if_neg (by simp [hq]), if_neg (by simp [hq])]
    have hst' : (slagLiqUpdate (liquidUpdate (slagFirstUpdate st q) q) q).stop_T = none := by
      rw [(slagLiqUpdate_stop _ _).1, (liquidUpdate_stop _ _).1, h1, hst]
    exact ih _ hst' (fun r hr => hl1 r (by simp [hr])) hp

/-- C3: in the descending-temperature scan, the first condition with a
metal-intermetallic match (a solution phase with ≥ 1 row or a pure solid of
mass ≥ 0.01, per the §4.4 classifier) records its temperature and the
sorted-unique match names as the stop point and terminates the scan, so no
later condition contributes a liquid candidate; in the precipitation
scenario the best liquid is condition 1 at 1600 °C and the stop point is
1500 °C with phases `["FeSi2(s)"]`. -/
theorem C3_stop_scan :
    (∀ (l1 : List Page) (p : Page) (l2 : List Page),
      (∀ q ∈ l1, metalMatchesOf q = []) → metalMatchesOf p ≠ [] →
      (scanLoop (l1 ++ p :: l2) ({} : ScanState)).stop_T = some p.T_C ∧
      (scanLoop (l1 ++ p :: l2) ({} : ScanState)).stop_phases =
        sortedUniqueNames (metalMatchesOf p) ∧
      (scanLoop (l1 ++ p :: l2) ({} : ScanState)).collected =
        (scanLoop l1 ({} : ScanState)).collected) ∧
    ((analyze_simulation [c3Page1600, c3Page1500s]).best_T = some 1600 ∧
      (analyze_simulation [c3Page1600, c3Page1500s]).best_Si = some (1 / 50) ∧
      (analyze_simulation [c3Page1600, c3Page1500s]).stop_T = some 1500 ∧
      (analyze_simulation [c3Page1600, c3Page1500s]).stop_phases = [("FeSi2(s)".toList)]) := by
  refine ⟨?_, by decide⟩
  intro l1 p l2 hl1 hp
  exact C3_aux p l2 l1 {} rfl hl1 hp

/-- C3 witness: the stop property applied to the concrete precipitation
scenario (condition 1 match-free, condition 2 with the `FeSi2(s)` match). -/
theorem C3_witness :
    (scanLoop ([c3Page1600] ++ c3Page1500s :: []) ({} : ScanState)).stop_T =
      some c3Page1500s.T_C ∧
    (scanLoop ([c3Page1600] ++ c3Page1500s :: []) ({} : ScanState)).stop_phases =
      sortedUniqueNames (metalMatchesOf c3Page1500s) ∧
    (scanLoop ([c3Page1600] ++ c3Page1500s :: []) ({} : ScanState)).collected =
      (scanLoop [c3Page1600] ({} : ScanState)).collected :=
  C3_stop_scan.1 [c3Page1600] c3Page1500s [] (by decide) (by decide)

/-! ## C1 counterexample -/

/-- C1 counterexample: feeding a single well-formed condition through the
canonicalizer's serializer and the reconstructor turns the row weight
fraction 0.02 into the reconstructed weight value 2 (the weight percent),
which is not within any 3–4-decimal tolerance of the original. -/
theorem C1_counterexample :
    (parse_txt_pages (convert_pages_to_txt [scPage1])).map
        (List.map (fun pg => pg.phases.map (fun ph => ph.rows.map (fun r => r.W)))) =
      some [[[2]]] ∧
    ¬ (|(2 : ℚ) - 1 / 50| ≤ 1 / 100) := ⟨by decide, by decide⟩

/-! ## String lemmas for the serialized line format -/

theorem startsWith_refl_append (p x : Line) : startsWith p (p ++ x) = true := by
  induction p with
  | nil => simp [startsWith]
  | cons c cs ih => simp [startsWith, ih]

theorem startsWith_prefix_mono (p q l : Line) (h : startsWith (p ++ q) l = true) :
    startsWith p l = true := by
  induction p generalizing l with
  | nil => simp [startsWith]
  | cons c cs ih =>
    cases l with
    | nil => simp [startsWith] at h
    | cons d ds =>
      simp only [List.cons_append, startsWith, Bool.and_eq_true] at h ⊢
      exact ⟨h.1, ih ds h.2⟩

/-- A whitespace-free pattern that does not start the (whitespace-free) first
token of a line cannot start the line: the separating space falsifies the
pattern at or before the token boundary. -/
theorem startsWith_sep_false (pat : Line) (hp : ∀ c ∈ pat, isWs c = false) :
    ∀ (nm r : Line), startsWith pat nm = false → startsWith pat (nm ++ ' ' :: r) = false := by
  induction pat with
  | nil => intro nm r h; simp [startsWith] at h
  | cons c cs ih =>
    intro nm r h
    cases nm with
    | nil =>
      simp only [List.nil_append, startsWith]
      have : isWs c = false := hp c (by simp)
      have hc : (c == ' ') = false := by
        cases hbe : c == ' ' with
        | false => rfl
        | true =>
          rw [beq_iff_eq] at hbe
          subst hbe
          simp [isWs] at this
      simp [hc]
    | cons d ds =>
      simp only [List.cons_append, startsWith, Bool.and_eq_true] at h ⊢
      cases hcd : c == d with
      | false => simp
      | true =>
        simp only [hcd, Bool.true_and]
        simp only [hcd, Bool.true_and] at h
        exact ih (fun x hx => hp x (by simp [hx])) ds r h

theorem dropWhile_append_last (p : Char → Bool) (l : Line) (c : Char) (hc : p c = false) :
    (l ++ [c]).dropWhile p = l.dropWhile p ++ [c] := by
  induction l with
  | nil => simp [List.dropWhile, hc]
  | cons d ds ih =>
    simp only [List.cons_append, List.dropWhile_cons]
    split <;> simp [ih]

theorem rstrip_cons (c : Char) (l : Line) (hc : isWs c = false) :
    rstrip (c :: l) = c :: rstrip l := by
  unfold rstrip
  rw [show (c :: l).reverse = l.reverse ++ [c] by simp]
  rw [dropWhile_append_last isWs l.reverse c hc]
  simp

theorem rstrip_append_last (l : Line) (d : Char) (hd : isWs d = false) :
    rstrip (l ++ [d]) = l ++ [d] := by
  unfold rstrip
  rw [show (l ++ [d]).reverse = d :: l.reverse by simp]
  rw [List.dropWhile_cons, if_neg (by simp [hd])]
  simp

theorem pyStrip_cons (c : Char) (l : Line) (hc : isWs c = false) :
    pyStrip (c :: l) = c :: rstrip l := by
  unfold pyStrip
  rw [List.dropWhile_cons, if_neg (by simp [hc])]
  exact rstrip_cons c l hc

theorem pyStrip_concat (c d : Char) (m : Line) (hc : isWs c = false) (hd : isWs d = false) :
    pyStrip (c :: (m ++ [d])) = c :: (m ++ [d]) := by
  rw [pyStrip_cons c _ hc, rstrip_append_last m d hd]

theorem pyStrip_spaces (k : ℕ) (l : Line) : pyStrip (spacesL k ++ l) = pyStrip l := by
  induction k with
  | zero => simp [spacesL]
  | succ n ih =>
    show pyStrip (' ' :: (spacesL n ++ l)) = pyStrip l
    unfold pyStrip
    rw [List.dropWhile_cons, if_pos (by simp [isWs])]
    exact ih

theorem spacesL_space_cons (j : ℕ) (x : Line) :
    ∃ r, spacesL j ++ ' ' :: x = ' ' :: r := by
  cases j with
  | zero => exact ⟨x, rfl⟩
  | succ n => exact ⟨spacesL n ++ ' ' :: x, rfl⟩

/-! ## Decimal-rendering lemmas -/

theorem isDigit_not_ws (c : Char) (h : c.isDigit = true) : isWs c = false := by
  simp [Char.isDigit] at h
  simp only [isWs, Char.isWhitespace, Bool.or_eq_false_iff, decide_eq_false_iff_not]
  refine ⟨⟨⟨?_, ?_⟩, ?_⟩, ?_⟩ <;> rintro rfl <;> simp_all

theorem digitChar_isDigit (d : ℕ) (h : d < 10) : (digitChar d).isDigit = true := by
  interval_cases d <;> decide

theorem natDigitsF_eq (fuel : ℕ) : ∀ n acc, n ≤ fuel → natDigitsF fuel n acc = digitsSpec n ++ acc := by
  induction fuel with
  | zero =>
    intro n acc h
    have : n = 0 := by omega
    subst this
    rw [natDigitsF, digitsSpec]
    simp
  | succ f ih =>
    intro n acc h
    rw [natDigitsF]
    by_cases hn : n = 0
    · subst hn
      rw [if_pos rfl, digitsSpec]
      simp
    · rw [if_neg hn]
      have hlt : n / 10 < n := Nat.div_lt_self (Nat.pos_of_ne_zero hn) (by norm_num)
      rw [ih (n / 10) _ (by omega)]
      conv_rhs => rw [digitsSpec, if_neg hn]
      simp [List.append_assoc]

theorem natToDigits_eq (n : ℕ) : natToDigits n = if n = 0 then ['0'] else digitsSpec n := by
  unfold natToDigits
  split
  · rfl
  · rw [natDigitsF_eq n n [] le_rfl, List.append_nil]

theorem digitsSpec_ne_nil (n : ℕ) (h : n ≠ 0) : digitsSpec n ≠ [] := by
  rw [digitsSpec, if_neg h]
  simp

theorem natToDigits_ne_nil (n : ℕ) : natToDigits n ≠ [] := by
  rw [natToDigits_eq]
  split
  · simp
  · exact digitsSpec_ne_nil n ‹_›

theorem digitsSpec_all (n : ℕ) : ∀ c ∈ digitsSpec n, c.isDigit = true := by
  induction n using Nat.strong_induction_on with
  | _ n ih =>
    by_cases h : n = 0
    · subst h
      rw [digitsSpec]
      simp
    · rw [digitsSpec, if_neg h]
      intro c hc
      rcases List.mem_append.mp hc with hc1 | hc2
      · exact ih (n / 10) (Nat.div_lt_self (Nat.pos_of_ne_zero h) (by norm_num)) c hc1
      · have : c = digitChar (n % 10) := by simpa using hc2
        subst this
        exact digitChar_isDigit _ (Nat.mod_lt n (by norm_num))

theorem natToDigits_all (n : ℕ) : ∀ c ∈ natToDigits n, c.isDigit = true := by
  rw [natToDigits_eq]
  split
  · intro c hc
    have : c = '0' := by simpa using hc
    subst this
    decide
  · exact digitsSpec_all n

theorem digitsSpec_length (n : ℕ) : ∀ k, n < 10 ^ k → (digitsSpec n).length ≤ k := by
  induction n using Nat.strong_induction_on with
  | _ n ih =>
    intro k hk
    by_cases h : n = 0
    · subst h
      rw [digitsSpec]
      simp
    · rw [digitsSpec, if_neg h]
      have hk1 : k ≠ 0 := by
        rintro rfl
        simp at hk
        omega
      have hdiv : n / 10 < 10 ^ (k - 1) := by
        rw [Nat.div_lt_iff_lt_mul (by norm_num)]
        calc n < 10 ^ k := hk
          _ = 10 ^ (k - 1) * 10 := by
            rw [← pow_succ]
            congr 1
            omega
      have := ih (n / 10) (Nat.div_lt_self (Nat.pos_of_ne_zero h) (by norm_num)) (k - 1) hdiv
      simp only [List.length_append, List.length_cons, List.length_nil]
      omega

theorem natToDigits_length (n k : ℕ) (hk : 1 ≤ k) (h : n < 10 ^ k) :
    (natToDigits n).length ≤ k := by
  rw [natToDigits_eq]
  split
  · simpa using hk
  · exact digitsSpec_length n k h

theorem padZeros_length (w : ℕ) (ds : Line) (h : ds.length ≤ w) :
    (padZeros w ds).length = w := by
  simp [padZeros]
  omega

theorem round_le_of_le {x : ℚ} {n : ℤ} (h : x ≤ (n : ℚ)) : round x ≤ n := by
  rw [round_eq]
  have h2 : x + 1 / 2 ≤ (n : ℚ) + 1 / 2 := by linarith
  have h3 := Int.floor_mono h2
  have h4 : ⌊(n : ℚ) + 1 / 2⌋ = n := by
    rw [add_comm, Int.floor_add_int]
    norm_num
  omega

theorem round_nonneg {x : ℚ} (h : 0 ≤ x) : 0 ≤ round x := by
  rw [round_eq]
  have : ((0 : ℤ) : ℚ) ≤ x + 1 / 2 := by push_cast; linarith
  exact Int.le_floor.mpr this

theorem fmt3_length_le (q : ℚ) (h0 : 0 ≤ q) (h1 : q ≤ 9999) : (fmt3 q).length ≤ 8 := by
  unfold fmt3
  split
  · simp
  · rw [if_neg (not_lt.mpr h0)]
    have habs : |q| = q := abs_of_nonneg h0
    have hmle : (round (|q| * 1000)).toNat ≤ 9999000 := by
      rw [Int.toNat_le]
      apply round_le_of_le
      rw [habs]
      push_cast
      linarith
    set m := (round (|q| * 1000)).toNat with hm
    have l1 : (natToDigits (m / 1000)).length ≤ 4 :=
      natToDigits_length _ 4 (by norm_num) (by omega)
    have l2 : (natToDigits (m % 1000)).length ≤ 3 :=
      natToDigits_length _ 3 (by norm_num) (by omega)
    have l3 : (padZeros 3 (natToDigits (m % 1000))).length = 3 := padZeros_length _ _ l2
    simp only [List.nil_append, List.length_append, List.length_cons]
    omega

theorem fmt4_length_le (q : ℚ) (h0 : 0 ≤ q) (h1 : q ≤ 9999) : (fmt4 q).length ≤ 9 := by
  unfold fmt4
  split
  · simp
  · rw [if_neg (not_lt.mpr h0)]
    have habs : |q| = q := abs_of_nonneg h0
    have hmle : (round (|q| * 10000)).toNat ≤ 99990000 := by
      rw [Int.toNat_le]
      apply round_le_of_le
      rw [habs]
      push_cast
      linarith
    set m := (round (|q| * 10000)).toNat with hm
    have l1 : (natToDigits (m / 10000)).length ≤ 4 :=
      natToDigits_length _ 4 (by norm_num) (by omega)
    have l2 : (natToDigits (m % 10000)).length ≤ 4 :=
      natToDigits_length _ 4 (by norm_num) (by omega)
    have l3 : (padZeros 4 (natToDigits (m % 10000))).length = 4 := padZeros_length _ _ l2
    simp only [List.nil_append, List.length_append, List.length_cons]
    omega

theorem fmt3_neg (q : ℚ) (h : q < 0) : ∃ y, fmt3 q = '-' :: y := by
  unfold fmt3
  rw [if_neg (ne_of_lt h), if_pos h]
  exact ⟨_, rfl⟩

/-! ## Token-shape lemmas: no serialized body line looks like a page header -/

theorem takeWhile_all_append (p : Char → Bool) (l : Line) (c : Char) (y : Line)
    (hl : ∀ a ∈ l, p a = true) (hc : p c = false) :
    (l ++ c :: y).takeWhile p = l := by
  induction l with
  | nil => simp [List.takeWhile_cons, hc]
  | cons d ds ih =>
    rw [List.cons_append, List.takeWhile_cons, if_pos (hl d (List.mem_cons_self d ds))]
    rw [ih (fun a ha => hl a (List.mem_cons_of_mem d ha))]

theorem dropWhile_all_append (p : Char → Bool) (l : Line) (c : Char) (y : Line)
    (hl : ∀ a ∈ l, p a = true) (hc : p c = false) :
    (l ++ c :: y).dropWhile p = c :: y := by
  induction l with
  | nil => simp [List.dropWhile_cons, hc]
  | cons d ds ih =>
    rw [List.cons_append, List.dropWhile_cons, if_pos (hl d (List.mem_cons_self d ds))]
    exact ih (fun a ha => hl a (List.mem_cons_of_mem d ha))

theorem rstrip_cons_eq (c : Char) (l : Line) :
    rstrip (c :: l) =
      if rstrip l = [] then (if isWs c = true then [] else [c]) else c :: rstrip l := by
  unfold rstrip
  rw [show (c :: l).reverse = l.reverse ++ [c] by simp]
  rw [List.dropWhile_append]
  by_cases h : l.reverse.dropWhile isWs = []
  · rw [h]
    cases hws : isWs c with
    | false => simp [List.dropWhile, hws]
    | true => simp [List.dropWhile, hws]
  · have h2 : (l.reverse.dropWhile isWs).reverse ≠ ([] : Line) := by
      simpa using h
    rw [if_neg h2]
    have h3 : (l.reverse.dropWhile isWs).isEmpty = false := by
      cases hx : l.reverse.dropWhile isWs with
      | nil => exact absurd hx h
      | cons a b => rfl
    rw [h3]
    simp

theorem rstrip_append (t x : Line) (h : ∀ c ∈ t, isWs c = false) :
    rstrip (t ++ x) = t ++ rstrip x := by
  induction t with
  | nil => simp
  | cons c ts ih =>
    rw [List.cons_append, rstrip_cons c _ (h c (List.mem_cons_self c ts))]
    rw [ih (fun a ha => h a (List.mem_cons_of_mem c ha))]
    rfl

theorem pyStrip_token (nm x : Line) (hnm : nm ≠ []) (hws : ∀ c ∈ nm, isWs c = false) :
    pyStrip (nm ++ x) = nm ++ rstrip x := by
  cases nm with
  | nil => exact absurd rfl hnm
  | cons c t =>
    rw [List.cons_append, pyStrip_cons c _ (hws c (List.mem_cons_self c t))]
    rw [rstrip_append t x (fun a ha => hws a (List.mem_cons_of_mem c ha))]
    rfl

theorem matchPageHeader_none_of_head (l : Line)
    (h : startsWith ("Page".toList) l = false) : matchPageHeader l = none := by
  unfold matchPageHeader dropLit
  rw [h]
  simp

theorem matchPageHeader_token_none (nm r : Line) (k : ℕ) (hnm : nm ≠ [])
    (hws : ∀ c ∈ nm, isWs c = false) (hpg : startsWith ("Page".toList) nm = false) :
    matchPageHeader (pyStrip (spacesL k ++ (nm ++ ' ' :: r))) = none := by
  rw [pyStrip_spaces, pyStrip_token nm _ hnm hws]
  apply matchPageHeader_none_of_head
  rw [rstrip_cons_eq]
  split
  · have he : (if isWs ' ' = true then ([] : Line) else [' ']) = [] := rfl
    rw [he, List.append_nil]
    exact hpg
  · exact startsWith_sep_false _ (by decide) nm _ hpg

theorem matchPageHeader_token_pad (nm t : Line) (k j : ℕ) (hnm : nm ≠ [])
    (hws : ∀ c ∈ nm, isWs c = false) (hpg : startsWith ("Page".toList) nm = false) :
    matchPageHeader (pyStrip (spacesL k ++ (nm ++ (spacesL j ++ ' ' :: t)))) = none := by
  obtain ⟨r', hr'⟩ := spacesL_space_cons j t
  rw [hr']
  exact matchPageHeader_token_none nm r' k hnm hws hpg

theorem startsWith_page_T (x : Line) : startsWith ("Page".toList) ('T' :: x) = false := by
  simp [startsWith]

/-- The page-header pattern rejects a temperature field that begins with a
minus sign: `[0-9.]+` must match at least one character there. -/
theorem matchPageHeader_neg_temp (d : Char) (D' y R : Line)
    (hDall : ∀ c ∈ d :: D', c.isDigit = true) :
    matchPageHeader
      ('P' :: 'a' :: 'g' :: 'e' :: ' ' ::
        ((d :: D') ++ (' ' :: '-' :: ' ' :: (('-' :: y) ++ R)))) = none := by
  have hd : isWs d = false := isDigit_not_ws d (hDall d (List.mem_cons_self d D'))
  have h1 : dropLit ("Page".toList)
      ('P' :: 'a' :: 'g' :: 'e' :: ' ' ::
        ((d :: D') ++ (' ' :: '-' :: ' ' :: (('-' :: y) ++ R)))) =
      some (' ' :: ((d :: D') ++ (' ' :: '-' :: ' ' :: (('-' :: y) ++ R)))) := by
    simp [dropLit, startsWith]
  unfold matchPageHeader
  rw [h1]
  simp only []
  have h2 : (' ' :: ((d :: D') ++ (' ' :: '-' :: ' ' :: (('-' :: y) ++ R)))).takeWhile isWs =
      ' ' :: (((d :: D') ++ (' ' :: '-' :: ' ' :: (('-' :: y) ++ R))).takeWhile isWs) := by
    rw [List.takeWhile_cons, if_pos (by decide)]
  rw [h2, if_neg (by simp)]
  have h3 : (' ' :: ((d :: D') ++ (' ' :: '-' :: ' ' :: (('-' :: y) ++ R)))).dropWhile isWs =
      (d :: D') ++ (' ' :: '-' :: ' ' :: (('-' :: y) ++ R)) := by
    rw [List.dropWhile_cons, if_pos (by decide), List.cons_append, List.dropWhile_cons,
      if_neg (by simp [hd])]
  rw [h3]
  rw [takeWhile_all_append Char.isDigit (d :: D') ' ' _ hDall (by decide)]
  rw [dropWhile_all_append Char.isDigit (d :: D') ' ' _ hDall (by decide)]
  simp only []
  have h4 : (' ' :: '-' :: ' ' :: (('-' :: y) ++ R)).dropWhile isWs =
      '-' :: ' ' :: (('-' :: y) ++ R) := by
    rw [List.dropWhile_cons, if_pos (by decide), List.dropWhile_cons, if_neg (by decide)]
  rw [h4]
  simp only []
  have h5 : (' ' :: (('-' :: y) ++ R)).dropWhile isWs = '-' :: (y ++ R) := by
    rw [List.dropWhile_cons, if_pos (by decide), List.cons_append, List.dropWhile_cons,
      if_neg (by decide)]
  rw [h5]
  have h6 : ('-' :: (y ++ R)).takeWhile isNumDotChar = [] := by
    rw [List.takeWhile_cons, if_neg (by decide)]
  rw [h6]

/-- A negative-temperature block header is not matched by the reconstructor's
page-header pattern. -/
theorem headerLine_no_match (p : InPage) (h : p.tC < 0) :
    matchPageHeader (pyStrip (headerLine p)) = none := by
  obtain ⟨y, hy⟩ := fmt3_neg p.tC h
  obtain ⟨d, D', hD⟩ : ∃ d D', natToDigits p.pid = d :: D' := by
    cases hND : natToDigits p.pid with
    | nil => exact absurd hND (natToDigits_ne_nil _)
    | cons a b => exact ⟨a, b, rfl⟩
  have hall : ∀ c ∈ d :: D', c.isDigit = true := by
    rw [← hD]
    exact natToDigits_all _
  have e1 : headerLine p =
      'P' :: (('a' :: 'g' :: 'e' :: ' ' ::
        ((d :: D') ++ (' ' :: '-' :: ' ' :: (('-' :: y) ++ [' '])))) ++ ['C']) := by
    rw [headerLine, hD, hy]
    simp
  rw [e1, pyStrip_concat _ _ _ (by decide) (by decide)]
  have e2 : 'P' :: (('a' :: 'g' :: 'e' :: ' ' ::
        ((d :: D') ++ (' ' :: '-' :: ' ' :: (('-' :: y) ++ [' '])))) ++ ['C']) =
      'P' :: 'a' :: 'g' :: 'e' :: ' ' ::
        ((d :: D') ++ (' ' :: '-' :: ' ' :: (('-' :: y) ++ ([' '] ++ ['C'])))) := by
    simp
  rw [e2]
  exact matchPageHeader_neg_temp d D' y ([' '] ++ ['C']) hall

theorem mph_sep : matchPageHeader (pyStrip sepLine) = none := by decide

theorem mph_nil : matchPageHeader (pyStrip []) = none := by decide

theorem mph_reactants_label :
    matchPageHeader (pyStrip ("Reactants (page scope):".toList)) = none := by decide

theorem mph_phaseCols : matchPageHeader (pyStrip phaseColsLine) = none := by decide

theorem mph_solidCols : matchPageHeader (pyStrip solidColsLine) = none := by decide

theorem mph_pureSolids : matchPageHeader (pyStrip ("PURE SOLIDS:".toList)) = none := by decide

theorem mph_head_T (t : Line) : matchPageHeader (pyStrip ('T' :: t)) = none := by
  rw [pyStrip_cons _ _ (by decide)]
  exact matchPageHeader_none_of_head _ (startsWith_page_T _)

theorem mph_tempLine (p : InPage) : matchPageHeader (pyStrip (tempLine p)) = none :=
  mph_head_T _

theorem startsWith_page_PH (x : Line) : startsWith ("Page".toList) ('P' :: 'H' :: x) = false := by
  simp [startsWith]

theorem mph_phase_line (nm : Line) :
    matchPageHeader (pyStrip (("PHASE: ".toList) ++ nm)) = none := by
  have e : ("PHASE: ".toList) ++ nm = 'P' :: 'H' :: (("ASE: ".toList) ++ nm) := rfl
  rw [e, pyStrip_cons _ _ (by decide), rstrip_cons _ _ (by decide)]
  exact matchPageHeader_none_of_head _ (startsWith_page_PH _)

theorem mph_reactant_line (r : InReactant) (h : wfReactant r) :
    matchPageHeader (pyStrip (emitReactantLine r)) = none := by
  obtain ⟨hne, hws, hpg, -⟩ := h
  have e : emitReactantLine r =
      spacesL 2 ++ (r.name ++ (spacesL (4 - r.name.length) ++
        (' ' :: (('n' :: ' ' :: '=' :: ' ' :: []) ++ (fmt3 r.n ++
          ((" mol | m = ".toList) ++ (fmt3 (r.n * r.mw) ++ (" g".toList)))))))) := by
    simp [emitReactantLine, padRightL, spacesL, List.append_assoc]
  rw [e]
  exact matchPageHeader_token_pad r.name _ 2 _ hne hws hpg

theorem mph_row_line (r : InRow) (h : wfRow r) :
    matchPageHeader (pyStrip (emitRowLine r)) = none := by
  obtain ⟨⟨hne, hws, -, -, -, -, hpg⟩, hg0, hg1, -⟩ := h
  have hlen : (fmt3 r.g).length ≤ 8 := fmt3_length_le _ hg0 hg1
  have hsplit : 10 - (fmt3 r.g).length = (9 - (fmt3 r.g).length) + 1 := by omega
  have e0 : spacesL (10 - (fmt3 r.g).length) = ' ' :: spacesL (9 - (fmt3 r.g).length) := by
    rw [spacesL, spacesL, hsplit, List.replicate_succ]
  have e : emitRowLine r =
      spacesL 2 ++ (r.name ++ (spacesL (14 - r.name.length) ++
        (' ' :: (spacesL (9 - (fmt3 r.g).length) ++ (fmt3 r.g ++
          (padLeftL 10 (fmt3 (r.W * 100)) ++ (padLeftL 8 (fmt3 r.n) ++
            (padLeftL 8 (fmt3 r.X) ++ padLeftL 12 (fmt4 r.a))))))))) := by
    rw [emitRowLine]
    conv_lhs => rw [show padLeftL 10 (fmt3 r.g) =
      spacesL (10 - (fmt3 r.g).length) ++ fmt3 r.g from rfl, e0]
    simp [padRightL, spacesL, List.append_assoc]
  rw [e]
  exact matchPageHeader_token_pad r.name _ 2 _ hne hws hpg

theorem mph_total_line (ph : InPhase) :
    matchPageHeader (pyStrip (emitTotalLine ph)) = none := by
  have e : emitTotalLine ph =
      spacesL 2 ++ (("TOTAL".toList) ++ (spacesL 8 ++
        (' ' :: (padLeftL 10 (fmt3 (((qualRows ph).map (·.g)).sum)) ++
          (padLeftL 10 (fmt3 100) ++ (padLeftL 8 (fmt3 (((qualRows ph).map (·.n)).sum)) ++
            (padLeftL 8 (fmt3 1) ++ padLeftL 12 (fmt4 (((qualRows ph).map (·.a)).sum))))))))) := by
    simp [emitTotalLine, padRightL, spacesL, List.append_assoc]
  rw [e]
  exact matchPageHeader_token_pad ("TOTAL".toList) _ 2 _ (by decide) (by decide) (by decide)

theorem mph_solid_line (s : InSolid) (h : wfSolid s) :
    matchPageHeader (pyStrip (emitSolidLine s)) = none := by
  obtain ⟨⟨hne, hws, -, -, -, -, hpg⟩, hg0, hg1, -⟩ := h
  have hlen : (fmt3 s.g).length ≤ 8 := fmt3_length_le _ hg0 hg1
  have hsplit : 12 - (fmt3 s.g).length = (11 - (fmt3 s.g).length) + 1 := by omega
  have e0 : spacesL (12 - (fmt3 s.g).length) = ' ' :: spacesL (11 - (fmt3 s.g).length) := by
    rw [spacesL, spacesL, hsplit, List.replicate_succ]
  have e : emitSolidLine s =
      spacesL 2 ++ (s.name ++ (spacesL (22 - s.name.length) ++
        (' ' :: (spacesL (11 - (fmt3 s.g).length) ++ (fmt3 s.g ++
          padLeftL 14 (fmt4 s.a)))))) := by
    rw [emitSolidLine]
    conv_lhs => rw [show padLeftL 12 (fmt3 s.g) =
      spacesL (12 - (fmt3 s.g).length) ++ fmt3 s.g from rfl, e0]
    simp [padRightL, spacesL, List.append_assoc]
  rw [e]
  exact matchPageHeader_token_pad s.name _ 2 _ hne hws hpg

/-- Every line of a serialized negative-temperature block fails the
page-header pattern. -/
theorem emitBlock_no_header (p : InPage) (hwf : wfPageNeg p) (hneg : p.tC < 0) :
    ∀ l ∈ emitBlock p, matchPageHeader (pyStrip l) = none := by
  obtain ⟨hformula, hreac, hph, hsol⟩ := hwf
  intro l hl
  rw [emitBlock] at hl
  simp only [List.mem_append, List.mem_cons, List.mem_map, List.mem_flatten,
    List.not_mem_nil, or_false] at hl
  rcases hl with ((((rfl | rfl | rfl | rfl | rfl | rfl) | ⟨r, hr, rfl⟩) | rfl) |
    ⟨lines, ⟨ph, hph2, rfl⟩, hl2⟩) | hsolmem
  · exact mph_sep
  · exact headerLine_no_match p hneg
  · exact hformula
  · exact mph_tempLine p
  · exact mph_nil
  · exact mph_reactants_label
  · exact mph_reactant_line r (hreac r hr)
  · exact mph_nil
  · have hphmem : ph ∈ p.phases := by
      have h1 := (mem_insertionSortBy _ ph _).mp hph2
      exact (List.mem_filter.mp h1).1
    have hwfph := hph ph hphmem
    rw [emitPhase] at hl2
    simp only [List.mem_cons, List.mem_append, List.mem_map, List.not_mem_nil,
      or_false] at hl2
    rcases hl2 with rfl | rfl | ⟨r, hr, rfl⟩ | rfl | rfl
    · exact mph_phase_line ph.name
    · exact mph_phaseCols
    · have hrq : r ∈ qualRows ph := (mem_insertionSortBy _ r _).mp hr
      have hrmem : r ∈ ph.rows := (List.mem_filter.mp hrq).1
      exact mph_row_line r (hwfph.2.2.2.1 r hrmem)
    · exact mph_total_line ph
    · exact mph_nil
  · rw [emitSolidsSection] at hsolmem
    split at hsolmem
    · exact absurd hsolmem (List.not_mem_nil l)
    · simp only [List.mem_cons, List.mem_append, List.mem_map, List.not_mem_nil,
        or_false] at hsolmem
      rcases hsolmem with rfl | rfl | ⟨s, hs, rfl⟩ | rfl
      · exact mph_pureSolids
      · exact mph_solidCols
      · have hsq : s ∈ p.solids :=
          (List.mem_filter.mp ((mem_insertionSortBy _ s _).mp hs)).1
        exact mph_solid_line s (hsol s hsq)
      · exact mph_nil

/-- If no line strips to a page-header match, the outer parse loop returns an
empty record list (given enough fuel, which the entry point supplies). -/
theorem parseTxtLoop_none_all : ∀ (lines : List Line) (fuel : ℕ), lines.length ≤ fuel →
    (∀ l ∈ lines, matchPageHeader (pyStrip l) = none) → parseTxtLoop fuel lines = some [] := by
  intro lines
  induction lines with
  | nil =>
    intro fuel _ _
    cases fuel <;> rfl
  | cons l ls ih =>
    intro fuel hlen hall
    cases fuel with
    | zero => simp at hlen
    | succ f =>
      rw [parseTxtLoop, hall l (List.mem_cons_self l ls)]
      exact ih f (by simpa using hlen) (fun x hx => hall x (List.mem_cons_of_mem l hx))

/-- **C9.** For every serialized condition block whose page-header temperature
is negative — which the canonicalizer can emit, e.g. via the description
fallback pattern `(-?\d+(?:\.\d+)?)\s*C`, which accepts a leading minus sign
(witnessed here on `"Cooling to -12.5 C"`) — the reconstructor produces no
Condition record at all: the page-header pattern accepts only digits and dots
in the temperature field, so the whole block is silently skipped. -/
theorem C9_negative_block_skipped (p : InPage) (hwf : wfPageNeg p) (hneg : p.tC < 0) :
    parse_txt_pages (convert_pages_to_txt [p]) = some [] ∧
    descTempSearch ("Cooling to -12.5 C".toList) = some ("-12.5".toList) ∧
    fnum ("-12.5".toList) = PyFloat.finite (-(25 / 2)) := by
  refine ⟨?_, by decide, by decide⟩
  have hall := emitBlock_no_header p hwf hneg
  have hconv : convert_pages_to_txt [p] = emitBlock p := by
    simp [convert_pages_to_txt]
  rw [parse_txt_pages, hconv]
  exact parseTxtLoop_none_all (emitBlock p) (emitBlock p).length le_rfl hall

/-! ## Digit values and the float parse of the fixed-point renderings -/

theorem digitChar_toNat (d : ℕ) (h : d < 10) : (digitChar d).toNat = 48 + d := by
  interval_cases d <;> decide

theorem digit_ne_char {c x : Char} (hd : c.isDigit = true) (hx : x.isDigit = false) :
    ¬(c = x) := by
  intro he
  subst he
  rw [hd] at hx
  exact Bool.noConfusion hx

theorem digit_toLower (c : Char) (h : c.isDigit = true) : c.toLower = c := by
  simp [Char.isDigit] at h
  obtain ⟨h1, h2⟩ := h
  have h1' : (48 : UInt32).toNat ≤ c.val.toNat := h1
  have h2' : c.val.toNat ≤ (57 : UInt32).toNat := h2
  rw [show (48 : UInt32).toNat = 48 from rfl] at h1'
  rw [show (57 : UInt32).toNat = 57 from rfl] at h2'
  unfold Char.toLower
  rw [if_neg]
  simp only [Char.toNat, not_and, not_le]
  intro h65
  omega

theorem ciIs_digit_head (d wc : Char) (l wl : Line) (hd : d.isDigit = true)
    (hwc : wc.isDigit = false) : ciIs (d :: l) (wc :: wl) = false := by
  unfold ciIs
  cases hbe : (List.map Char.toLower (d :: l) == wc :: wl) with
  | false => rfl
  | true =>
    have heq := eq_of_beq hbe
    rw [List.map_cons, digit_toLower d hd] at heq
    injection heq with he1 he2
    exact absurd he1 (digit_ne_char hd hwc)

theorem digitsVal_append_digit (D : Line) (c : Char) :
    digitsVal (D ++ [c]) = 10 * digitsVal D + (c.toNat - 48) := by
  simp [digitsVal, List.foldl_append]

theorem digitsVal_digitsSpec (n : ℕ) : digitsVal (digitsSpec n) = n := by
  induction n using Nat.strong_induction_on with
  | _ n ih =>
    by_cases h : n = 0
    · subst h
      rw [digitsSpec]
      simp [digitsVal]
    · rw [digitsSpec, if_neg h, digitsVal_append_digit,
        ih (n / 10) (Nat.div_lt_self (Nat.pos_of_ne_zero h) (by norm_num)),
        digitChar_toNat _ (Nat.mod_lt n (by norm_num))]
      omega

theorem digitsVal_natToDigits (n : ℕ) : digitsVal (natToDigits n) = n := by
  rw [natToDigits_eq]
  split
  · subst ‹n = 0›
    decide
  · exact digitsVal_digitsSpec n

theorem foldl_zeros (k : ℕ) :
    List.foldl (fun a c => 10 * a + (c.toNat - 48)) 0 (List.replicate k '0') = 0 := by
  induction k with
  | zero => rfl
  | succ m ih => simpa [List.replicate_succ] using ih

theorem digitsVal_padZeros (w : ℕ) (D : Line) : digitsVal (padZeros w D) = digitsVal D := by
  simp [padZeros, digitsVal, List.foldl_append, foldl_zeros]

theorem digitsULoop_digits (D : Line) : ∀ (rest : Line) (v k : ℕ),
    (∀ c ∈ D, c.isDigit = true) →
    (match rest with | [] => True | c :: _ => c.isDigit = false ∧ c ≠ '_') →
    digitsULoop (D ++ rest) v k =
      (D.foldl (fun a c => 10 * a + (c.toNat - 48)) v, k + D.length, rest) := by
  induction D with
  | nil =>
    intro rest v k _ hrest
    cases rest with
    | nil => simp [digitsULoop.eq_def]
    | cons c cs =>
      rw [List.nil_append, digitsULoop.eq_def]
      simp only []
      rw [if_neg (by simp [hrest.1]), if_neg (by simp [hrest.2])]
      simp
  | cons d D' ih =>
    intro rest v k hD hrest
    rw [List.cons_append, digitsULoop.eq_def]
    simp only []
    rw [if_pos (hD d (List.mem_cons_self d D'))]
    rw [ih rest _ _ (fun c hc => hD c (List.mem_cons_of_mem d hc)) hrest]
    simp only [List.foldl_cons, List.length_cons]
    have hk : k + 1 + D'.length = k + (D'.length + 1) := by omega
    rw [hk]

theorem parseDigitsU_digits (d : Char) (D' rest : Line)
    (hD : ∀ c ∈ d :: D', c.isDigit = true)
    (hrest : match rest with | [] => True | c :: _ => c.isDigit = false ∧ c ≠ '_') :
    parseDigitsU ((d :: D') ++ rest) = some (digitsVal (d :: D'), D'.length + 1, rest) := by
  rw [List.cons_append, parseDigitsU, if_pos (hD d (List.mem_cons_self d D'))]
  rw [digitsULoop_digits D' rest _ _ (fun c hc => hD c (List.mem_cons_of_mem d hc)) hrest]
  simp [digitsVal, Nat.add_comm]

theorem parseMantissa_fixed (d : Char) (D' P : Line)
    (hD : ∀ c ∈ d :: D', c.isDigit = true) (hP : ∀ c ∈ P, c.isDigit = true) (hPne : P ≠ []) :
    parseMantissa ((d :: D') ++ '.' :: P) =
      some ((digitsVal (d :: D') : ℚ) + (digitsVal P : ℚ) / 10 ^ P.length, []) := by
  rw [List.cons_append, parseMantissa]
  rw [if_neg (digit_ne_char (hD d (List.mem_cons_self d D')) (by decide))]
  rw [show d :: (D' ++ '.' :: P) = (d :: D') ++ '.' :: P from rfl]
  rw [parseDigitsU_digits d D' ('.' :: P) hD (by exact ⟨by decide, by decide⟩)]
  simp only []
  cases hPc : P with
  | nil => exact absurd hPc hPne
  | cons p P' =>
    have hP' : ∀ c ∈ p :: P', c.isDigit = true := hPc ▸ hP
    rw [parseFracOpt, if_pos rfl]
    rw [show (p :: P' : Line) = (p :: P') ++ [] by simp]
    rw [parseDigitsU_digits p P' [] hP' trivial]
    simp [List.length_cons]

theorem pyStrip_wsfree (F : Line) (hne : F ≠ []) (hws : ∀ c ∈ F, isWs c = false) :
    pyStrip F = F := by
  have := pyStrip_token F [] hne hws
  simpa [rstrip] using this

theorem pyFloatParse_fixed (d : Char) (D' P : Line)
    (hD : ∀ c ∈ d :: D', c.isDigit = true) (hP : ∀ c ∈ P, c.isDigit = true) (hPne : P ≠ [])
    (hbound : (digitsVal (d :: D') : ℚ) + (digitsVal P : ℚ) / 10 ^ P.length <
      ((2 ^ 1024 : ℕ) : ℚ)) :
    pyFloatParse ((d :: D') ++ '.' :: P) =
      some (.finite ((digitsVal (d :: D') : ℚ) + (digitsVal P : ℚ) / 10 ^ P.length)) := by
  have hdd := hD d (List.mem_cons_self d D')
  have hws : ∀ c ∈ (d :: D') ++ '.' :: P, isWs c = false := by
    intro c hc
    rcases List.mem_append.mp hc with h1 | h2
    · exact isDigit_not_ws c (hD c h1)
    · rcases List.mem_cons.mp h2 with rfl | h3
      · decide
      · exact isDigit_not_ws c (hP c h3)
  have hps : pyStrip ((d :: D') ++ '.' :: P) = (d :: D') ++ '.' :: P :=
    pyStrip_wsfree _ (by simp) hws
  unfold pyFloatParse
  rw [hps]
  simp only [List.cons_append]
  rw [parseSign, if_neg (digit_ne_char hdd (by decide)),
    if_neg (digit_ne_char hdd (by decide))]
  simp only []
  rw [show ("inf".toList : Line) = 'i' :: ("nf".toList) from rfl,
    show ("infinity".toList : Line) = 'i' :: ("nfinity".toList) from rfl,
    show ("nan".toList : Line) = 'n' :: ("an".toList) from rfl]
  rw [ciIs_digit_head d 'i' _ _ hdd (by decide), ciIs_digit_head d 'i' _ _ hdd (by decide),
    ciIs_digit_head d 'n' _ _ hdd (by decide)]
  rw [if_neg (by simp), if_neg (by simp)]
  rw [show d :: (D' ++ '.' :: P) = (d :: D') ++ '.' :: P from rfl]
  rw [parseMantissa_fixed d D' P hD hP hPne]
  simp only []
  rw [show parseExpOpt ([] : Line) = some (0, []) from rfl]
  simp only []
  rw [if_pos trivial, zpow_zero, mul_one]
  unfold mkFin
  simp only [Bool.false_eq_true, if_false]
  rw [if_neg]
  have hnn : (0 : ℚ) ≤ (digitsVal (d :: D') : ℚ) + (digitsVal P : ℚ) / 10 ^ P.length := by
    positivity
  rw [abs_of_nonneg hnn]
  exact not_le.mpr hbound

theorem fmt3_shape (q : ℚ) (h0 : 0 ≤ q) (hq : q ≠ 0) :
    fmt3 q = natToDigits ((round (q * 1000)).toNat / 1000) ++
      '.' :: padZeros 3 (natToDigits ((round (q * 1000)).toNat % 1000)) := by
  unfold fmt3
  rw [if_neg hq, if_neg (not_lt.mpr h0), abs_of_nonneg h0]
  simp

theorem fmt4_shape (q : ℚ) (h0 : 0 ≤ q) (hq : q ≠ 0) :
    fmt4 q = natToDigits ((round (q * 10000)).toNat / 10000) ++
      '.' :: padZeros 4 (natToDigits ((round (q * 10000)).toNat % 10000)) := by
  unfold fmt4
  rw [if_neg hq, if_neg (not_lt.mpr h0), abs_of_nonneg h0]
  simp

theorem padZeros_all_digit (w : ℕ) (D : Line) (hD : ∀ c ∈ D, c.isDigit = true) :
    ∀ c ∈ padZeros w D, c.isDigit = true := by
  intro c hc
  rcases List.mem_append.mp hc with h1 | h2
  · have : c = '0' := List.eq_of_mem_replicate h1
    subst this
    decide
  · exact hD c h2

theorem cast_twoPow_big : (16384 : ℚ) ≤ ((2 ^ 1024 : ℕ) : ℚ) := by
  have h1 : (2 : ℕ) ^ 14 ≤ 2 ^ 1024 := Nat.pow_le_pow_right (by norm_num) (by norm_num)
  have h2 : (((2 : ℕ) ^ 14 : ℕ) : ℚ) = 16384 := by norm_num
  calc (16384 : ℚ) = (((2 : ℕ) ^ 14 : ℕ) : ℚ) := h2.symm
    _ ≤ ((2 ^ 1024 : ℕ) : ℚ) := Nat.cast_le.mpr h1

theorem pyFloat_fmt3 (q : ℚ) (h0 : 0 ≤ q) (h1 : q ≤ 9999) :
    pyFloatParse (fmt3 q) = some (.finite (roundDec 3 q)) := by
  by_cases hq : q = 0
  · subst hq
    decide
  · have hm0 : (0 : ℚ) ≤ q * 1000 := by positivity
    have hmznn : 0 ≤ round (q * 1000) := round_nonneg hm0
    set m := (round (q * 1000)).toNat with hm
    have hcast : ((m : ℤ) : ℚ) = ((round (q * 1000) : ℤ) : ℚ) := by
      rw [hm, Int.toNat_of_nonneg hmznn]
    have hmle : m ≤ 9999000 := by
      rw [hm, Int.toNat_le]
      exact round_le_of_le (by push_cast; linarith)
    obtain ⟨d, D', hDd⟩ : ∃ d D', natToDigits (m / 1000) = d :: D' := by
      cases hND : natToDigits (m / 1000) with
      | nil => exact absurd hND (natToDigits_ne_nil _)
      | cons a b => exact ⟨a, b, rfl⟩
    have hDall : ∀ c ∈ d :: D', c.isDigit = true := by
      rw [← hDd]
      exact natToDigits_all _
    have hPdig : ∀ c ∈ natToDigits (m % 1000), c.isDigit = true := natToDigits_all _
    have hPall : ∀ c ∈ padZeros 3 (natToDigits (m % 1000)), c.isDigit = true :=
      padZeros_all_digit _ _ hPdig
    have hPlen : (padZeros 3 (natToDigits (m % 1000))).length = 3 :=
      padZeros_length _ _ (natToDigits_length _ 3 (by norm_num) (by omega))
    have hPne : padZeros 3 (natToDigits (m % 1000)) ≠ [] := by
      intro he
      rw [he] at hPlen
      simp at hPlen
    have hvd : digitsVal (d :: D') = m / 1000 := by
      rw [← hDd]
      exact digitsVal_natToDigits _
    have hvp : digitsVal (padZeros 3 (natToDigits (m % 1000))) = m % 1000 := by
      rw [digitsVal_padZeros]
      exact digitsVal_natToDigits _
    have hval : (digitsVal (d :: D') : ℚ) +
        (digitsVal (padZeros 3 (natToDigits (m % 1000))) : ℚ) /
          10 ^ (padZeros 3 (natToDigits (m % 1000))).length = roundDec 3 q := by
      rw [hvd, hvp, hPlen, roundDec]
      rw [show ((10 : ℚ) ^ (3 : ℕ)) = 1000 by norm_num, ← hcast]
      have hdm : 1000 * (m / 1000) + m % 1000 = m := Nat.div_add_mod m 1000
      have hdmq : 1000 * ((m / 1000 : ℕ) : ℚ) + ((m % 1000 : ℕ) : ℚ) = (m : ℚ) := by
        exact_mod_cast congrArg (Nat.cast : ℕ → ℚ) hdm
      push_cast
      field_simp
      linarith
    have hbound : (digitsVal (d :: D') : ℚ) +
        (digitsVal (padZeros 3 (natToDigits (m % 1000))) : ℚ) /
          10 ^ (padZeros 3 (natToDigits (m % 1000))).length < ((2 ^ 1024 : ℕ) : ℚ) := by
      rw [hvd, hvp, hPlen]
      have hb1 : ((m / 1000 : ℕ) : ℚ) ≤ 9999 := by
        have : m / 1000 ≤ 9999 := by omega
        exact_mod_cast this
      have hb2 : ((m % 1000 : ℕ) : ℚ) ≤ 1000 := by
        have : m % 1000 ≤ 1000 := by omega
        exact_mod_cast this
      have h10 : ((10 : ℚ) ^ (3 : ℕ)) = 1000 := by norm_num
      have := cast_twoPow_big
      rw [h10]
      linarith
    rw [fmt3_shape q h0 hq, hDd, pyFloatParse_fixed d D' _ hDall hPall hPne hbound, hval]

theorem pyFloat_fmt4 (q : ℚ) (h0 : 0 ≤ q) (h1 : q ≤ 9999) :
    pyFloatParse (fmt4 q) = some (.finite (roundDec 4 q)) := by
  by_cases hq : q = 0
  · subst hq
    decide
  · have hm0 : (0 : ℚ) ≤ q * 10000 := by positivity
    have hmznn : 0 ≤ round (q * 10000) := round_nonneg hm0
    set m := (round (q * 10000)).toNat with hm
    have hcast : ((m : ℤ) : ℚ) = ((round (q * 10000) : ℤ) : ℚ) := by
      rw [hm, Int.toNat_of_nonneg hmznn]
    have hmle : m ≤ 99990000 := by
      rw [hm, Int.toNat_le]
      exact round_le_of_le (by push_cast; linarith)
    obtain ⟨d, D', hDd⟩ : ∃ d D', natToDigits (m / 10000) = d :: D' := by
      cases hND : natToDigits (m / 10000) with
      | nil => exact absurd hND (natToDigits_ne_nil _)
      | cons a b => exact ⟨a, b, rfl⟩
    have hDall : ∀ c ∈ d :: D', c.isDigit = true := by
      rw [← hDd]
      exact natToDigits_all _
    have hPdig : ∀ c ∈ natToDigits (m % 10000), c.isDigit = true := natToDigits_all _
    have hPall : ∀ c ∈ padZeros 4 (natToDigits (m % 10000)), c.isDigit = true :=
      padZeros_all_digit _ _ hPdig
    have hPlen : (padZeros 4 (natToDigits (m % 10000))).length = 4 :=
      padZeros_length _ _ (natToDigits_length _ 4 (by norm_num) (by omega))
    have hPne : padZeros 4 (natToDigits (m % 10000)) ≠ [] := by
      intro he
      rw [he] at hPlen
      simp at hPlen
    have hvd : digitsVal (d :: D') = m / 10000 := by
      rw [← hDd]
      exact digitsVal_natToDigits _
    have hvp : digitsVal (padZeros 4 (natToDigits (m % 10000))) = m % 10000 := by
      rw [digitsVal_padZeros]
      exact digitsVal_natToDigits _
    have hval : (digitsVal (d :: D') : ℚ) +
        (digitsVal (padZeros 4 (natToDigits (m % 10000))) : ℚ) /
          10 ^ (padZeros 4 (natToDigits (m % 10000))).length = roundDec 4 q := by
      rw [hvd, hvp, hPlen, roundDec]
      rw [show ((10 : ℚ) ^ (4 : ℕ)) = 10000 by norm_num, ← hcast]
      have hdm : 10000 * (m / 10000) + m % 10000 = m := Nat.div_add_mod m 10000
      have hdmq : 10000 * ((m / 10000 : ℕ) : ℚ) + ((m % 10000 : ℕ) : ℚ) = (m : ℚ) := by
        exact_mod_cast congrArg (Nat.cast : ℕ → ℚ) hdm
      push_cast
      field_simp
      linarith
    have hbound : (digitsVal (d :: D') : ℚ) +
        (digitsVal (padZeros 4 (natToDigits (m % 10000))) : ℚ) /
          10 ^ (padZeros 4 (natToDigits (m % 10000))).length < ((2 ^ 1024 : ℕ) : ℚ) := by
      rw [hvd, hvp, hPlen]
      have hb1 : ((m / 10000 : ℕ) : ℚ) ≤ 9999 := by
        have : m / 10000 ≤ 9999 := by omega
        exact_mod_cast this
      have hb2 : ((m % 10000 : ℕ) : ℚ) ≤ 10000 := by
        have : m % 10000 ≤ 10000 := by omega
        exact_mod_cast this
      have h10 : ((10 : ℚ) ^ (4 : ℕ)) = 10000 := by norm_num
      have := cast_twoPow_big
      rw [h10]
      linarith
    rw [fmt4_shape q h0 hq, hDd, pyFloatParse_fixed d D' _ hDall hPall hPne hbound, hval]

theorem finQ_fmt3 (q : ℚ) (h0 : 0 ≤ q) (h1 : q ≤ 9999) :
    finQ (fmt3 q) = some (roundDec 3 q) := by
  unfold finQ
  rw [pyFloat_fmt3 q h0 h1]

theorem finQ_fmt4 (q : ℚ) (h0 : 0 ≤ q) (h1 : q ≤ 9999) :
    finQ (fmt4 q) = some (roundDec 4 q) := by
  unfold finQ
  rw [pyFloat_fmt4 q h0 h1]

theorem fmt3_length_le_pow (q : ℚ) (k : ℕ) (hk : 1 ≤ k) (h0 : 0 ≤ q)
    (h1 : q ≤ 10 ^ k - 1) : (fmt3 q).length ≤ k + 4 := by
  unfold fmt3
  split
  · simp
  · rw [if_neg (not_lt.mpr h0)]
    have habs : |q| = q := abs_of_nonneg h0
    have hk1 : (1 : ℕ) ≤ 10 ^ k := Nat.one_le_pow k 10 (by norm_num)
    have hmle : (round (|q| * 1000)).toNat ≤ (10 ^ k - 1) * 1000 := by
      rw [Int.toNat_le]
      apply round_le_of_le
      rw [habs]
      have hcast : ((((10 ^ k - 1) * 1000 : ℕ) : ℤ) : ℚ) = ((10 : ℚ) ^ k - 1) * 1000 := by
        push_cast [hk1]
        ring
      rw [hcast]
      nlinarith
    set m := (round (|q| * 1000)).toNat with hm
    have hdiv : m / 1000 < 10 ^ k := by
      have h2 : m / 1000 ≤ ((10 ^ k - 1) * 1000) / 1000 := Nat.div_le_div_right hmle
      rw [Nat.mul_div_cancel _ (by norm_num)] at h2
      omega
    have l1 : (natToDigits (m / 1000)).length ≤ k := natToDigits_length _ k hk hdiv
    have l2 : (natToDigits (m % 1000)).length ≤ 3 :=
      natToDigits_length _ 3 (by norm_num) (by omega)
    have l3 : (padZeros 3 (natToDigits (m % 1000))).length = 3 := padZeros_length _ _ l2
    simp only [List.nil_append, List.length_append, List.length_cons]
    omega

theorem fmt4_length_le_pow (q : ℚ) (k : ℕ) (hk : 1 ≤ k) (h0 : 0 ≤ q)
    (h1 : q ≤ 10 ^ k - 1) : (fmt4 q).length ≤ k + 5 := by
  unfold fmt4
  split
  · simp
  · rw [if_neg (not_lt.mpr h0)]
    have habs : |q| = q := abs_of_nonneg h0
    have hk1 : (1 : ℕ) ≤ 10 ^ k := Nat.one_le_pow k 10 (by norm_num)
    have hmle : (round (|q| * 10000)).toNat ≤ (10 ^ k - 1) * 10000 := by
      rw [Int.toNat_le]
      apply round_le_of_le
      rw [habs]
      have hcast : ((((10 ^ k - 1) * 10000 : ℕ) : ℤ) : ℚ) = ((10 : ℚ) ^ k - 1) * 10000 := by
        push_cast [hk1]
        ring
      rw [hcast]
      nlinarith
    set m := (round (|q| * 10000)).toNat with hm
    have hdiv : m / 10000 < 10 ^ k := by
      have h2 : m / 10000 ≤ ((10 ^ k - 1) * 10000) / 10000 := Nat.div_le_div_right hmle
      rw [Nat.mul_div_cancel _ (by norm_num)] at h2
      omega
    have l1 : (natToDigits (m / 10000)).length ≤ k := natToDigits_length _ k hk hdiv
    have l2 : (natToDigits (m % 10000)).length ≤ 4 :=
      natToDigits_length _ 4 (by norm_num) (by omega)
    have l3 : (padZeros 4 (natToDigits (m % 10000))).length = 4 := padZeros_length _ _ l2
    simp only [List.nil_append, List.length_append, List.length_cons]
    omega

/-! ## Tokenizer lemmas -/

theorem tokAux_spaces (k : ℕ) (l : Line) : tokAux [] (spacesL k ++ l) = tokAux [] l := by
  induction k with
  | zero => rfl
  | succ n ih =>
    rw [show spacesL (n + 1) ++ l = ' ' :: (spacesL n ++ l) from rfl, tokAux]
    rw [if_pos (by decide), if_pos rfl]
    exact ih

theorem tokAux_token (t : Line) : ∀ (l : Line) (cur : Line), (∀ c ∈ t, isWs c = false) →
    tokAux cur (t ++ ' ' :: l) =
      if cur.reverse ++ t = [] then tokAux [] l else (cur.reverse ++ t) :: tokAux [] l := by
  induction t with
  | nil =>
    intro l cur _
    rw [List.nil_append, tokAux, if_pos (by decide)]
    by_cases hc : cur = []
    · subst hc
      simp
    · rw [if_neg hc, if_neg (by simp [hc])]
      simp
  | cons c cs ih =>
    intro l cur hws
    rw [List.cons_append, tokAux, if_neg (by simp [hws c (List.mem_cons_self c cs)])]
    rw [ih l (c :: cur) (fun x hx => hws x (List.mem_cons_of_mem c hx))]
    have he : (c :: cur).reverse ++ cs = cur.reverse ++ c :: cs := by simp
    rw [he, if_neg (by simp)]

theorem tokAux_last (t : Line) : ∀ (cur : Line), (∀ c ∈ t, isWs c = false) →
    tokAux cur t = if cur.reverse ++ t = [] then [] else [cur.reverse ++ t] := by
  induction t with
  | nil =>
    intro cur _
    rw [tokAux]
    by_cases hc : cur = []
    · subst hc
      simp
    · rw [if_neg hc, if_neg (by simp [hc])]
      simp
  | cons c cs ih =>
    intro cur hws
    rw [tokAux, if_neg (by simp [hws c (List.mem_cons_self c cs)])]
    rw [ih (c :: cur) (fun x hx => hws x (List.mem_cons_of_mem c hx))]
    have he : (c :: cur).reverse ++ cs = cur.reverse ++ c :: cs := by simp
    rw [he, if_neg (by simp)]

/-- One `\s+`-separated token step of the whitespace split. -/
theorem tok_step (t rest : Line) (j : ℕ) (ht : t ≠ []) (hws : ∀ c ∈ t, isWs c = false)
    (hj : 1 ≤ j) :
    tokAux [] (t ++ (spacesL j ++ rest)) = t :: tokAux [] rest := by
  obtain ⟨j', rfl⟩ : ∃ j', j = j' + 1 := ⟨j - 1, by omega⟩
  rw [show spacesL (j' + 1) ++ rest = ' ' :: (spacesL j' ++ rest) from rfl]
  rw [tokAux_token t _ [] hws]
  rw [if_neg (by simpa using ht), tokAux_spaces]
  rfl

theorem tok_last (t : Line) (ht : t ≠ []) (hws : ∀ c ∈ t, isWs c = false) :
    tokAux [] t = [t] := by
  rw [tokAux_last t [] hws, if_neg (by simpa using ht)]
  rfl

/-! ## Character classes and shapes of the rendered fields -/

theorem fmt3_all (q : ℚ) (h0 : 0 ≤ q) :
    ∀ c ∈ fmt3 q, c.isDigit = true ∨ c = '.' := by
  by_cases hq : q = 0
  · subst hq
    intro c hc
    rw [show fmt3 0 = ['0'] from rfl] at hc
    have : c = '0' := by simpa using hc
    subst this
    left
    decide
  · rw [fmt3_shape q h0 hq]
    intro c hc
    rcases List.mem_append.mp hc with h1 | h2
    · exact Or.inl (natToDigits_all _ c h1)
    · rcases List.mem_cons.mp h2 with rfl | h3
      · exact Or.inr rfl
      · exact Or.inl (padZeros_all_digit _ _ (natToDigits_all _) c h3)

theorem fmt4_all (q : ℚ) (h0 : 0 ≤ q) :
    ∀ c ∈ fmt4 q, c.isDigit = true ∨ c = '.' := by
  by_cases hq : q = 0
  · subst hq
    intro c hc
    rw [show fmt4 0 = ['0'] from rfl] at hc
    have : c = '0' := by simpa using hc
    subst this
    left
    decide
  · rw [fmt4_shape q h0 hq]
    intro c hc
    rcases List.mem_append.mp hc with h1 | h2
    · exact Or.inl (natToDigits_all _ c h1)
    · rcases List.mem_cons.mp h2 with rfl | h3
      · exact Or.inr rfl
      · exact Or.inl (padZeros_all_digit _ _ (natToDigits_all _) c h3)

theorem digitdot_not_ws {c : Char} (h : c.isDigit = true ∨ c = '.') : isWs c = false := by
  rcases h with h1 | rfl
  · exact isDigit_not_ws c h1
  · decide

theorem digitdot_numTok {c : Char} (h : c.isDigit = true ∨ c = '.') :
    isNumTokChar c = true := by
  rcases h with h1 | rfl
  · simp [isNumTokChar, h1]
  · decide

theorem digitdot_numDot {c : Char} (h : c.isDigit = true ∨ c = '.') :
    isNumDotChar c = true := by
  rcases h with h1 | rfl
  · simp [isNumDotChar, h1]
  · decide

theorem fmt3_ne_nil (q : ℚ) (h0 : 0 ≤ q) : fmt3 q ≠ [] := by
  by_cases hq : q = 0
  · subst hq
    decide
  · rw [fmt3_shape q h0 hq]
    obtain ⟨d, D', hDd⟩ : ∃ d D', natToDigits ((round (q * 1000)).toNat / 1000) = d :: D' := by
      cases hND : natToDigits ((round (q * 1000)).toNat / 1000) with
      | nil => exact absurd hND (natToDigits_ne_nil _)
      | cons a b => exact ⟨a, b, rfl⟩
    rw [hDd]
    simp

theorem fmt4_ne_nil (q : ℚ) (h0 : 0 ≤ q) : fmt4 q ≠ [] := by
  by_cases hq : q = 0
  · subst hq
    decide
  · rw [fmt4_shape q h0 hq]
    obtain ⟨d, D', hDd⟩ : ∃ d D', natToDigits ((round (q * 10000)).toNat / 10000) = d :: D' := by
      cases hND : natToDigits ((round (q * 10000)).toNat / 10000) with
      | nil => exact absurd hND (natToDigits_ne_nil _)
      | cons a b => exact ⟨a, b, rfl⟩
    rw [hDd]
    simp

theorem rstrip_wsfree_suffix (X t : Line) (ht : t ≠ []) (hws : ∀ c ∈ t, isWs c = false) :
    rstrip (X ++ t) = X ++ t := by
  obtain ⟨t', d, rfl⟩ : ∃ t' d, t = t' ++ [d] := by
    cases ht' : t.reverse with
    | nil => exact absurd (by simpa using congrArg List.reverse ht') ht
    | cons a b => exact ⟨b.reverse, a, by simpa using congrArg List.reverse ht'⟩
  rw [← List.append_assoc]
  exact rstrip_append_last _ d (hws d (by simp))

theorem spacesL_append (a b : ℕ) (x : Line) :
    spacesL a ++ (spacesL b ++ x) = spacesL (a + b) ++ x := by
  rw [← List.append_assoc]
  simp [spacesL, ← List.replicate_add]

theorem startsWith_longer_false (p q l : Line) (h : startsWith p l = false) :
    startsWith (p ++ q) l = false := by
  cases hx : startsWith (p ++ q) l with
  | false => rfl
  | true => rw [startsWith_prefix_mono p q l hx] at h; exact Bool.noConfusion h

/-! ## The reconstructor on serialized species and solid rows -/

theorem pyStrip_emitRowLine (r : InRow) (hwf : wfRow r) :
    pyStrip (emitRowLine r) = r.name ++
      (spacesL ((14 - r.name.length) + (10 - (fmt3 r.g).length)) ++
        (fmt3 r.g ++ (spacesL (10 - (fmt3 (r.W * 100)).length) ++
          (fmt3 (r.W * 100) ++ (spacesL (8 - (fmt3 r.n).length) ++
            (fmt3 r.n ++ (spacesL (8 - (fmt3 r.X).length) ++
              (fmt3 r.X ++ (spacesL (12 - (fmt4 r.a).length) ++ fmt4 r.a))))))))) := by
  obtain ⟨⟨hne, hws, -⟩, hg0, hg1, hw0, hw1, hn0, hn1, hx0, hx1, ha0, ha1⟩ := hwf
  have e1 : emitRowLine r = spacesL 2 ++ (r.name ++
      (spacesL (14 - r.name.length) ++ (spacesL (10 - (fmt3 r.g).length) ++
        (fmt3 r.g ++ (spacesL (10 - (fmt3 (r.W * 100)).length) ++
          (fmt3 (r.W * 100) ++ (spacesL (8 - (fmt3 r.n).length) ++
            (fmt3 r.n ++ (spacesL (8 - (fmt3 r.X).length) ++
              (fmt3 r.X ++ (spacesL (12 - (fmt4 r.a).length) ++ fmt4 r.a))))))))))) := by
    rw [emitRowLine, show ("  ".toList : Line) = spacesL 2 from rfl]
    simp [padRightL, padLeftL, List.append_assoc]
  rw [e1, pyStrip_spaces, pyStrip_token _ _ hne hws]
  have hXsplit : spacesL (14 - r.name.length) ++ (spacesL (10 - (fmt3 r.g).length) ++
      (fmt3 r.g ++ (spacesL (10 - (fmt3 (r.W * 100)).length) ++
        (fmt3 (r.W * 100) ++ (spacesL (8 - (fmt3 r.n).length) ++
          (fmt3 r.n ++ (spacesL (8 - (fmt3 r.X).length) ++
            (fmt3 r.X ++ (spacesL (12 - (fmt4 r.a).length) ++ fmt4 r.a))))))))) =
      (spacesL (14 - r.name.length) ++ (spacesL (10 - (fmt3 r.g).length) ++
      (fmt3 r.g ++ (spacesL (10 - (fmt3 (r.W * 100)).length) ++
        (fmt3 (r.W * 100) ++ (spacesL (8 - (fmt3 r.n).length) ++
          (fmt3 r.n ++ (spacesL (8 - (fmt3 r.X).length) ++
            (fmt3 r.X ++ spacesL (12 - (fmt4 r.a).length)))))))))) ++ fmt4 r.a := by
    simp [List.append_assoc]
  rw [hXsplit, rstrip_wsfree_suffix _ _ (fmt4_ne_nil _ ha0)
    (fun c hc => digitdot_not_ws (fmt4_all _ ha0 c hc)), ← hXsplit, spacesL_append]

theorem pyStrip_emitSolidLine (s : InSolid) (hwf : wfSolid s) :
    pyStrip (emitSolidLine s) = s.name ++
      (spacesL ((22 - s.name.length) + (12 - (fmt3 s.g).length)) ++
        (fmt3 s.g ++ (spacesL (14 - (fmt4 s.a).length) ++ fmt4 s.a))) := by
  obtain ⟨⟨hne, hws, -⟩, hg0, hg1, ha0, ha1⟩ := hwf
  have e1 : emitSolidLine s = spacesL 2 ++ (s.name ++
      (spacesL (22 - s.name.length) ++ (spacesL (12 - (fmt3 s.g).length) ++
        (fmt3 s.g ++ (spacesL (14 - (fmt4 s.a).length) ++ fmt4 s.a))))) := by
    rw [emitSolidLine, show ("  ".toList : Line) = spacesL 2 from rfl]
    simp [padRightL, padLeftL, List.append_assoc]
  rw [e1, pyStrip_spaces, pyStrip_token _ _ hne hws]
  have hXsplit : spacesL (22 - s.name.length) ++ (spacesL (12 - (fmt3 s.g).length) ++
      (fmt3 s.g ++ (spacesL (14 - (fmt4 s.a).length) ++ fmt4 s.a))) =
      (spacesL (22 - s.name.length) ++ (spacesL (12 - (fmt3 s.g).length) ++
      (fmt3 s.g ++ spacesL (14 - (fmt4 s.a).length)))) ++ fmt4 s.a := by
    simp [List.append_assoc]
  rw [hXsplit, rstrip_wsfree_suffix _ _ (fmt4_ne_nil _ ha0)
    (fun c hc => digitdot_not_ws (fmt4_all _ ha0 c hc)), ← hXsplit, spacesL_append]

theorem tokenize_emitRowLine (r : InRow) (hwf : wfRow r) :
    tokenize (pyStrip (emitRowLine r)) =
      [r.name, fmt3 r.g, fmt3 (r.W * 100), fmt3 r.n, fmt3 r.X, fmt4 r.a] := by
  have hwf' := hwf
  obtain ⟨⟨hne, hws, -⟩, hg0, hg1, hw0, hw1, hn0, hn1, hx0, hx1, ha0, ha1⟩ := hwf'
  have hl1 : (fmt3 r.g).length ≤ 8 := fmt3_length_le _ hg0 hg1
  have hl2 : (fmt3 (r.W * 100)).length ≤ 7 := by
    have h999 : r.W * 100 ≤ 10 ^ 3 - 1 := by
      have : (10 : ℚ) ^ 3 - 1 = 999 := by norm_num
      rw [this]
      nlinarith
    exact fmt3_length_le_pow _ 3 (by norm_num) (by positivity) h999
  have hl3 : (fmt3 r.n).length ≤ 7 := by
    have h999 : r.n ≤ 10 ^ 3 - 1 := by
      have : (10 : ℚ) ^ 3 - 1 = 999 := by norm_num
      rw [this]
      linarith
    exact fmt3_length_le_pow _ 3 (by norm_num) hn0 h999
  have hl4 : (fmt3 r.X).length ≤ 5 := by
    have h9 : r.X ≤ 10 ^ 1 - 1 := by
      have : (10 : ℚ) ^ 1 - 1 = 9 := by norm_num
      rw [this]
      linarith
    exact fmt3_length_le_pow _ 1 (by norm_num) hx0 h9
  have hl5 : (fmt4 r.a).length ≤ 9 := fmt4_length_le _ ha0 ha1
  rw [pyStrip_emitRowLine r hwf]
  unfold tokenize
  rw [tok_step _ _ _ hne hws (by omega)]
  rw [tok_step _ _ _ (fmt3_ne_nil _ hg0)
    (fun c hc => digitdot_not_ws (fmt3_all _ hg0 c hc)) (by omega)]
  rw [tok_step _ _ _ (fmt3_ne_nil _ (by positivity))
    (fun c hc => digitdot_not_ws (fmt3_all _ (by positivity) c hc)) (by omega)]
  rw [tok_step _ _ _ (fmt3_ne_nil _ hn0)
    (fun c hc => digitdot_not_ws (fmt3_all _ hn0 c hc)) (by omega)]
  rw [tok_step _ _ _ (fmt3_ne_nil _ hx0)
    (fun c hc => digitdot_not_ws (fmt3_all _ hx0 c hc)) (by omega)]
  rw [tok_last _ (fmt4_ne_nil _ ha0)
    (fun c hc => digitdot_not_ws (fmt4_all _ ha0 c hc))]

theorem tokenize_emitSolidLine (s : InSolid) (hwf : wfSolid s) :
    tokenize (pyStrip (emitSolidLine s)) = [s.name, fmt3 s.g, fmt4 s.a] := by
  have hwf' := hwf
  obtain ⟨⟨hne, hws, -⟩, hg0, hg1, ha0, ha1⟩ := hwf'
  have hl1 : (fmt3 s.g).length ≤ 8 := fmt3_length_le _ hg0 hg1
  have hl2 : (fmt4 s.a).length ≤ 9 := fmt4_length_le _ ha0 ha1
  rw [pyStrip_emitSolidLine s hwf]
  unfold tokenize
  rw [tok_step _ _ _ hne hws (by omega)]
  rw [tok_step _ _ _ (fmt3_ne_nil _ hg0)
    (fun c hc => digitdot_not_ws (fmt3_all _ hg0 c hc)) (by omega)]
  rw [tok_last _ (fmt4_ne_nil _ ha0)
    (fun c hc => digitdot_not_ws (fmt4_all _ ha0 c hc))]

theorem fmt4_wsfree (q : ℚ) : ∀ c ∈ fmt4 q, isWs c = false := by
  unfold fmt4
  split
  · intro c hc
    have : c = '0' := by simpa using hc
    subst this
    decide
  · intro c hc
    simp only [List.mem_append, List.mem_cons] at hc
    rcases hc with (h1 | h2) | rfl | h3
    · split at h1
      · have : c = '-' := by simpa using h1
        subst this
        decide
      · simp at h1
    · exact isDigit_not_ws c (natToDigits_all _ c h2)
    · decide
    · exact isDigit_not_ws c (padZeros_all_digit _ _ (natToDigits_all _) c h3)

theorem fmt4_ne_nil_any (q : ℚ) : fmt4 q ≠ [] := by
  unfold fmt4
  split
  · simp
  · obtain ⟨d, D', hDd⟩ : ∃ d D', natToDigits ((round (|q| * 10000)).toNat / 10000) = d :: D' := by
      cases hND : natToDigits ((round (|q| * 10000)).toNat / 10000) with
      | nil => exact absurd hND (natToDigits_ne_nil _)
      | cons a b => exact ⟨a, b, rfl⟩
    simp only []
    rw [hDd]
    split <;> simp

theorem spacesL_pos_cons (J : ℕ) (hJ : 1 ≤ J) (x : Line) :
    ∃ r', spacesL J ++ x = ' ' :: r' := by
  obtain ⟨J', rfl⟩ : ∃ J', J = J' + 1 := ⟨J - 1, by omega⟩
  exact ⟨spacesL J' ++ x, rfl⟩

theorem fmt3_all_numTok (q : ℚ) (h0 : 0 ≤ q) : (fmt3 q).all isNumTokChar = true := by
  rw [List.all_eq_true]
  intro c hc
  exact digitdot_numTok (fmt3_all q h0 c hc)

theorem fmt4_all_numTok (q : ℚ) (h0 : 0 ≤ q) : (fmt4 q).all isNumTokChar = true := by
  rw [List.all_eq_true]
  intro c hc
  exact digitdot_numTok (fmt4_all q h0 c hc)

theorem rowParse6_emit (r : InRow) (hwf : wfRow r) :
    rowParse6 (pyStrip (emitRowLine r)) = some (some (roundRowOf r)) := by
  have hwf' := hwf
  obtain ⟨⟨hne, hws, -⟩, hg0, hg1, hw0, hw1, hn0, hn1, hx0, hx1, ha0, ha1⟩ := hwf'
  unfold rowParse6 matchRow6
  rw [tokenize_emitRowLine r hwf]
  simp only []
  rw [if_pos (by
    simp only [Bool.and_eq_true]
    exact ⟨⟨⟨⟨fmt3_all_numTok _ hg0, fmt3_all_numTok _ (by positivity)⟩,
      fmt3_all_numTok _ hn0⟩, fmt3_all_numTok _ hx0⟩, fmt4_all_numTok _ ha0⟩)]
  simp only []
  rw [finQ_fmt3 _ hg0 hg1, finQ_fmt3 _ (by positivity) (by nlinarith),
    finQ_fmt3 _ hn0 (by linarith), finQ_fmt3 _ hx0 (by linarith), finQ_fmt4 _ ha0 ha1]
  rfl

theorem rowParse3_emit (s : InSolid) (hwf : wfSolid s) :
    rowParse3 (pyStrip (emitSolidLine s)) = some (some ⟨s.name, roundDec 3 s.g⟩) := by
  have hwf' := hwf
  obtain ⟨⟨hne, hws, -⟩, hg0, hg1, ha0, ha1⟩ := hwf'
  unfold rowParse3 matchRow3
  rw [tokenize_emitSolidLine s hwf]
  simp only []
  rw [if_pos (by
    simp only [Bool.and_eq_true]
    exact ⟨fmt3_all_numTok _ hg0, fmt4_all_numTok _ ha0⟩)]
  simp only []
  rw [finQ_fmt3 _ hg0 hg1]

theorem breakRow6_token (nm r' : Line) (hne : nm ≠ [])
    (hph : startsWith ("PHASE:".toList) nm = false)
    (hpu : startsWith ("PURE".toList) nm = false)
    (hsys : startsWith ("System".toList) nm = false) :
    breakRow6 (nm ++ ' ' :: r') = false := by
  unfold breakRow6
  have h1 : decide ((nm ++ ' ' :: r') = []) = false := by
    cases nm with
    | nil => exact absurd rfl hne
    | cons c t => simp
  have h2 : startsWith ("PHASE:".toList) (nm ++ ' ' :: r') = false :=
    startsWith_sep_false _ (by decide) nm r' hph
  have h3 : startsWith ("PURE SOLIDS:".toList) (nm ++ ' ' :: r') = false := by
    rw [show ("PURE SOLIDS:".toList : Line) = "PURE".toList ++ (" SOLIDS:".toList) from rfl]
    exact startsWith_longer_false _ _ _ (startsWith_sep_false _ (by decide) nm r' hpu)
  have h4 : startsWith ("System Thermodynamics:".toList) (nm ++ ' ' :: r') = false := by
    rw [show ("System Thermodynamics:".toList : Line) =
      "System".toList ++ (" Thermodynamics:".toList) from rfl]
    exact startsWith_longer_false _ _ _ (startsWith_sep_false _ (by decide) nm r' hsys)
  rw [h1, h2, h3, h4]
  rfl

theorem breakRow3_token (nm r' : Line) (hne : nm ≠ [])
    (hph : startsWith ("PHASE:".toList) nm = false)
    (hsys : startsWith ("System".toList) nm = false) :
    breakRow3 (nm ++ ' ' :: r') = false := by
  unfold breakRow3
  have h1 : decide ((nm ++ ' ' :: r') = []) = false := by
    cases nm with
    | nil => exact absurd rfl hne
    | cons c t => simp
  have h2 : startsWith ("PHASE:".toList) (nm ++ ' ' :: r') = false :=
    startsWith_sep_false _ (by decide) nm r' hph
  have h4 : startsWith ("System Thermodynamics:".toList) (nm ++ ' ' :: r') = false := by
    rw [show ("System Thermodynamics:".toList : Line) =
      "System".toList ++ (" Thermodynamics:".toList) from rfl]
    exact startsWith_longer_false _ _ _ (startsWith_sep_false _ (by decide) nm r' hsys)
  rw [h1, h2, h4]
  rfl

theorem emitRow_token_shape (r : InRow) (hwf : wfRow r) :
    ∃ r', pyStrip (emitRowLine r) = r.name ++ ' ' :: r' := by
  have hwf' := hwf
  obtain ⟨-, hg0, hg1, -⟩ := hwf'
  have hl1 : (fmt3 r.g).length ≤ 8 := fmt3_length_le _ hg0 hg1
  rw [pyStrip_emitRowLine r hwf]
  obtain ⟨r', hr'⟩ := spacesL_pos_cons ((14 - r.name.length) + (10 - (fmt3 r.g).length))
    (by omega) _
  exact ⟨r', by rw [hr']⟩

theorem emitSolid_token_shape (s : InSolid) (hwf : wfSolid s) :
    ∃ r', pyStrip (emitSolidLine s) = s.name ++ ' ' :: r' := by
  have hwf' := hwf
  obtain ⟨-, hg0, hg1, -⟩ := hwf'
  have hl1 : (fmt3 s.g).length ≤ 8 := fmt3_length_le _ hg0 hg1
  rw [pyStrip_emitSolidLine s hwf]
  obtain ⟨r', hr'⟩ := spacesL_pos_cons ((22 - s.name.length) + (12 - (fmt3 s.g).length))
    (by omega) _
  exact ⟨r', by rw [hr']⟩

theorem pyStrip_emitTotalLine (ph : InPhase) :
    ∃ t, pyStrip (emitTotalLine ph) = ("TOTAL".toList) ++ ' ' :: t := by
  have e : emitTotalLine ph = spacesL 2 ++ (("TOTAL".toList) ++
      (spacesL 9 ++ (spacesL (10 - (fmt3 (((qualRows ph).map (·.g)).sum)).length) ++
        (fmt3 (((qualRows ph).map (·.g)).sum) ++ (spacesL (10 - (fmt3 (100 : ℚ)).length) ++
          (fmt3 (100 : ℚ) ++ (spacesL (8 - (fmt3 (((qualRows ph).map (·.n)).sum)).length) ++
            (fmt3 (((qualRows ph).map (·.n)).sum) ++ (spacesL (8 - (fmt3 (1 : ℚ)).length) ++
              (fmt3 (1 : ℚ) ++ (spacesL (12 - (fmt4 (((qualRows ph).map (·.a)).sum)).length) ++
                fmt4 (((qualRows ph).map (·.a)).sum)))))))))))) := by
    rw [emitTotalLine, show ("  ".toList : Line) = spacesL 2 from rfl]
    simp [padRightL, padLeftL, List.append_assoc]
  rw [e, pyStrip_spaces, pyStrip_token _ _ (by decide) (by decide)]
  set F5 := fmt4 (((qualRows ph).map (·.a)).sum) with hF5
  have hXsplit : spacesL 9 ++ (spacesL (10 - (fmt3 (((qualRows ph).map (·.g)).sum)).length) ++
      (fmt3 (((qualRows ph).map (·.g)).sum) ++ (spacesL (10 - (fmt3 (100 : ℚ)).length) ++
        (fmt3 (100 : ℚ) ++ (spacesL (8 - (fmt3 (((qualRows ph).map (·.n)).sum)).length) ++
          (fmt3 (((qualRows ph).map (·.n)).sum) ++ (spacesL (8 - (fmt3 (1 : ℚ)).length) ++
            (fmt3 (1 : ℚ) ++ (spacesL (12 - F5.length) ++ F5))))))))) =
      (spacesL 9 ++ (spacesL (10 - (fmt3 (((qualRows ph).map (·.g)).sum)).length) ++
      (fmt3 (((qualRows ph).map (·.g)).sum) ++ (spacesL (10 - (fmt3 (100 : ℚ)).length) ++
        (fmt3 (100 : ℚ) ++ (spacesL (8 - (fmt3 (((qualRows ph).map (·.n)).sum)).length) ++
          (fmt3 (((qualRows ph).map (·.n)).sum) ++ (spacesL (8 - (fmt3 (1 : ℚ)).length) ++
            (fmt3 (1 : ℚ) ++ spacesL (12 - F5.length)))))))))) ++ F5 := by
    simp [List.append_assoc]
  rw [hXsplit, rstrip_wsfree_suffix _ _ (fmt4_ne_nil_any _) (fun c hc => fmt4_wsfree _ c hc),
    ← hXsplit, spacesL_append]
  obtain ⟨J', hJ'⟩ : ∃ J', 9 + (10 - (fmt3 (((qualRows ph).map (·.g)).sum)).length) = J' + 1 :=
    ⟨8 + (10 - (fmt3 (((qualRows ph).map (·.g)).sum)).length), by omega⟩
  rw [hJ']
  exact ⟨_, rfl⟩

theorem scanPhaseRows_emitted (rows : List InRow) (ph : InPhase) (rest : List Line)
    (hwf : ∀ r ∈ rows, wfRow r) :
    scanPhaseRows (rows.map emitRowLine ++ emitTotalLine ph :: [] :: rest) =
      some (rows.map roundRowOf, [] :: rest) := by
  induction rows with
  | nil =>
    simp only [List.map_nil, List.nil_append]
    obtain ⟨t, ht⟩ := pyStrip_emitTotalLine ph
    rw [scanPhaseRows, ht, breakRow6_token _ _ (by decide) (by decide) (by decide) (by decide)]
    rw [if_neg (by simp), if_pos (by rw [startsWith_refl_append])]
    rw [scanPhaseRows]
    rw [if_pos (by decide)]
  | cons r rows' ih =>
    have hwfr := hwf r (List.mem_cons_self r rows')
    obtain ⟨⟨hnm1, hnm2, hph, hpu, hsys, htot, hpg⟩, -⟩ := hwfr
    obtain ⟨r', hr'⟩ := emitRow_token_shape r (hwf r (List.mem_cons_self r rows'))
    rw [List.map_cons, List.cons_append, scanPhaseRows, hr']
    rw [breakRow6_token _ _ hnm1 hph hpu hsys]
    rw [if_neg (by simp), if_neg (by rw [startsWith_sep_false _ (by decide) _ _ htot]; simp)]
    rw [← hr', rowParse6_emit r (hwf r (List.mem_cons_self r rows'))]
    simp only []
    rw [ih (fun x hx => hwf x (List.mem_cons_of_mem r hx))]
    rfl

theorem rstrip_length_le (l : Line) : (rstrip l).length ≤ l.length := by
  unfold rstrip
  calc (l.reverse.dropWhile isWs).reverse.length = (l.reverse.dropWhile isWs).length := by simp
    _ ≤ l.reverse.length := dropWhile_length_le _ _
    _ = l.length := by simp

theorem dropWhile_eq_self_of_length (p : Char → Bool) (l : Line)
    (h : (l.dropWhile p).length = l.length) : l.dropWhile p = l := by
  cases l with
  | nil => rfl
  | cons c cs =>
    cases hc : p c with
    | true =>
      rw [List.dropWhile_cons, if_pos (by simp [hc])] at h
      have := dropWhile_length_le p cs
      simp at h
      omega
    | false => rw [List.dropWhile_cons, if_neg (by simp [hc])]

theorem pyStrip_eq_imp_rstrip (l : Line) (h : pyStrip l = l) : rstrip l = l := by
  have hlen := congrArg List.length h
  unfold pyStrip at hlen
  have h1 : ((l.dropWhile isWs).reverse.dropWhile isWs).reverse.length ≤
      (l.dropWhile isWs).length := by
    calc ((l.dropWhile isWs).reverse.dropWhile isWs).reverse.length
        = ((l.dropWhile isWs).reverse.dropWhile isWs).length := by simp
      _ ≤ (l.dropWhile isWs).reverse.length := dropWhile_length_le _ _
      _ = (l.dropWhile isWs).length := by simp
  have h2 : (l.dropWhile isWs).length ≤ l.length := dropWhile_length_le _ _
  have h3 : l.dropWhile isWs = l :=
    dropWhile_eq_self_of_length _ _ (by omega)
  have h4 : pyStrip l = rstrip (l.dropWhile isWs) := rfl
  rw [h3] at h4
  rw [← h4, h]

theorem rstrip_last_not_ws (t' : Line) (d : Char) (h : rstrip (t' ++ [d]) = t' ++ [d]) :
    isWs d = false := by
  cases hd : isWs d with
  | false => rfl
  | true =>
    exfalso
    unfold rstrip at h
    rw [show (t' ++ [d]).reverse = d :: t'.reverse by simp, List.dropWhile_cons,
      if_pos (by simp [hd])] at h
    have hlen := congrArg List.length h
    have h2 := dropWhile_length_le isWs t'.reverse
    have h3 : (t'.reverse).length = t'.length := by simp
    simp at hlen
    omega

theorem rstrip_keep_append (X t : Line) (htne : t ≠ []) (ht : rstrip t = t) :
    rstrip (X ++ t) = X ++ t := by
  obtain ⟨t', d, rfl⟩ : ∃ t' d, t = t' ++ [d] := by
    cases ht' : t.reverse with
    | nil => exact absurd (by simpa using congrArg List.reverse ht') htne
    | cons a b => exact ⟨b.reverse, a, by simpa using congrArg List.reverse ht'⟩
  have hd : isWs d = false := rstrip_last_not_ws t' d ht
  rw [← List.append_assoc]
  exact rstrip_append_last _ d hd

/-- The serialized `PHASE:` header line strips to itself for a well-formed
phase name. -/
theorem pyStrip_phase_line (nm : Line) (hne : nm ≠ []) (hstrip : pyStrip nm = nm) :
    pyStrip (("PHASE: ".toList) ++ nm) = ("PHASE: ".toList) ++ nm := by
  rw [show ("PHASE: ".toList) ++ nm = 'P' :: (("HASE: ".toList) ++ nm) from rfl]
  rw [pyStrip_cons _ _ (by decide)]
  rw [rstrip_keep_append _ nm hne (pyStrip_eq_imp_rstrip nm hstrip)]

theorem upToNext_no (pat : Line) (l : Line) (h : containsSeq pat l = false) :
    upToNext pat l = l := by
  induction l with
  | nil => rfl
  | cons c cs ih =>
    rw [containsSeq, Bool.or_eq_false_iff] at h
    rw [upToNext, if_neg (by simp [h.1])]
    rw [ih h.2]

/-- The name the reconstructor stores for a serialized `PHASE:` section. -/
theorem phase_name_extract (nm : Line) (hne : nm ≠ []) (hstrip : pyStrip nm = nm)
    (hcont : containsSeq ("PHASE:".toList) nm = false) :
    pyStrip (upToNext ("PHASE:".toList)
      ((pyStrip (("PHASE: ".toList) ++ nm)).drop 6)) = nm := by
  rw [pyStrip_phase_line nm hne hstrip]
  rw [show (("PHASE: ".toList) ++ nm).drop 6 = ' ' :: nm from rfl]
  rw [upToNext, if_neg (by simp [startsWith])]
  rw [upToNext_no _ _ hcont]
  rw [show (' ' :: nm : Line) = spacesL 1 ++ nm from rfl, pyStrip_spaces]
  exact hstrip

theorem startsWith_eqs_P (x : Line) : startsWith (List.replicate 10 '=') ('P' :: x) = false := by
  rw [show (List.replicate 10 '=' : Line) = '=' :: List.replicate 9 '=' from rfl]
  simp [startsWith]

theorem nextIsPageSep_P (x : Line) (ls : List Line) :
    nextIsPageSep (('P' :: x) :: ls) = false := by
  cases ls with
  | nil => rfl
  | cons b t =>
    unfold nextIsPageSep
    simp only []
    rw [startsWith_eqs_P]
    rfl

/-- `scanSections` is fuel-monotone: a result obtained with some fuel is
obtained with any larger fuel (the fuel only bounds the recursion). -/
theorem scanSections_mono (fuel : ℕ) : ∀ (fuel' : ℕ) (l : List Line) r,
    scanSections fuel l = some r → fuel ≤ fuel' → scanSections fuel' l = some r := by
  induction fuel with
  | zero =>
    intro fuel' l r h _
    cases l with
    | nil =>
      rw [scanSections] at h
      cases fuel' <;> simpa [scanSections] using h
    | cons a ls =>
      rw [scanSections] at h
      split at h
      · cases h
        cases fuel' <;> rw [scanSections] <;> rw [if_pos ‹_›]
      · exact Option.noConfusion h
  | succ n ih =>
    intro fuel' l r h hle
    cases l with
    | nil =>
      rw [scanSections] at h
      cases fuel' <;> simpa [scanSections] using h
    | cons a ls =>
      obtain ⟨n', rfl⟩ : ∃ n', fuel' = n' + 1 := ⟨fuel' - 1, by omega⟩
      rw [scanSections] at h
      rw [scanSections]
      split at h
      · cases h
        rw [if_pos ‹_›]
      · rw [if_neg ‹_›]
        split at h
        · rw [if_pos ‹_›]
          split at h
          · exact Option.noConfusion h
          · rename_i rows0 rest0 hp
            split at h
            · exact Option.noConfusion h
            · rename_i phs0 sols0 rest2 hs
              rw [ih n' _ _ hs (by omega)]
              exact h
        · rw [if_neg ‹_›]
          split at h
          · rw [if_pos ‹_›]
            split at h
            · exact Option.noConfusion h
            · rename_i rows0 rest0 hp
              split at h
              · exact Option.noConfusion h
              · rename_i phs0 sols0 rest2 hs
                rw [ih n' _ _ hs (by omega)]
                exact h
          · rw [if_neg ‹_›]
            exact ih n' _ _ h (by omega)

theorem scanSections_stop (fuel : ℕ) (rest : List Line)
    (hstop : rest = [] ∨ nextIsPageSep rest = true) :
    scanSections fuel rest = some ([], [], rest) := by
  rcases hstop with rfl | h
  · cases fuel <;> rfl
  · cases rest with
    | nil => simp [nextIsPageSep] at h
    | cons l ls =>
      cases fuel with
      | zero => rw [scanSections, if_pos h]
      | succ n => rw [scanSections, if_pos h]

theorem scanSections_blank (fuel : ℕ) (ls : List Line) :
    scanSections (fuel + 1) ([] :: ls) = scanSections fuel ls := by
  have hsep : nextIsPageSep ([] :: ls) = false := by
    cases ls <;> rfl
  rw [scanSections, if_neg (by simp [hsep])]
  rw [if_neg (by decide), if_neg (by decide)]

theorem scanSolidRows_emitted (sols : List InSolid) (rest : List Line)
    (hwf : ∀ s ∈ sols, wfSolid s) :
    scanSolidRows (sols.map emitSolidLine ++ [] :: rest) =
      some (sols.map (fun s => (⟨s.name, roundDec 3 s.g⟩ : PSolid)), [] :: rest) := by
  induction sols with
  | nil =>
    simp only [List.map_nil, List.nil_append]
    rw [scanSolidRows]
    rw [if_pos (by decide)]
  | cons s sols' ih =>
    have hwfs := hwf s (List.mem_cons_self s sols')
    obtain ⟨⟨hnm1, hnm2, hph, hpu, hsys, htot, hpg⟩, -⟩ := hwfs
    obtain ⟨r', hr'⟩ := emitSolid_token_shape s (hwf s (List.mem_cons_self s sols'))
    rw [List.map_cons, List.cons_append, scanSolidRows, hr']
    rw [breakRow3_token _ _ hnm1 hph hsys]
    rw [if_neg (by simp)]
    rw [← hr', rowParse3_emit s (hwf s (List.mem_cons_self s sols'))]
    simp only []
    rw [ih (fun x hx => hwf x (List.mem_cons_of_mem s hx))]
    rfl

/-- One serialized `PHASE:` section consumes two units of outer-loop fuel and
prepends the reconstructed phase. -/
theorem scanSections_phase_cons (ph : InPhase) (hwf : wfPhase ph) (fuel : ℕ)
    (rest : List Line) :
    scanSections (fuel + 2) (emitPhase ph ++ rest) =
      (scanSections fuel rest).map (fun res =>
        ((⟨ph.name, (sortedRows ph).map roundRowOf⟩ : PPhase) :: res.1, res.2.1, res.2.2)) := by
  obtain ⟨hstrip, hcont, -, hrows, hne⟩ := hwf
  have hrows' : ∀ r ∈ sortedRows ph, wfRow r := by
    intro r hr
    exact hrows r (List.mem_filter.mp ((mem_insertionSortBy _ r _).mp hr)).1
  have e : emitPhase ph ++ rest = (("PHASE: ".toList) ++ ph.name) ::
      phaseColsLine :: ((sortedRows ph).map emitRowLine ++
        emitTotalLine ph :: [] :: rest) := by
    simp [emitPhase, List.append_assoc]
  rw [e]
  rw [show fuel + 2 = Nat.succ (fuel + 1) from rfl, scanSections,
    if_neg (by simp [nextIsPageSep_P])]
  rw [if_pos (by
    rw [pyStrip_phase_line ph.name hne hstrip, show (("PHASE: ".toList) ++ ph.name : Line) =
      ("PHASE:".toList) ++ (' ' :: ph.name) from rfl]
    exact startsWith_refl_append _ _)]
  rw [show (phaseColsLine :: ((sortedRows ph).map emitRowLine ++
    emitTotalLine ph :: [] :: rest)).drop 1 = (sortedRows ph).map emitRowLine ++
    emitTotalLine ph :: [] :: rest from rfl]
  rw [scanPhaseRows_emitted _ ph rest hrows']
  simp only []
  rw [scanSections_blank]
  rw [phase_name_extract ph.name hne hstrip hcont]
  cases hres : scanSections fuel rest with
  | none => rfl
  | some res => rfl

theorem scanSections_phases (phs : List InPhase) : ∀ (fuel : ℕ) (after : List Line),
    (∀ ph ∈ phs, wfPhase ph) →
    scanSections (2 * phs.length + fuel) ((phs.map emitPhase).flatten ++ after) =
      (scanSections fuel after).map (fun res =>
        ((phs.map (fun ph => (⟨ph.name, (sortedRows ph).map roundRowOf⟩ : PPhase))) ++ res.1,
          res.2.1, res.2.2)) := by
  induction phs with
  | nil =>
    intro fuel after _
    simp only [List.map_nil, List.flatten_nil, List.nil_append, List.length_nil,
      Nat.mul_zero, Nat.zero_add]
    cases hres : scanSections fuel after with
    | none => rfl
    | some res => rfl
  | cons ph phs' ih =>
    intro fuel after hwf
    have e : ((ph :: phs').map emitPhase).flatten ++ after =
        emitPhase ph ++ ((phs'.map emitPhase).flatten ++ after) := by simp
    have hfuel : 2 * (ph :: phs').length + fuel = (2 * phs'.length + fuel) + 2 := by
      simp only [List.length_cons]
      ring
    rw [e, hfuel, scanSections_phase_cons ph (hwf ph (List.mem_cons_self ph phs')) _ _]
    rw [ih fuel after (fun x hx => hwf x (List.mem_cons_of_mem _ hx))]
    cases hres : scanSections fuel after with
    | none => rfl
    | some res => simp

theorem scanSections_solid_block (S : List InSolid) (fuel : ℕ) (after : List Line)
    (hwf : ∀ s ∈ S, wfSolid s) (hstop : after = [] ∨ nextIsPageSep after = true) :
    scanSections (fuel + 2) (("PURE SOLIDS:".toList) :: solidColsLine ::
      (S.map emitSolidLine ++ [] :: after)) =
      some ([], S.map (fun s => (⟨s.name, roundDec 3 s.g⟩ : PSolid)), after) := by
  rw [show fuel + 2 = Nat.succ (fuel + 1) from rfl, scanSections,
    if_neg (by simp [nextIsPageSep_P])]
  rw [if_neg (by decide), if_pos (by decide)]
  rw [show (solidColsLine :: (S.map emitSolidLine ++ [] :: after)).drop 1 =
    S.map emitSolidLine ++ [] :: after from rfl]
  rw [scanSolidRows_emitted S after hwf]
  simp only []
  rw [scanSections_blank, scanSections_stop fuel after hstop]
  simp

/-- The section scan over one serialized block body: the ordered qualifying
phases, then the qualifying solids, stopping at the next block (or the end). -/
theorem scanSections_page (p : InPage) (hph : ∀ ph ∈ p.phases, wfPhase ph)
    (hsol : ∀ s ∈ p.solids, wfSolid s) (after : List Line)
    (hstop : after = [] ∨ nextIsPageSep after = true) (fuel : ℕ)
    (hfuel : 2 * (orderedPhases p).length ≤ fuel)
    (hfuel2 : qualSolids p ≠ [] → 2 * (orderedPhases p).length + 2 ≤ fuel) :
    scanSections fuel ((List.map emitPhase (orderedPhases p)).flatten ++
        (emitSolidsSection p ++ after)) =
      some ((orderedPhases p).map
          (fun ph => (⟨ph.name, (sortedRows ph).map roundRowOf⟩ : PPhase)),
        (qualSolids p).map (fun s => (⟨s.name, roundDec 3 s.g⟩ : PSolid)), after) := by
  have hwfph : ∀ ph ∈ orderedPhases p, wfPhase ph := by
    intro ph hmem
    exact hph ph (List.mem_filter.mp ((mem_insertionSortBy _ ph _).mp hmem)).1
  have hwfsol : ∀ s ∈ qualSolids p, wfSolid s := by
    intro s hmem
    exact hsol s (List.mem_filter.mp ((mem_insertionSortBy _ s _).mp hmem)).1
  by_cases hq : qualSolids p = []
  · rw [emitSolidsSection, if_pos hq, List.nil_append]
    rw [show fuel = 2 * (orderedPhases p).length + (fuel - 2 * (orderedPhases p).length)
      by omega]
    rw [scanSections_phases (orderedPhases p) _ after hwfph]
    rw [scanSections_stop _ after hstop]
    rw [hq]
    simp
  · rw [emitSolidsSection, if_neg hq]
    have e : ("PURE SOLIDS:".toList) :: solidColsLine ::
        ((qualSolids p).map emitSolidLine ++ [[]]) ++ after =
        ("PURE SOLIDS:".toList) :: solidColsLine ::
        ((qualSolids p).map emitSolidLine ++ [] :: after) := by
      simp
    rw [e]
    have hfuel3 := hfuel2 hq
    rw [show fuel = 2 * (orderedPhases p).length +
      ((fuel - 2 * (orderedPhases p).length - 2) + 2) by omega]
    rw [scanSections_phases (orderedPhases p) _ _ hwfph]
    rw [scanSections_solid_block (qualSolids p) _ after hwfsol hstop]
    simp

/-! ## The reactant scan on serialized reactant lines -/

theorem dropWhile_spacesL (k : ℕ) (l : Line) :
    (spacesL k ++ l).dropWhile isWs = l.dropWhile isWs := by
  induction k with
  | zero => rfl
  | succ n ih =>
    rw [show spacesL (n + 1) ++ l = ' ' :: (spacesL n ++ l) from rfl,
      List.dropWhile_cons, if_pos (by decide)]
    exact ih

theorem dropWhile_ws_token (nm X : Line) (hne : nm ≠ []) (hws : ∀ c ∈ nm, isWs c = false) :
    (nm ++ X).dropWhile isWs = nm ++ X := by
  cases nm with
  | nil => exact absurd rfl hne
  | cons c t =>
    rw [List.cons_append, List.dropWhile_cons,
      if_neg (by simp [hws c (List.mem_cons_self c t)])]

theorem feTailAt_not_m (c : Char) (cs : Line) (hc : ¬(c = 'm')) :
    feTailAt (c :: cs) = none := by
  unfold feTailAt
  simp only []
  rw [if_neg hc]

theorem feScan_cons_not_m (c : Char) (cs : Line) (hc : ¬(c = 'm')) :
    feScan (c :: cs) = feScan cs := by
  rw [feScan, feTailAt_not_m c cs hc]

theorem feScan_skip (l : Line) (cs : Line) (hl : ∀ c ∈ l, ¬(c = 'm')) :
    feScan (l ++ cs) = feScan cs := by
  induction l with
  | nil => rfl
  | cons c t ih =>
    rw [List.cons_append, feScan_cons_not_m c _ (hl c (List.mem_cons_self c t))]
    exact ih (fun x hx => hl x (List.mem_cons_of_mem c hx))

theorem digitdot_ne_m {c : Char} (h : c.isDigit = true ∨ c = '.') : ¬(c = 'm') := by
  rcases h with h1 | rfl
  · exact digit_ne_char h1 (by decide)
  · decide

theorem feScan_m_none (cs : Line) (h : feTailAt ('m' :: cs) = none) :
    feScan ('m' :: cs) = feScan cs := by
  rw [feScan, h]

theorem feTailAt_mol (t : Line) : feTailAt ('m' :: 'o' :: 'l' :: t) = none := by
  unfold feTailAt
  simp only []
  rw [if_pos trivial]
  rw [show ('o' :: 'l' :: t).dropWhile isWs = 'o' :: 'l' :: t from by
    rw [List.dropWhile_cons, if_neg (by decide)]]
  simp only []
  rw [if_neg (by decide)]

theorem feTailAt_found (f : Char) (F' : Line)
    (hFall : ∀ c ∈ f :: F', isNumDotChar c = true)
    (hFws : ∀ c ∈ f :: F', isWs c = false) :
    feTailAt ('m' :: ' ' :: '=' :: ' ' :: ((f :: F') ++ (' ' :: 'g' :: []))) =
      some (f :: F') := by
  unfold feTailAt
  simp only []
  rw [if_pos trivial]
  rw [show (' ' :: '=' :: ' ' :: ((f :: F') ++ (' ' :: 'g' :: []))).dropWhile isWs =
    '=' :: ' ' :: ((f :: F') ++ (' ' :: 'g' :: [])) from by
    rw [List.dropWhile_cons, if_pos (by decide), List.dropWhile_cons, if_neg (by decide)]]
  simp only []
  rw [if_pos trivial]
  rw [show (' ' :: ((f :: F') ++ (' ' :: 'g' :: []))).dropWhile isWs =
    (f :: F') ++ (' ' :: 'g' :: []) from by
    rw [List.dropWhile_cons, if_pos (by decide), List.cons_append, List.dropWhile_cons,
      if_neg (by simp [hFws f (List.mem_cons_self f F')])]]
  rw [takeWhile_all_append isNumDotChar (f :: F') ' ' _ hFall (by decide)]
  rw [dropWhile_all_append isNumDotChar (f :: F') ' ' _ hFall (by decide)]
  simp only []
  rw [show (' ' :: 'g' :: [] : Line).dropWhile isWs = 'g' :: [] from by
    rw [List.dropWhile_cons, if_pos (by decide), List.dropWhile_cons, if_neg (by decide)]]
  simp only []
  rw [if_pos trivial]

/-- The serialized `Fe` reactant line matches `^\s*Fe\b.*?m\s*=\s*([0-9.]+)\s*g`
with the rendered mass as the captured group. -/
theorem feSearch_fe (n mw : ℚ) (h0n : 0 ≤ n) (h0m : 0 ≤ mw) :
    feSearch (emitReactantLine ⟨"Fe".toList, n, mw⟩) = some (fmt3 (n * mw)) := by
  have h0 : (0 : ℚ) ≤ n * mw := mul_nonneg h0n h0m
  have hFall : ∀ c ∈ fmt3 (n * mw), isNumDotChar c = true :=
    fun c hc => digitdot_numDot (fmt3_all _ h0 c hc)
  have hFws : ∀ c ∈ fmt3 (n * mw), isWs c = false :=
    fun c hc => digitdot_not_ws (fmt3_all _ h0 c hc)
  obtain ⟨f, F', hF⟩ : ∃ f F', fmt3 (n * mw) = f :: F' := by
    cases hx : fmt3 (n * mw) with
    | nil => exact absurd hx (fmt3_ne_nil _ h0)
    | cons a b => exact ⟨a, b, rfl⟩
  have e : emitReactantLine ⟨"Fe".toList, n, mw⟩ =
      spacesL 2 ++ ('F' :: 'e' :: (spacesL 2 ++ (' ' :: 'n' :: ' ' :: '=' :: ' ' ::
        (fmt3 n ++ (' ' :: 'm' :: 'o' :: 'l' :: ' ' :: '|' :: ' ' :: 'm' :: ' ' :: '=' :: ' ' ::
          (fmt3 (n * mw) ++ (' ' :: 'g' :: []))))))) := by
    rw [emitReactantLine, show ("  ".toList : Line) = spacesL 2 from rfl]
    simp [padRightL, List.append_assoc]
  unfold feSearch
  rw [e, dropWhile_spacesL]
  rw [show ('F' :: 'e' :: (spacesL 2 ++ (' ' :: 'n' :: ' ' :: '=' :: ' ' ::
      (fmt3 n ++ (' ' :: 'm' :: 'o' :: 'l' :: ' ' :: '|' :: ' ' :: 'm' :: ' ' :: '=' :: ' ' ::
        (fmt3 (n * mw) ++ (' ' :: 'g' :: []))))))).dropWhile isWs =
    'F' :: 'e' :: (spacesL 2 ++ (' ' :: 'n' :: ' ' :: '=' :: ' ' ::
      (fmt3 n ++ (' ' :: 'm' :: 'o' :: 'l' :: ' ' :: '|' :: ' ' :: 'm' :: ' ' :: '=' :: ' ' ::
        (fmt3 (n * mw) ++ (' ' :: 'g' :: [])))))) from by
    rw [List.dropWhile_cons, if_neg (by decide)]]
  rw [show dropLit ("Fe".toList) ('F' :: 'e' :: (spacesL 2 ++ (' ' :: 'n' :: ' ' :: '=' :: ' ' ::
      (fmt3 n ++ (' ' :: 'm' :: 'o' :: 'l' :: ' ' :: '|' :: ' ' :: 'm' :: ' ' :: '=' :: ' ' ::
        (fmt3 (n * mw) ++ (' ' :: 'g' :: []))))))) =
    some (spacesL 2 ++ (' ' :: 'n' :: ' ' :: '=' :: ' ' ::
      (fmt3 n ++ (' ' :: 'm' :: 'o' :: 'l' :: ' ' :: '|' :: ' ' :: 'm' :: ' ' :: '=' :: ' ' ::
        (fmt3 (n * mw) ++ (' ' :: 'g' :: [])))))) from by
    unfold dropLit
    rw [if_pos (by simp [startsWith])]
    rfl]
  simp only []
  rw [show (spacesL 2 : Line) ++ (' ' :: 'n' :: ' ' :: '=' :: ' ' ::
      (fmt3 n ++ (' ' :: 'm' :: 'o' :: 'l' :: ' ' :: '|' :: ' ' :: 'm' :: ' ' :: '=' :: ' ' ::
        (fmt3 (n * mw) ++ (' ' :: 'g' :: []))))) =
    ' ' :: ' ' :: ' ' :: 'n' :: ' ' :: '=' :: ' ' ::
      (fmt3 n ++ (' ' :: 'm' :: 'o' :: 'l' :: ' ' :: '|' :: ' ' :: 'm' :: ' ' :: '=' :: ' ' ::
        (fmt3 (n * mw) ++ (' ' :: 'g' :: [])))) from rfl]
  rw [if_neg (by simp only []; decide)]
  rw [feScan_cons_not_m _ _ (by decide), feScan_cons_not_m _ _ (by decide),
    feScan_cons_not_m _ _ (by decide), feScan_cons_not_m _ _ (by decide),
    feScan_cons_not_m _ _ (by decide), feScan_cons_not_m _ _ (by decide),
    feScan_cons_not_m _ _ (by decide)]
  rw [feScan_skip (fmt3 n) _ (fun c hc => digitdot_ne_m (fmt3_all _ h0n c hc))]
  rw [feScan_cons_not_m _ _ (by decide)]
  rw [feScan_m_none _ (feTailAt_mol _)]
  rw [feScan_cons_not_m _ _ (by decide), feScan_cons_not_m _ _ (by decide),
    feScan_cons_not_m _ _ (by decide), feScan_cons_not_m _ _ (by decide),
    feScan_cons_not_m _ _ (by decide)]
  rw [hF, feScan]
  rw [feTailAt_found f F' (hF ▸ hFall) (hF ▸ hFws)]

/-- A non-`Fe` well-formed reactant line never matches the Fe pattern. -/
theorem feSearch_not_fe (r : InReactant) (hwf : wfReactant r)
    (hne : ¬(r.name = "Fe".toList)) : feSearch (emitReactantLine r) = none := by
  obtain ⟨hnm1, hnm2, hpg, hn0, hm0, hfe, hb1, hb2⟩ := hwf
  have hbnd : fePrefixBoundary r.name = false := by
    rcases hfe with h1 | h2
    · exact absurd h1 hne
    · exact h2
  have e : emitReactantLine r =
      spacesL 2 ++ (r.name ++ (spacesL (4 - r.name.length) ++ (' ' :: 'n' :: ' ' :: '=' :: ' ' ::
        (fmt3 r.n ++ (' ' :: 'm' :: 'o' :: 'l' :: ' ' :: '|' :: ' ' :: 'm' :: ' ' :: '=' :: ' ' ::
          (fmt3 (r.n * r.mw) ++ (' ' :: 'g' :: []))))))) := by
    rw [emitReactantLine, show ("  ".toList : Line) = spacesL 2 from rfl]
    simp [padRightL, List.append_assoc]
  unfold feSearch
  rw [e, dropWhile_spacesL, dropWhile_ws_token _ _ hnm1 hnm2]
  obtain ⟨t', ht'⟩ := spacesL_space_cons (4 - r.name.length) ('n' :: ' ' :: '=' :: ' ' ::
    (fmt3 r.n ++ (' ' :: 'm' :: 'o' :: 'l' :: ' ' :: '|' :: ' ' :: 'm' :: ' ' :: '=' :: ' ' ::
      (fmt3 (r.n * r.mw) ++ (' ' :: 'g' :: [])))))
  rw [ht']
  by_cases hsw : startsWith ("Fe".toList) r.name = true
  · obtain ⟨t2, hname⟩ : ∃ t2, r.name = 'F' :: 'e' :: t2 := by
      cases hn1 : r.name with
      | nil => rw [hn1] at hsw; exact absurd hsw (by decide)
      | cons c1 t1 =>
        cases t1 with
        | nil =>
          rw [hn1] at hsw
          simp [startsWith] at hsw
        | cons c2 t2 =>
          rw [hn1] at hsw
          simp only [startsWith, Bool.and_eq_true, beq_iff_eq] at hsw
          exact ⟨t2, by rw [← hsw.1, ← hsw.2.1]⟩
    obtain ⟨c3, t3, hname2⟩ : ∃ c3 t3, t2 = c3 :: t3 := by
      cases ht2 : t2 with
      | nil => exact absurd (by rw [hname, ht2]; rfl) hne
      | cons a b => exact ⟨a, b, rfl⟩
    subst hname2
    have hword : isWordChar c3 = true := by
      rw [hname] at hbnd
      unfold fePrefixBoundary at hbnd
      simpa using hbnd
    rw [hname]
    rw [show dropLit ("Fe".toList) (('F' :: 'e' :: c3 :: t3) ++ ' ' :: t') =
      some (c3 :: (t3 ++ ' ' :: t')) from by
      unfold dropLit
      rw [if_pos (by simp [startsWith])]
      rfl]
    simp only []
    rw [if_pos (by simp [hword])]
  · rw [show dropLit ("Fe".toList) (r.name ++ ' ' :: t') = none from by
      unfold dropLit
      rw [if_neg (by
        rw [startsWith_sep_false _ (by decide) r.name t' (by
          cases hx : startsWith ("Fe".toList) r.name with
          | false => rfl
          | true => exact absurd hx hsw)]
        simp)]]

theorem feUpdate_fe (fe : Option ℚ) (n mw : ℚ) (h0n : 0 ≤ n) (h0m : 0 ≤ mw)
    (hb : n * mw ≤ 9999) :
    feUpdate fe (emitReactantLine ⟨"Fe".toList, n, mw⟩) = some (roundDec 3 (n * mw)) := by
  unfold feUpdate
  rw [feSearch_fe n mw h0n h0m]
  simp only []
  rw [pyFloat_fmt3 _ (mul_nonneg h0n h0m) hb]

theorem feUpdate_skip (fe : Option ℚ) (r : InReactant) (hwf : wfReactant r)
    (hne : ¬(r.name = "Fe".toList)) : feUpdate fe (emitReactantLine r) = fe := by
  unfold feUpdate
  rw [feSearch_not_fe r hwf hne]

theorem feUpdate_fe_named (fe : Option ℚ) (r : InReactant) (hn : r.name = "Fe".toList)
    (h0n : 0 ≤ r.n) (h0m : 0 ≤ r.mw) (hb : r.n * r.mw ≤ 9999) :
    feUpdate fe (emitReactantLine r) = some (roundDec 3 (r.n * r.mw)) := by
  cases r with
  | mk nm n mw =>
    simp only [] at hn h0n h0m hb ⊢
    subst hn
    exact feUpdate_fe fe n mw h0n h0m hb

theorem emitReactant_token_shape (r : InReactant) (hwf : wfReactant r) :
    ∃ r', pyStrip (emitReactantLine r) = r.name ++ ' ' :: r' := by
  obtain ⟨hnm1, hnm2, -⟩ := hwf
  have e : emitReactantLine r =
      spacesL 2 ++ (r.name ++ (spacesL (4 - r.name.length) ++ (' ' :: 'n' :: ' ' :: '=' :: ' ' ::
        (fmt3 r.n ++ (' ' :: 'm' :: 'o' :: 'l' :: ' ' :: '|' :: ' ' :: 'm' :: ' ' :: '=' :: ' ' ::
          (fmt3 (r.n * r.mw) ++ (' ' :: 'g' :: []))))))) := by
    rw [emitReactantLine, show ("  ".toList : Line) = spacesL 2 from rfl]
    simp [padRightL, List.append_assoc]
  rw [e, pyStrip_spaces, pyStrip_token _ _ hnm1 hnm2]
  have hXsplit : spacesL (4 - r.name.length) ++ (' ' :: 'n' :: ' ' :: '=' :: ' ' ::
      (fmt3 r.n ++ (' ' :: 'm' :: 'o' :: 'l' :: ' ' :: '|' :: ' ' :: 'm' :: ' ' :: '=' :: ' ' ::
        (fmt3 (r.n * r.mw) ++ (' ' :: 'g' :: []))))) =
      (spacesL (4 - r.name.length) ++ (' ' :: 'n' :: ' ' :: '=' :: ' ' ::
      (fmt3 r.n ++ (' ' :: 'm' :: 'o' :: 'l' :: ' ' :: '|' :: ' ' :: 'm' :: ' ' :: '=' :: ' ' ::
        (fmt3 (r.n * r.mw) ++ (' ' :: [])))))) ++ ['g'] := by
    simp [List.append_assoc]
  rw [hXsplit, rstrip_append_last _ 'g' (by decide), ← hXsplit]
  obtain ⟨r', hr'⟩ := spacesL_space_cons (4 - r.name.length) ('n' :: ' ' :: '=' :: ' ' ::
    (fmt3 r.n ++ (' ' :: 'm' :: 'o' :: 'l' :: ' ' :: '|' :: ' ' :: 'm' :: ' ' :: '=' :: ' ' ::
      (fmt3 (r.n * r.mw) ++ (' ' :: 'g' :: [])))))
  rw [hr']
  exact ⟨r', rfl⟩

theorem scanFeLines_emitted (rs : List InReactant) (rest : List Line)
    (hwf : ∀ r ∈ rs, wfReactant r)
    (huniq : (rs.filter (fun r => decide (r.name = "Fe".toList))).length ≤ 1) :
    ∀ fe, scanFeLines (rs.map emitReactantLine ++ [] :: rest) fe =
      ((match rs.find? (fun r => decide (r.name = "Fe".toList)) with
        | some r => some (roundDec 3 (r.n * r.mw))
        | none => fe), [] :: rest) := by
  induction rs with
  | nil =>
    intro fe
    simp only [List.map_nil, List.nil_append, List.find?_nil]
    rw [scanFeLines, if_pos (by decide)]
  | cons r rs' ih =>
    intro fe
    have hwfr := hwf r (List.mem_cons_self r rs')
    obtain ⟨hnm1, hnm2, -, hn0, hm0, -, -, hb2⟩ := hwfr
    obtain ⟨r', hr'⟩ := emitReactant_token_shape r (hwf r (List.mem_cons_self r rs'))
    obtain ⟨x, hx⟩ : ∃ x, emitReactantLine r = ' ' :: x := ⟨_, rfl⟩
    rw [List.map_cons, List.cons_append, scanFeLines]
    rw [if_neg (by
      rw [hr', hx]
      simp only [Bool.or_eq_true, decide_eq_true_eq, not_or]
      constructor
      · intro he
        rcases List.append_eq_nil.mp he with ⟨he1, -⟩
        exact hnm1 he1
      · simp [startsWith])]
    by_cases hFe : r.name = "Fe".toList
    · rw [feUpdate_fe_named fe r hFe hn0 hm0 hb2]
      have hfilt : (rs'.filter (fun r => decide (r.name = "Fe".toList))).length = 0 := by
        rw [List.filter_cons_of_pos (by simp only [decide_eq_true_eq]; exact hFe)] at huniq
        rw [List.length_cons] at huniq
        omega
      have hnone : rs'.find? (fun r => decide (r.name = "Fe".toList)) = none := by
        rw [List.find?_eq_none]
        intro x hx2
        have := List.filter_eq_nil_iff.mp (List.length_eq_zero.mp hfilt) x hx2
        simpa using this
      rw [ih (fun x hx2 => hwf x (List.mem_cons_of_mem r hx2)) (by rw [hfilt]; exact Nat.zero_le 1) _]
      rw [List.find?_cons_of_pos _ (by simp only [decide_eq_true_eq]; exact hFe), hnone]
    · rw [feUpdate_skip fe r (hwf r (List.mem_cons_self r rs')) hFe]
      have huniq' : (rs'.filter (fun r => decide (r.name = "Fe".toList))).length ≤ 1 := by
        rw [List.filter_cons_of_neg (by simp only [decide_eq_true_eq]; exact hFe)] at huniq
        exact huniq
      rw [ih (fun x hx2 => hwf x (List.mem_cons_of_mem r hx2)) huniq' _]
      rw [List.find?_cons_of_neg _ (by simp only [decide_eq_true_eq]; exact hFe)]

theorem scanReactants_emitted (p : InPage) (rest : List Line)
    (hphf : startsWith ("PHASE:".toList) p.formula = false)
    (hlab : startsWith ("Reactants (page scope):".toList) (pyStrip p.formula) = false)
    (hwf : ∀ r ∈ p.reactants, wfReactant r)
    (huniq : (p.reactants.filter (fun r => decide (r.name = "Fe".toList))).length ≤ 1) :
    scanReactants (p.formula :: tempLine p :: [] :: ("Reactants (page scope):".toList) ::
        (p.reactants.map emitReactantLine ++ [] :: rest)) =
      ((match p.reactants.find? (fun r => decide (r.name = "Fe".toList)) with
        | some r => some (roundDec 3 (r.n * r.mw))
        | none => none), [] :: rest) := by
  obtain ⟨x, hx⟩ : ∃ x, tempLine p = 'T' :: x := ⟨_, rfl⟩
  rw [scanReactants, if_neg (by rw [hphf]; simp), if_neg (by rw [hlab]; simp)]
  rw [scanReactants, if_neg (by rw [hx]; simp [startsWith]),
    if_neg (by rw [hx, pyStrip_cons _ _ (by decide)]; simp [startsWith])]
  rw [scanReactants, if_neg (by decide), if_neg (by decide)]
  rw [scanReactants, if_neg (by decide), if_pos (by decide)]
  exact scanFeLines_emitted p.reactants rest hwf huniq none

/-- A concrete −12.5 °C condition with a full reactant/phase/solid complement
is dropped entirely by the round trip. -/
theorem C9_witness :
    parse_txt_pages (convert_pages_to_txt [negPage]) = some [] ∧
    descTempSearch ("Cooling to -12.5 C".toList) = some ("-12.5".toList) ∧
    fnum ("-12.5".toList) = PyFloat.finite (-(25 / 2)) :=
  C9_negative_block_skipped negPage (by decide) (by decide)

/-! ## The positive page-header match and the outer loop on serialized blocks -/

theorem headerLine_match (p : InPage) (h0 : 0 ≤ p.tC) :
    matchPageHeader (pyStrip (headerLine p)) = some (p.pid, fmt3 p.tC) := by
  have hDall := natToDigits_all p.pid
  have hFall := fmt3_all p.tC h0
  cases hD : natToDigits p.pid with
  | nil => exact absurd hD (natToDigits_ne_nil p.pid)
  | cons d D' =>
  cases hF : fmt3 p.tC with
  | nil => exact absurd hF (fmt3_ne_nil p.tC h0)
  | cons f F' =>
  rw [hD] at hDall
  rw [hF] at hFall
  have hd : isWs d = false := isDigit_not_ws d (hDall d (List.mem_cons_self d D'))
  have hf : isWs f = false := digitdot_not_ws (hFall f (List.mem_cons_self f F'))
  have hFnum : ∀ c ∈ (f :: F'), isNumDotChar c = true := by
    intro c hc
    rcases hFall c hc with h | h
    · simp [isNumDotChar, h]
    · simp [isNumDotChar, h]
  have e : headerLine p = 'P' :: 'a' :: 'g' :: 'e' :: ' ' ::
      ((d :: D') ++ (' ' :: '-' :: ' ' :: ((f :: F') ++ (' ' :: 'C' :: [])))) := by
    rw [headerLine, hD, hF]
    simp
  have hstrip : pyStrip (headerLine p) = headerLine p := by
    rw [e, pyStrip_cons 'P' _ (by decide)]
    congr 1
    have hsplit : 'a' :: 'g' :: 'e' :: ' ' ::
        ((d :: D') ++ (' ' :: '-' :: ' ' :: ((f :: F') ++ (' ' :: 'C' :: [])))) =
        ('a' :: 'g' :: 'e' :: ' ' ::
          ((d :: D') ++ (' ' :: '-' :: ' ' :: ((f :: F') ++ [' '])))) ++ ['C'] := by
      simp
    rw [hsplit, rstrip_append_last _ 'C' (by decide), ← hsplit]
  rw [hstrip, e]
  have h1 : dropLit ("Page".toList)
      ('P' :: 'a' :: 'g' :: 'e' :: ' ' ::
        ((d :: D') ++ (' ' :: '-' :: ' ' :: ((f :: F') ++ (' ' :: 'C' :: []))))) =
      some (' ' :: ((d :: D') ++ (' ' :: '-' :: ' ' :: ((f :: F') ++ (' ' :: 'C' :: []))))) := by
    simp [dropLit, startsWith]
  unfold matchPageHeader
  rw [h1]
  simp only []
  have h2 : (' ' :: ((d :: D') ++ (' ' :: '-' :: ' ' :: ((f :: F') ++
      (' ' :: 'C' :: []))))).takeWhile isWs =
      ' ' :: (((d :: D') ++ (' ' :: '-' :: ' ' :: ((f :: F') ++
        (' ' :: 'C' :: [])))).takeWhile isWs) := by
    rw [List.takeWhile_cons, if_pos (by decide)]
  rw [h2, if_neg (by simp)]
  have h3 : (' ' :: ((d :: D') ++ (' ' :: '-' :: ' ' :: ((f :: F') ++
      (' ' :: 'C' :: []))))).dropWhile isWs =
      (d :: D') ++ (' ' :: '-' :: ' ' :: ((f :: F') ++ (' ' :: 'C' :: []))) := by
    rw [List.dropWhile_cons, if_pos (by decide), List.cons_append, List.dropWhile_cons,
      if_neg (by simp [hd])]
  rw [h3]
  rw [takeWhile_all_append Char.isDigit (d :: D') ' ' _ hDall (by decide)]
  rw [dropWhile_all_append Char.isDigit (d :: D') ' ' _ hDall (by decide)]
  simp only []
  have h4 : (' ' :: '-' :: ' ' :: ((f :: F') ++ (' ' :: 'C' :: []))).dropWhile isWs =
      '-' :: ' ' :: ((f :: F') ++ (' ' :: 'C' :: [])) := by
    rw [List.dropWhile_cons, if_pos (by decide), List.dropWhile_cons, if_neg (by decide)]
  rw [h4]
  simp only []
  have h5 : (' ' :: ((f :: F') ++ (' ' :: 'C' :: []))).dropWhile isWs =
      (f :: F') ++ (' ' :: 'C' :: []) := by
    rw [List.dropWhile_cons, if_pos (by decide), List.cons_append, List.dropWhile_cons,
      if_neg (by simp [hf])]
  rw [h5]
  rw [takeWhile_all_append isNumDotChar (f :: F') ' ' _ hFnum (by decide)]
  rw [dropWhile_all_append isNumDotChar (f :: F') ' ' _ hFnum (by decide)]
  simp only []
  have h6 : (' ' :: 'C' :: ([] : Line)).dropWhile isWs = 'C' :: [] := by decide
  rw [h6]
  simp only []
  rw [← hD, digitsVal_natToDigits]

theorem parseTxtLoop_mono (fuel : ℕ) : ∀ (fuel' : ℕ) (l : List Line) r,
    parseTxtLoop fuel l = some r → fuel ≤ fuel' → parseTxtLoop fuel' l = some r := by
  induction fuel with
  | zero =>
    intro fuel' l r h _
    cases l with
    | nil =>
      cases fuel' with
      | zero => exact h
      | succ m =>
        rw [parseTxtLoop] at h ⊢
        exact h
    | cons x xs => exact Option.noConfusion h
  | succ n ih =>
    intro fuel' l r h hle
    cases l with
    | nil =>
      cases fuel' with
      | zero => exact h
      | succ m =>
        rw [parseTxtLoop] at h ⊢
        exact h
    | cons x xs =>
      obtain ⟨m, rfl⟩ : ∃ m, fuel' = m + 1 := ⟨fuel' - 1, by omega⟩
      rw [parseTxtLoop] at h ⊢
      cases hm : matchPageHeader (pyStrip x) with
      | none =>
        rw [hm] at h
        simp only [] at h ⊢
        exact ih m xs r h (by omega)
      | some pt =>
        rw [hm] at h
        cases pt with
        | mk pn tstr =>
        simp only [] at h ⊢
        cases hfq : finQ tstr with
        | none =>
          rw [hfq] at h
          simp only [] at h
          exact Option.noConfusion h
        | some t =>
          rw [hfq] at h
          simp only [] at h ⊢
          cases hsr : scanReactants xs with
          | mk fe rest1 =>
          rw [hsr] at h
          simp only [] at h ⊢
          cases hss : scanSections rest1.length rest1 with
          | none =>
            rw [hss] at h
            simp only [] at h
            exact Option.noConfusion h
          | some res =>
            rw [hss] at h
            obtain ⟨phs, sols, rest2⟩ := res
            simp only [] at h ⊢
            cases hrec : parseTxtLoop n rest2 with
            | none =>
              rw [hrec] at h
              simp only [] at h
              exact Option.noConfusion h
            | some ps =>
              rw [hrec] at h
              simp only [] at h
              rw [ih m rest2 ps hrec (by omega)]
              simp only []
              exact h

theorem emitBlock_cons (p : InPage) (after : List Line) :
    emitBlock p ++ after = sepLine :: headerLine p :: p.formula :: tempLine p :: [] ::
      ("Reactants (page scope):".toList) :: (p.reactants.map emitReactantLine ++ [] ::
        ((List.map emitPhase (orderedPhases p)).flatten ++ (emitSolidsSection p ++ after))) := by
  simp [emitBlock, List.append_assoc]

theorem emitPhase_length (ph : InPhase) : 4 ≤ (emitPhase ph).length := by
  simp [emitPhase]

theorem phases_flatten_length (phs : List InPhase) :
    4 * phs.length ≤ ((phs.map emitPhase).flatten).length := by
  induction phs with
  | nil => simp
  | cons ph t ih =>
    rw [List.map_cons, List.flatten_cons, List.length_append, List.length_cons]
    have := emitPhase_length ph
    omega

theorem emitSolidsSection_length (p : InPage) (h : qualSolids p ≠ []) :
    3 ≤ (emitSolidsSection p).length := by
  rw [emitSolidsSection, if_neg h]
  simp

theorem emitBlock_length (p : InPage) : 7 ≤ (emitBlock p).length := by
  simp [emitBlock]
  omega

theorem startsWith_page_headerLine (p : InPage) :
    startsWith ("Page".toList) (headerLine p) = true := by
  rw [headerLine]
  have e : ("Page ".toList : Line) ++ natToDigits p.pid ++ (" - ".toList) ++ fmt3 p.tC ++
      (" C".toList) = ("Page".toList : Line) ++
      (' ' :: (natToDigits p.pid ++ (" - ".toList) ++ fmt3 p.tC ++ (" C".toList))) := by
    simp
  rw [e]
  exact startsWith_refl_append _ _

theorem containsSeq_headerLine (p : InPage) :
    containsSeq ("Page".toList) (headerLine p) = true := by
  have e : headerLine p = 'P' :: ("age ".toList ++ natToDigits p.pid ++ (" - ".toList) ++
      fmt3 p.tC ++ (" C".toList)) := by
    rw [headerLine]
    simp
  rw [e, containsSeq, ← e, startsWith_page_headerLine]
  rfl

theorem nextIsPageSep_block (p : InPage) (ls : List Line) :
    nextIsPageSep (emitBlock p ++ ls) = true := by
  rw [emitBlock_cons, nextIsPageSep]
  rw [containsSeq_headerLine]
  rfl

theorem parsedOfPage_eq (p : InPage) :
    parsedOfPage p =
      { page_num := p.pid, T_C := roundDec 3 p.tC,
        Fe_g := (match p.reactants.find? (fun r => decide (r.name = "Fe".toList)) with
          | some r => some (roundDec 3 (r.n * r.mw))
          | none => none),
        phases := (orderedPhases p).map
          (fun ph => (⟨ph.name, (sortedRows ph).map roundRowOf⟩ : PPhase)),
        pure_solids := (qualSolids p).map (fun s => (⟨s.name, roundDec 3 s.g⟩ : PSolid)) } := by
  rw [parsedOfPage]
  cases h : p.reactants.find? (fun r => decide (r.name = "Fe".toList)) <;> rfl

/-- One serialized block consumes two units of outer-loop fuel and prepends
the reconstructed condition record. -/
theorem parseTxtLoop_block (p : InPage) (hwf : wfPage p) (after : List Line)
    (hstop : after = [] ∨ nextIsPageSep after = true) (fuel : ℕ) :
    parseTxtLoop (fuel + 2) (emitBlock p ++ after) =
      (parseTxtLoop fuel after).map (fun ps => parsedOfPage p :: ps) := by
  obtain ⟨h0, h9999, hmphf, hphf, hlab, hreac, huniq, hph, hsol⟩ := hwf
  rw [emitBlock_cons]
  rw [show fuel + 2 = (fuel + 1) + 1 from rfl]
  rw [parseTxtLoop, mph_sep]
  simp only []
  rw [parseTxtLoop, headerLine_match p h0]
  simp only []
  rw [finQ_fmt3 p.tC h0 h9999]
  simp only []
  rw [scanReactants_emitted p _ hphf hlab hreac huniq]
  simp only []
  rw [List.length_cons, scanSections_blank]
  have hflat := phases_flatten_length (orderedPhases p)
  have hfuel : 2 * (orderedPhases p).length ≤
      ((List.map emitPhase (orderedPhases p)).flatten ++
        (emitSolidsSection p ++ after)).length := by
    rw [List.length_append]
    omega
  have hfuel2 : qualSolids p ≠ [] → 2 * (orderedPhases p).length + 2 ≤
      ((List.map emitPhase (orderedPhases p)).flatten ++
        (emitSolidsSection p ++ after)).length := by
    intro hq
    have := emitSolidsSection_length p hq
    rw [List.length_append, List.length_append]
    omega
  rw [scanSections_page p hph hsol after hstop _ hfuel hfuel2]
  simp only []
  rw [parsedOfPage_eq]
  cases hrec : parseTxtLoop fuel after with
  | none => rfl
  | some ps => rfl

/-- The outer loop over a whole serialized stream of well-formed conditions
reconstructs exactly the expected records, given enough fuel. -/
theorem parseTxtLoop_emitted (ps : List InPage) : ∀ (fuel : ℕ),
    (∀ p ∈ ps, wfPage p) → ((ps.map emitBlock).flatten).length ≤ fuel →
    parseTxtLoop fuel ((ps.map emitBlock).flatten) = some (ps.map parsedOfPage) := by
  induction ps with
  | nil =>
    intro fuel _ _
    simp only [List.map_nil, List.flatten_nil]
    cases fuel <;> rfl
  | cons p t ih =>
    intro fuel hwf hfuel
    rw [List.map_cons, List.flatten_cons] at hfuel ⊢
    have hstop : (t.map emitBlock).flatten = [] ∨
        nextIsPageSep ((t.map emitBlock).flatten) = true := by
      cases t with
      | nil => left; simp
      | cons q u =>
        right
        rw [List.map_cons, List.flatten_cons]
        exact nextIsPageSep_block q _
    have hblen := emitBlock_length p
    have hrec := ih (fuel - 2) (fun x hx => hwf x (List.mem_cons_of_mem p hx))
      (by rw [List.length_append] at hfuel; omega)
    have h2 : 2 ≤ fuel := by
      rw [List.length_append] at hfuel
      omega
    rw [show fuel = (fuel - 2) + 2 by omega]
    rw [parseTxtLoop_block p (hwf p (List.mem_cons_self p t)) _ hstop (fuel - 2)]
    rw [hrec]
    simp

/-! ## Rounding error bounds and the approximation statement -/

theorem roundDec_err (d : ℕ) (q : ℚ) : |roundDec d q - q| ≤ 1 / (2 * 10 ^ d) := by
  have h10 : (0:ℚ) < 10 ^ d := by positivity
  have h := abs_sub_round (q * 10 ^ d)
  rw [roundDec]
  have e : (((round (q * 10 ^ d) : ℤ) : ℚ) - q * 10 ^ d) / 10 ^ d =
      ((round (q * 10 ^ d) : ℤ) : ℚ) / 10 ^ d - q := by
    rw [sub_div]
    congr 1
    exact mul_div_cancel_right₀ q (ne_of_gt h10)
  rw [← e, abs_div, abs_of_pos h10, abs_sub_comm]
  rw [div_le_div_iff h10 (by positivity)]
  calc |q * 10 ^ d - ((round (q * 10 ^ d) : ℤ) : ℚ)| * (2 * 10 ^ d)
      ≤ (1 / 2) * (2 * 10 ^ d) := mul_le_mul_of_nonneg_right h (by positivity)
    _ = 1 * 10 ^ d := by ring

theorem roundDec3_err (q : ℚ) : |roundDec 3 q - q| ≤ 1 / 2000 := by
  have h := roundDec_err 3 q
  have e : (1:ℚ) / (2 * 10 ^ 3) = 1 / 2000 := by norm_num
  rw [e] at h
  exact h

theorem roundDec4_err (q : ℚ) : |roundDec 4 q - q| ≤ 1 / 20000 := by
  have h := roundDec_err 4 q
  have e : (1:ℚ) / (2 * 10 ^ 4) = 1 / 20000 := by norm_num
  rw [e] at h
  exact h

theorem rowApprox_roundRowOf (r : InRow) : rowApprox r (roundRowOf r) := by
  refine ⟨rfl, roundDec3_err _, ?_, roundDec3_err _, roundDec3_err _, roundDec4_err _⟩
  show |roundDec 3 (r.W * 100) - 100 * r.W| ≤ 1 / 2000
  rw [mul_comm 100 r.W]
  exact roundDec3_err _

theorem pageApprox_parsedOf (p : InPage) : pageApprox p (parsedOfPage p) := by
  unfold pageApprox
  refine ⟨rfl, roundDec3_err _, ?_, ?_, ?_⟩
  · cases h : p.reactants.find? (fun r => decide (r.name = "Fe".toList)) with
    | none =>
      simp only []
      rw [show (parsedOfPage p).Fe_g =
        (p.reactants.find? (fun r => decide (r.name = "Fe".toList))).map
          (fun r => roundDec 3 (r.n * r.mw)) from rfl, h]
      rfl
    | some r =>
      simp only []
      refine ⟨roundDec 3 (r.n * r.mw), ?_, roundDec3_err _⟩
      rw [show (parsedOfPage p).Fe_g =
        (p.reactants.find? (fun r => decide (r.name = "Fe".toList))).map
          (fun r => roundDec 3 (r.n * r.mw)) from rfl, h]
      rfl
  · rw [show (parsedOfPage p).phases = (orderedPhases p).map
        (fun ph => (⟨ph.name, (sortedRows ph).map roundRowOf⟩ : PPhase)) from rfl]
    rw [List.forall₂_map_right_iff, List.forall₂_same]
    intro ph hph
    refine ⟨rfl, ?_⟩
    rw [show ((⟨ph.name, (sortedRows ph).map roundRowOf⟩ : PPhase)).rows =
        (sortedRows ph).map roundRowOf from rfl]
    rw [List.forall₂_map_right_iff, List.forall₂_same]
    intro rr hrr
    refine ⟨?_, rowApprox_roundRowOf rr⟩
    have h1 : rr ∈ qualRows ph := (mem_insertionSortBy _ rr _).mp hrr
    have h2 := (List.mem_filter.mp h1).2
    exact of_decide_eq_true h2
  · rw [show (parsedOfPage p).pure_solids = (qualSolids p).map
        (fun s => (⟨s.name, roundDec 3 s.g⟩ : PSolid)) from rfl]
    rw [List.forall₂_map_right_iff, List.forall₂_same]
    intro sol hsol
    exact ⟨rfl, roundDec3_err _⟩

/-- **C1** (amended). For every well-formed Condition record set fed through
the canonicalizer (`convert_pages_to_txt`) and then the reconstructor
(`parse_txt_pages`), the round trip succeeds and yields exactly one record
per condition; the reconstructed page number and phase names are verbatim,
the temperature and tracked reactant mass agree with the originals to the
3-decimal formatting precision, and each qualifying row (serialized mass
`≥ 0.01`, in descending-mass order) has its (mass, weight, mole,
mole-fraction) fields within half a unit of the 3rd decimal and its activity
within half a unit of the 4th decimal — except that the reconstructed weight
field equals the weight *percent* (100 times the original weight fraction),
since the canonicalizer multiplies by 100 (main.py:174) and the
reconstructor stores the printed value raw. -/
theorem C1_roundtrip_amended (ps : List InPage) (hwf : ∀ p ∈ ps, wfPage p) :
    parse_txt_pages (convert_pages_to_txt ps) = some (ps.map parsedOfPage) ∧
    List.Forall₂ pageApprox ps (ps.map parsedOfPage) := by
  constructor
  · rw [parse_txt_pages, convert_pages_to_txt]
    exact parseTxtLoop_emitted ps _ hwf le_rfl
  · rw [List.forall₂_map_right_iff, List.forall₂_same]
    intro p hp
    exact pageApprox_parsedOf p

/-- The two-condition scenario with a precipitating solid is well formed and
round trips to its expected reconstruction. -/
theorem C1_witness :
    (∀ p ∈ [scPage1, scPage2s], wfPage p) ∧
    (parse_txt_pages (convert_pages_to_txt [scPage1, scPage2s]) =
        some ([scPage1, scPage2s].map parsedOfPage) ∧
      List.Forall₂ pageApprox [scPage1, scPage2s] ([scPage1, scPage2s].map parsedOfPage)) :=
  ⟨by decide, C1_roundtrip_amended [scPage1, scPage2s] (by decide)⟩

end Stillmetal
